import Mathlib

/-!
Verification of google/safeopen: safe file-open primitives that resist
path-traversal and symlink-escape attacks.

The development shallowly embeds the library's Go sources:
* the pure, string-level path validators (`canTraverseUnixRelPath`,
  `unixRelativePathDoesntTraverse`, `winRelativePathDoesntTraverse`,
  `winIsSimpleFilename`, `unixIsFilename`);
* a filesystem model (`Node`) together with models of the kernel calls the
  library issues (`openat` with `O_NOFOLLOW`, `openat2` with
  `RESOLVE_BENEATH`, `NtCreateFile` with `FILE_OPEN_REPARSE_POINT`);
* transcriptions of the per-platform resolvers (`safeopen_linux.go`,
  `safeopen_nix.go`, `safeopen_win.go`) and of the portable wrappers
  (`safeopen.go`), threading an explicit descriptor table and event trace.

Strings are manipulated through explicit `List Char` recursions mirroring the
Go `strings`/`path/filepath` helpers, so that facts about them can be settled
both by evaluation and by induction.
-/

deriving instance DecidableEq for Except

namespace Safeopen

/-! ## Character-list string helpers (models of Go `strings` functions) -/

/-- Model of Go `strings.Split(s, sep)` for a one-character separator, on the
character list of the string: `chSplit '/' "a//b".data = [[a],[],[b]]`; the
result is always non-empty and splitting the empty string yields `[[]]`,
exactly as in Go. -/
def chSplit (sep : Char) : List Char → List (List Char)
  | [] => [[]]
  | c :: cs =>
    if c = sep then [] :: chSplit sep cs
    else
      match chSplit sep cs with
      | s :: ss => (c :: s) :: ss
      | [] => [[c]]

/-- `chSplit` never returns the empty list. -/
theorem chSplit_ne_nil (sep : Char) (l : List Char) : chSplit sep l ≠ [] := by
  cases l with
  | nil => simp [chSplit]
  | cons c cs =>
    simp only [chSplit]
    split
    · simp
    · split <;> simp_all

/-- Model of Go `strings.Join` / the segment-reassembly step of
`path/filepath.Clean`: interleave a one-character separator between the
segments. -/
def chJoin (sep : Char) : List (List Char) → List Char
  | [] => []
  | [s] => s
  | s :: rest => s ++ sep :: chJoin sep rest

/-- Model of Go `strings.HasPrefix`. -/
def chStarts : List Char → List Char → Bool
  | [], _ => true
  | _ :: _, [] => false
  | p :: ps, c :: cs => p = c && chStarts ps cs

/-- Model of Go `strings.TrimLeft(s, "/")`: drop every leading `/`. -/
def chTrimSlashes : List Char → List Char
  | [] => []
  | c :: cs => if c = '/' then chTrimSlashes cs else c :: cs

/-- Model of Go `strings.ReplaceAll(s, "/", "\\")` as used by the Windows
backend to normalize directory separators. -/
def chToBackslashes (l : List Char) : List Char :=
  l.map fun c => if c = '/' then '\\' else c

/-- The loop of `canTraverseUnixRelPath` / `winRelativePathDoesntTraverse`
that scans the separator-delimited components for `.` or `..` (the source
iterates `strings.Cut`; that loop visits every component except possibly a
trailing empty one, and an empty component is never a dot, so scanning the
full split is equivalent). -/
def segsHaveDots (segs : List (List Char)) : Bool :=
  segs.any fun part => part = ['.'] || part = ['.', '.']

/-! ## Model of Go `path/filepath.Clean`

`Clean` is the standard lexical normalization: split on the separator, drop
empty and `.` components, cancel a `..` against a preceding real component,
keep leading `..`s on relative paths and drop them on rooted ones.  The stack
below holds the processed components in reverse order. -/

/-- One step of the `Clean` component stack.  `rooted` tells whether the input
began with a separator (in which case `..` at the top is dropped rather than
kept). -/
def cleanStep (rooted : Bool) (stack : List (List Char)) (seg : List Char) :
    List (List Char) :=
  if seg = [] ∨ seg = ['.'] then stack
  else if seg = ['.', '.'] then
    match stack with
    | [] => if rooted then [] else [['.', '.']]
    | top :: rest =>
      if top = ['.', '.'] then seg :: stack
      else rest
  else seg :: stack

/-- The cleaned components of a path (in order), given its components. -/
def cleanSegs (rooted : Bool) (segs : List (List Char)) : List (List Char) :=
  (segs.foldl (cleanStep rooted) []).reverse

/-- Model of Go `path/filepath.Clean` on a POSIX path, on character lists.
Matches the documented lexical algorithm: empty input cleans to `.`, a rooted
path keeps its leading separator and drops `..` at the root, a relative path
keeps leading `..` components, and an empty result becomes `.`. -/
def goCleanChars (sep : Char) (l : List Char) : List Char :=
  if l = [] then ['.']
  else if l.head? = some sep then
    sep :: chJoin sep (cleanSegs true (chSplit sep l))
  else
    match cleanSegs false (chSplit sep l) with
    | [] => ['.']
    | segs => chJoin sep segs

/-! ## The path validators (transcribed from the sources) -/

/-- Transcription of `canTraverseUnixRelPath` (safeopen_linux.go): reject the
empty path, strip every leading `/` (openat2 rejects absolute destinations and
backward compatibility treats them as relative), clean the path when some
component is `.` or `..`, then reject a result that is `..` or starts with
`../`.  Returns the (possibly rewritten) path together with the verdict, as
the Go function does. -/
def canTraverseUnixRelPath (path : List Char) : List Char × Bool :=
  if path = [] then ([], false)
  else
    let path := chTrimSlashes path
    let path :=
      if segsHaveDots (chSplit '/' path) then goCleanChars '/' path else path
    if path = ['.', '.'] ∨ chStarts ['.', '.', '/'] path then ([], false)
    else (path, true)

/-- Transcription of `unixRelativePathDoesntTraverse` (safeopen_nix.go): like
`canTraverseUnixRelPath` but without the leading-separator strip, and only the
verdict is returned — the caller keeps walking the original string. -/
def unixRelativePathDoesntTraverse (path : List Char) : Bool :=
  if path = [] then false
  else
    let cleaned :=
      if segsHaveDots (chSplit '/' path) then goCleanChars '/' path else path
    !(cleaned = ['.', '.'] ∨ chStarts ['.', '.', '/'] cleaned)

/-- Transcription of `winRelativePathDoesntTraverse` (safeopen_win.go):
reject the empty path and any path containing `?` (NT object-namespace
marker), normalize `/` to `\`, clean when a component is `.` or `..`, then
reject a result that is `..` or starts with `..\`.  Model of
`path/filepath.Clean` on Windows for volume-free paths; the rejection test is
unaffected by the `postClean` adjustments newer Go versions apply to paths
whose first element contains a colon, since those never begin with `..`. -/
def winRelativePathDoesntTraverse (path : List Char) : List Char × Bool :=
  if path = [] then ([], false)
  else if path.any (· = '?') then ([], false)
  else
    let path := chToBackslashes path
    let path :=
      if segsHaveDots (chSplit '\\' path) then goCleanChars '\\' path else path
    if path = ['.', '.'] ∨ chStarts ['.', '.', '\\'] path then ([], false)
    else (path, true)

/-- Transcription of `winIsSimpleFilename` (safeopen_win.go). -/
def winIsSimpleFilename (path : List Char) : Bool :=
  !(path.any (· = '/') || path.any (· = '\\') || path = ['.'] || path = ['.', '.'])

/-- Modelled from the spec: `unixIsFilename` lives in `safeopen_nix_common.go`,
which is absent from the sources (only its callers are present).  Per the
spec's Path Validator contract, `DirectChild` mode "fails if the string
contains any path separator, or equals `.` or `..`". -/
def unixIsFilename (path : List Char) : Bool :=
  !(path.any (· = '/') || path = ['.'] || path = ['.', '.'])

/-! ## Filesystem model

A filesystem is a tree of nodes; a directory handle is modelled as the list of
names leading from the model root to the directory it references.  The file
permission/mode argument (`perm`, passed through `syscallMode`, also defined in
the absent `safeopen_nix_common.go`) only selects permission bits of newly
created files and never influences which node a path resolves to, so the model
carries it nowhere. -/

/-- A filesystem node: a regular file with its content bytes, a directory with
its named entries, or a symbolic link with its target string (on Windows, a
reparse point). -/
inductive Node where
  | file (data : List Nat)
  | dir (entries : List (List Char × Node))
  | symlink (target : List Char)

instance : Inhabited Node := ⟨.dir []⟩

/-- A position in the tree: the names on the way down from the model root. -/
abbrev FsPath := List (List Char)

/-- Look up a name among directory entries. -/
def findEntry (name : List Char) : List (List Char × Node) → Option Node
  | [] => none
  | e :: es => if e.1 = name then some e.2 else findEntry name es

/-- The child of a node under a name (only directories have children). -/
def Node.child (n : Node) (name : List Char) : Option Node :=
  match n with
  | .dir es => findEntry name es
  | _ => none

/-- The node at a position, descending through directory entries only. -/
def nodeAt (root : Node) : FsPath → Option Node
  | [] => some root
  | name :: rest =>
    match root.child name with
    | some c => nodeAt c rest
    | none => none

/-- Replace or add an entry among directory entries. -/
def putEntry (name : List Char) (n : Node) :
    List (List Char × Node) → List (List Char × Node)
  | [] => [(name, n)]
  | e :: es => if e.1 = name then (name, n) :: es else e :: putEntry name n es

/-- Write the node at a position: descend through existing directories,
replace the target entry or append it at the last step.  Positions that do not
pass through directories leave the tree unchanged (the syscall models only
write at positions they have just resolved). -/
def setPath (root : Node) : FsPath → Node → Node
  | [], n => n
  | name :: rest, n =>
    match root with
    | .dir es =>
      match findEntry name es with
      | some c => .dir (putEntry name (setPath c rest n) es)
      | none => if rest = [] then .dir (putEntry name n es) else .dir es
    | other => other

/-! ## Model of the kernel calls -/

/-- The error numbers the library's control flow distinguishes.  `ENOTSUP` and
`EOPNOTSUPP` share one value on Linux and are modelled as one constructor.
`ELOOP` stands for the symlink rejection an `O_NOFOLLOW` /
`RESOLVE_NO_SYMLINKS` open reports (with `O_DIRECTORY|O_NOFOLLOW` the kernel
reports `ENOTDIR` instead; both are errors and the model uses `ELOOP`
uniformly), and it also stands for the Windows reparse-point rejection.
`EXDEV` is what `RESOLVE_BENEATH` reports for an escape. -/
inductive Errno where
  | enoent | eloop | enotdir | eisdir | exdev | einval | enosys | enotsup
  | ebadf | eexist
deriving DecidableEq

/-- The portable open-flag set, as the bits of the Go `flag` argument that the
library inspects (`os.O_RDONLY` is the zero value).  `nofollow` and
`directory` are the bits the resolvers themselves add. -/
structure OFlags where
  write : Bool := false
  creat : Bool := false
  trunc : Bool := false
  nofollow : Bool := false
  directory : Bool := false
deriving DecidableEq

/-- `os.O_RDONLY`. -/
def oRDONLY : OFlags := {}

/-- `os.O_RDWR|os.O_CREATE|os.O_TRUNC`, the fixed flag set of the create
operations and of `writeFile`. -/
def oCreateRW : OFlags := { write := true, creat := true, trunc := true }

/-- `os.O_RDONLY|unix.O_NOFOLLOW|unix.O_DIRECTORY`, the flag set of every
intermediate step of a legacy segment walk. -/
def oWalkDir : OFlags := { nofollow := true, directory := true }

/-- Core semantics of `openat(dirAt dp, seg, flags)` for a single path
component `seg`, returning the possibly updated tree and the resolved
position or an error.  Every `openat` issued by this library carries
`O_NOFOLLOW`, so a symbolic link is never followed and yields `ELOOP`.
`.` and `..` resolve to the directory itself and its parent; `openat` with an
empty name fails with `ENOENT`. -/
def openatSeg (root : Node) (dp : FsPath) (seg : List Char) (f : OFlags) :
    Node × Except Errno FsPath :=
  if seg = [] then (root, .error .enoent)
  else if seg = ['.'] then
    (root, if f.write ∨ f.trunc then .error .eisdir else .ok dp)
  else if seg = ['.', '.'] then
    (root, if f.write ∨ f.trunc then .error .eisdir else .ok dp.dropLast)
  else
    match (nodeAt root dp).bind (·.child seg) with
    | some (.symlink _) => (root, .error .eloop)
    | some (.dir _) =>
      if f.write ∨ f.trunc then (root, .error .eisdir)
      else (root, .ok (dp ++ [seg]))
    | some (.file _) =>
      if f.directory then (root, .error .enotdir)
      else if f.trunc then (setPath root (dp ++ [seg]) (.file []), .ok (dp ++ [seg]))
      else (root, .ok (dp ++ [seg]))
    | none =>
      if f.creat ∧ ¬f.directory then
        (setPath root (dp ++ [seg]) (.file []), .ok (dp ++ [seg]))
      else (root, .error .enoent)

/-- Core semantics of `openat2(dirAt base, path, {flags, RESOLVE_BENEATH
[| RESOLVE_NO_SYMLINKS]})`: resolve the whole remaining component list under
the base.  `cur` is the current position relative to the base; a `..` that
would leave the base fails with `EXDEV`, as does a symlink with an absolute
target.  With `noSym` every symlink fails with `ELOOP`; otherwise its target's
components are spliced into the remaining path, consuming `fuel` (the kernel's
nesting limit, exhausting it yields `ELOOP`).  The final component is opened
with the caller's flags (creating/truncating a regular file); a trailing or
lone dot resolves to the directory itself. -/
def openat2Step (root : Node) (base : FsPath) (f : OFlags) (noSym : Bool)
    (onLink : FsPath → List Char → List (List Char) →
      Node × Except Errno FsPath) :
    FsPath → List (List Char) → Node × Except Errno FsPath
  | cur, [] =>
    (root, if f.write ∨ f.trunc then .error .eisdir else .ok (base ++ cur))
  | cur, seg :: rest =>
    if seg = [] ∨ seg = ['.'] then
      if rest = [] then
        (root, if f.write ∨ f.trunc then .error .eisdir else .ok (base ++ cur))
      else openat2Step root base f noSym onLink cur rest
    else if seg = ['.', '.'] then
      match cur with
      | [] => (root, .error .exdev)
      | _ =>
        if rest = [] then
          (root,
            if f.write ∨ f.trunc then .error .eisdir
            else .ok (base ++ cur.dropLast))
        else openat2Step root base f noSym onLink cur.dropLast rest
    else
      match (nodeAt root (base ++ cur)).bind (·.child seg) with
      | some (.symlink t) =>
        if noSym then (root, .error .eloop) else onLink cur t rest
      | some (.dir _) =>
        if rest = [] then
          if f.write ∨ f.trunc then (root, .error .eisdir)
          else (root, .ok (base ++ cur ++ [seg]))
        else openat2Step root base f noSym onLink (cur ++ [seg]) rest
      | some (.file _) =>
        if rest = [] then
          if f.directory then (root, .error .enotdir)
          else if f.trunc then
            (setPath root (base ++ cur ++ [seg]) (.file []),
              .ok (base ++ cur ++ [seg]))
          else (root, .ok (base ++ cur ++ [seg]))
        else (root, .error .enotdir)
      | none =>
        if rest = [] ∧ f.creat ∧ ¬f.directory then
          (setPath root (base ++ cur ++ [seg]) (.file []),
            .ok (base ++ cur ++ [seg]))
        else (root, .error .enoent)

/-- Ties `openat2Step` with the symlink-expansion budget: each symlink
expansion splices the target's components into the remaining path and consumes
one unit of fuel; an exhausted budget yields `ELOOP`, an absolute target
`EXDEV`. -/
def openat2Walk (root : Node) (base : FsPath) (f : OFlags) (noSym : Bool) :
    Nat → FsPath → List (List Char) → Node × Except Errno FsPath
  | 0 => openat2Step root base f noSym fun _ _ _ => (root, .error .eloop)
  | fuel + 1 =>
    openat2Step root base f noSym fun cur t rest =>
      if t.head? = some '/' then (root, .error .exdev)
      else openat2Walk root base f noSym fuel cur (chSplit '/' t ++ rest)

/-- The kernel's symlink-nesting budget for one `openat2` resolution. -/
def linkFuel : Nat := 40

/-! ## Process state: descriptor table, event trace, capability configuration -/

/-- Events the syscall layer records: attempts of the fast-path and legacy
primitives, and the lifecycle of every descriptor. -/
inductive Ev where
  | openat2Call
  | openatCall
  | opened (fd : Int)
  | closed (fd : Int)
deriving DecidableEq

/-- The mutable state a resolution call threads: the filesystem tree, the
next free descriptor number, the table of open descriptors with the position
each references, and the event trace (newest first). -/
structure Sys where
  root : Node
  nextFd : Int := 3
  fds : List (Int × FsPath) := []
  evs : List Ev := []

/-- A fresh process state over a filesystem tree. -/
def Sys.init (root : Node) : Sys := { root := root }

/-- The position an open descriptor references. -/
def Sys.at (st : Sys) (fd : Int) : Option FsPath :=
  match st.fds.find? (fun e => e.1 = fd) with
  | some e => some e.2
  | none => none

/-- Allocate a descriptor for a position. -/
def Sys.alloc (st : Sys) (p : FsPath) : Sys × Int :=
  ({ st with
      nextFd := st.nextFd + 1
      fds := (st.nextFd, p) :: st.fds
      evs := .opened st.nextFd :: st.evs }, st.nextFd)

/-- Model of `unix.Close` / `windows.CloseHandle`: release the descriptor.
Closing a descriptor that is not open fails with `EBADF`; the library never
does so. -/
def sysClose (st : Sys) (fd : Int) : Sys × Option Errno :=
  if st.fds.any (fun e => e.1 = fd) then
    ({ st with fds := st.fds.filter (fun e => e.1 ≠ fd),
               evs := .closed fd :: st.evs }, none)
  else (st, some .ebadf)

/-- Model of `unix.Openat(dfd, seg, flags, mode)` for the single-component
uses in this library; returns `-1` for the descriptor on failure, as the Go
wrapper does. -/
def sysOpenat (st : Sys) (dfd : Int) (seg : List Char) (f : OFlags) :
    Sys × Int × Option Errno :=
  let st := { st with evs := .openatCall :: st.evs }
  match st.at dfd with
  | none => (st, -1, some .ebadf)
  | some dp =>
    match openatSeg st.root dp seg f with
    | (root, .ok p) =>
      let (st, fd) := ({ st with root := root }).alloc p
      (st, fd, none)
    | (root, .error e) => ({ st with root := root }, -1, some e)

/-- Model of `unix.Open(directory, O_RDONLY|O_DIRECTORY, 0)` opening the base
directory.  The base is modelled as a resolved position in the tree. -/
def sysOpenDir (st : Sys) (p : FsPath) : Sys × Int × Option Errno :=
  match nodeAt st.root p with
  | some (.dir _) =>
    let (st, fd) := st.alloc p
    (st, fd, none)
  | some _ => (st, -1, some .enotdir)
  | none => (st, -1, some .enoent)

/-- Static description of what the kernel's `openat2` does on this system:
`none` means the call works (the common case); `some e` means every call fails
with `e` (`ENOSYS` when the syscall is missing, `EINVAL` when
`RESOLVE_BENEATH` is not understood). -/
structure Config where
  forceLegacyMode : Bool := false
  openat2Err : Option Errno := none

/-- Model of `unix.Openat2(dfd, file, {flags, RESOLVE_BENEATH | resolveHow})`:
fails as configured when the primitive is unavailable, otherwise resolves the
whole path beneath the descriptor.  Returns `-1` on failure like the Go
wrapper. -/
def sysOpenat2 (cfg : Config) (st : Sys) (dfd : Int) (file : List Char)
    (f : OFlags) (noSym : Bool) : Sys × Int × Option Errno :=
  let st := { st with evs := .openat2Call :: st.evs }
  match cfg.openat2Err with
  | some e => (st, -1, some e)
  | none =>
    match st.at dfd with
    | none => (st, -1, some .ebadf)
    | some dp =>
      if file = [] then (st, -1, some .enoent)
      else
        match openat2Walk st.root dp f noSym linkFuel [] (chSplit '/' file) with
        | (root, .ok p) =>
          let (st, fd) := ({ st with root := root }).alloc p
          (st, fd, none)
        | (root, .error e) => ({ st with root := root }, -1, some e)

/-! ## Go-level values: errors and `*os.File` -/

/-- The Go `error` values the library returns: an `*os.PathError{Op, Path,
Err}` built by the validators, or an errno surfaced verbatim from a syscall. -/
inductive GoErr where
  | pathErr (op : List Char) (path : List Char) (msg : List Char)
  | errno (e : Errno)
deriving DecidableEq

/-- The invalid-filename `*os.PathError` the validators build. -/
def invalidFilename (op : List Char) (path : List Char) : GoErr :=
  .pathErr op path "invalid filename".data

/-- A `*os.File`: the wrapped descriptor plus the diagnostic name
(`filepath.Join(directory, file)`; the name is never used for re-resolution,
so the model keeps only the relative part). -/
structure GoFile where
  fd : Int
  name : List Char
deriving DecidableEq

/-- Model of `os.NewFile(uintptr(fd), name)`: a negative descriptor yields a
nil `*os.File`. -/
def osNewFile (fd : Int) (name : List Char) : Option GoFile :=
  if fd < 0 then none else some ⟨fd, name⟩

/-- The result of a Go function returning `(*os.File, error)`. -/
abbrev OpenResult := Sys × Option GoFile × Option GoErr

/-! ## The Linux backend (safeopen_linux.go) -/

/-- The intermediate-segment loop of `openFileImplLegacy` (`for _, seg :=
range segs[:len(segs)-1]`): skip empty segments; open each one
directory-only/no-follow relative to the current descriptor `adfd`; close the
previous descriptor right away unless it is the caller's base `dfd`
(propagating a close failure); propagate an open failure.  Returns the
descriptor the leaf open should use. -/
def legacyLoop (dfd : Int) : Sys → Int → List (List Char) →
    Sys × Except GoErr Int
  | st, adfd, [] => (st, .ok adfd)
  | st, adfd, seg :: rest =>
    if seg = [] then legacyLoop dfd st adfd rest
    else
      let odfd := adfd
      let (st, adfd, err) := sysOpenat st adfd seg oWalkDir
      let (st, cerr) := if odfd ≠ dfd then sysClose st odfd else (st, none)
      match cerr with
      | some ce => (st, .error (.errno ce))
      | none =>
        match err with
        | some e => (st, .error (.errno e))
        | none => legacyLoop dfd st adfd rest

/-- Transcription of `openFileImplLegacy`: split the path on `/`, walk the
intermediate segments with `legacyLoop`, then open the final segment with the
caller's flags plus `O_NOFOLLOW`.  After the leaf open the last intermediate
descriptor (when distinct from the base) is closed and — exactly as in the
source — `err` is assigned the close's result, replacing the leaf open's
error. -/
def openFileImplLegacy (st : Sys) (dfd : Int) (file : List Char) (f : OFlags) :
    Sys × Int × Option GoErr :=
  let segs := chSplit '/' file
  match legacyLoop dfd st dfd segs.dropLast with
  | (st, .error e) => (st, 0, some e)
  | (st, .ok adfd) =>
    let (st, fd, err) := sysOpenat st adfd (segs.getLastD [])
        { f with nofollow := true }
    let err : Option GoErr := err.map .errno
    if adfd ≠ dfd then
      let (st, cerr) := sysClose st adfd
      (st, fd, cerr.map .errno)
    else (st, fd, err)

/-- Transcription of `openFileImplBeneath`: one `openat2` attempt with
`RESOLVE_BENEATH | resolveHow`; on failure, classify `ENOSYS`, `ENOTSUP` /
`EOPNOTSUPP` and `EINVAL` as "the primitive is unsupported" (second result
component `false`).  Returns descriptor `0` alongside an error, as the Go
function does. -/
def openFileImplBeneath (cfg : Config) (st : Sys) (dfd : Int)
    (file : List Char) (f : OFlags) (noSym : Bool) :
    Sys × Int × Bool × Option GoErr :=
  let (st, fd, err) := sysOpenat2 cfg st dfd file f noSym
  match err with
  | some e =>
    let supported := !(e = .enosys ∨ e = .enotsup ∨ e = .einval : Bool)
    (st, 0, supported, some (.errno e))
  | none => (st, fd, true, none)

/-- Transcription of `openFileImplBeneathFirst`: in forced-legacy mode go
straight to the legacy walker; otherwise attempt the fast path and fall back
to the legacy walker exactly when the attempt reported the primitive
unsupported. -/
def openFileImplBeneathFirst (cfg : Config) (st : Sys) (dfd : Int)
    (file : List Char) (f : OFlags) (noSym : Bool) :
    Sys × Int × Option GoErr :=
  if cfg.forceLegacyMode then openFileImplLegacy st dfd file f
  else
    match openFileImplBeneath cfg st dfd file f noSym with
    | (st, fd, supported, err) =>
      if !supported then openFileImplLegacy st dfd file f
      else (st, fd, err)

/-- Transcription of `openFileImpl` (safeopen_linux.go): open the base
directory, resolve the file beneath it, close the base (the source's deferred
close runs before the caller sees the result), and wrap the descriptor with
`os.NewFile`. -/
def openFileImpl (cfg : Config) (st : Sys) (dir : FsPath) (file : List Char)
    (f : OFlags) (noSym : Bool) : OpenResult :=
  match sysOpenDir st dir with
  | (st, _, some e) => (st, none, some (.errno e))
  | (st, dfd, none) =>
    match openFileImplBeneathFirst cfg st dfd file f noSym with
    | (st, fd, err) =>
      let (st, _) := sysClose st dfd
      match err with
      | some e => (st, none, some e)
      | none => (st, osNewFile fd file, none)

/-- Transcription of the Linux `openFileAt`: validate the filename for the
`DirectChild` contract, then resolve with `RESOLVE_NO_SYMLINKS` added. -/
def linuxOpenFileAt (cfg : Config) (st : Sys) (dir : FsPath)
    (file : List Char) (f : OFlags) : OpenResult :=
  if !unixIsFilename file then
    (st, none, some (invalidFilename "OpenAt".data file))
  else openFileImpl cfg st dir file f true

/-- Transcription of the Linux `openFileBeneath`: validate and rewrite the
path for the `Beneath` contract, then resolve with plain `RESOLVE_BENEATH`. -/
def linuxOpenFileBeneath (cfg : Config) (st : Sys) (dir : FsPath)
    (file : List Char) (f : OFlags) : OpenResult :=
  match canTraverseUnixRelPath file with
  | (file, false) => (st, none, some (invalidFilename "OpenBeneath".data file))
  | (file, true) => openFileImpl cfg st dir file f false

/-! ## The non-Linux Unix backend (safeopen_nix.go) -/

/-- Transcription of the non-Linux Unix `openFileAt`: validate the filename,
open the base, open the leaf with the caller's flags plus `O_NOFOLLOW`, close
the base (ignoring the close's result), wrap with `os.NewFile`. -/
def nixOpenFileAt (st : Sys) (dir : FsPath) (file : List Char) (f : OFlags) :
    OpenResult :=
  if !unixIsFilename file then
    (st, none, some (invalidFilename "OpenAt".data file))
  else
    match sysOpenDir st dir with
    | (st, _, some e) => (st, none, some (.errno e))
    | (st, dfd, none) =>
      let (st, fd, err) := sysOpenat st dfd file { f with nofollow := true }
      let (st, _) := sysClose st dfd
      match err with
      | some e => (st, none, some (.errno e))
      | none => (st, osNewFile fd file, none)

/-- The intermediate-segment loop of the non-Linux Unix `openFileBeneath`:
skip empty segments, open each one directory-only/no-follow, always close the
previous descriptor (the base included — it was opened by this call),
propagate open failures.  Close results are ignored, as in the source. -/
def nixLoop (st : Sys) (dfd : Int) : List (List Char) →
    Sys × Except Errno Int
  | [] => (st, .ok dfd)
  | seg :: rest =>
    if seg = [] then nixLoop st dfd rest
    else
      let odfd := dfd
      let (st, dfd, err) := sysOpenat st dfd seg oWalkDir
      let (st, _) := sysClose st odfd
      match err with
      | some e => (st, .error e)
      | none => nixLoop st dfd rest

/-- Transcription of the non-Linux Unix `openFileBeneath`: check the
`Beneath` contract on the raw path (the rewritten path is discarded — the
walk below uses the original string), open the base directory, walk the raw
intermediate segments, then open the final segment with the caller's flags
plus `O_NOFOLLOW` and close the last directory descriptor. -/
def nixOpenFileBeneath (st : Sys) (dir : FsPath) (file : List Char)
    (f : OFlags) : OpenResult :=
  if !unixRelativePathDoesntTraverse file then
    (st, none, some (invalidFilename "OpenBeneath".data file))
  else
    match sysOpenDir st dir with
    | (st, _, some e) => (st, none, some (.errno e))
    | (st, dfd, none) =>
      let segs := chSplit '/' file
      match nixLoop st dfd segs.dropLast with
      | (st, .error e) => (st, none, some (.errno e))
      | (st, .ok dfd) =>
        let (st, fd, err) := sysOpenat st dfd (segs.getLastD [])
            { f with nofollow := true }
        let (st, _) := sysClose st dfd
        match err with
        | some e => (st, none, some (.errno e))
        | none => (st, osNewFile fd file, none)

/-! ## The native-Windows backend (safeopen_win.go)

`winOpenAt` wraps `NtCreateFile` with `FILE_OPEN_REPARSE_POINT` always set.
In every use in this code the options also demand a plain directory
(`FILE_DIRECTORY_FILE`) or a plain file (`FILE_NON_DIRECTORY_FILE`), and a
reparse point opened as itself is neither, so the model surfaces a reparse
point as an error (`Errno.eloop` stands for the NT reparse/`STATUS`
failure). -/

/-- The create-disposition values `openFileBeneath` selects. -/
inductive WinDisp where
  | fileOpen
  | fileCreate
  | fileOverwriteIf
deriving DecidableEq

/-- `FILE_DIRECTORY_FILE` vs `FILE_NON_DIRECTORY_FILE` option bits (the final
open also passes `FILE_RANDOM_ACCESS|FILE_SYNCHRONOUS_IO_NONALERT`, which do
not affect which object is opened). -/
structure WinOpts where
  dirFile : Bool := false
  nonDirFile : Bool := false
deriving DecidableEq

/-- Core semantics of `NtCreateFile` relative to a directory position with
`FILE_OPEN_REPARSE_POINT`: look the name up without following reparse points
and apply the disposition.  An empty relative name is invalid. -/
def winOpenAtCore (root : Node) (dp : FsPath) (name : List Char)
    (disp : WinDisp) (opts : WinOpts) : Node × Except Errno FsPath :=
  if name = [] then (root, .error .einval)
  else
    match (nodeAt root dp).bind (·.child name) with
    | some (.symlink _) => (root, .error .eloop)
    | some (.dir _) =>
      if opts.nonDirFile then (root, .error .eisdir)
      else
        match disp with
        | .fileCreate => (root, .error .eexist)
        | _ => (root, .ok (dp ++ [name]))
    | some (.file _) =>
      if opts.dirFile then (root, .error .enotdir)
      else
        match disp with
        | .fileCreate => (root, .error .eexist)
        | .fileOpen => (root, .ok (dp ++ [name]))
        | .fileOverwriteIf =>
          (setPath root (dp ++ [name]) (.file []), .ok (dp ++ [name]))
    | none =>
      match disp with
      | .fileOpen => (root, .error .enoent)
      | _ =>
        if opts.dirFile then (root, .error .enoent)
        else (setPath root (dp ++ [name]) (.file []), .ok (dp ++ [name]))

/-- `winOpenAt` relative to an open directory handle, allocating a handle in
the descriptor table (the access mask derived from the portable read/write
intent selects no distinct object and the model carries it nowhere). -/
def sysWinOpenAt (st : Sys) (dfd : Int) (name : List Char) (disp : WinDisp)
    (opts : WinOpts) : Sys × Int × Option Errno :=
  let st := { st with evs := .openatCall :: st.evs }
  match st.at dfd with
  | none => (st, -1, some .ebadf)
  | some dp =>
    match winOpenAtCore st.root dp name disp opts with
    | (root, .ok p) =>
      let (st, fd) := ({ st with root := root }).alloc p
      (st, fd, none)
    | (root, .error e) => ({ st with root := root }, -1, some e)

/-- The disposition translation of the Windows `openFileBeneath`:
`FILE_OPEN`, overridden to `FILE_CREATE` by `O_CREATE` and then to
`FILE_OVERWRITE_IF` by `O_TRUNC`. -/
def winDisposition (f : OFlags) : WinDisp :=
  if f.trunc then .fileOverwriteIf
  else if f.creat then .fileCreate
  else .fileOpen

/-- The intermediate-segment loop of the Windows `openFileBeneath`: skip
empty segments, open each one as a directory (`FILE_OPEN`,
`FILE_DIRECTORY_FILE`), always close the previous handle, propagate open
failures. -/
def winLoop (st : Sys) (dfd : Int) : List (List Char) →
    Sys × Except Errno Int
  | [] => (st, .ok dfd)
  | seg :: rest =>
    if seg = [] then winLoop st dfd rest
    else
      let odfd := dfd
      let (st, dfd, err) := sysWinOpenAt st dfd seg .fileOpen { dirFile := true }
      let (st, _) := sysClose st odfd
      match err with
      | some e => (st, .error e)
      | none => winLoop st dfd rest

/-- Model of the `winOpenAt(InvalidHandle, \??\ + directory, ...)` call that
opens the base directory by absolute path (the base is a resolved position in
the tree). -/
def sysWinOpenBase (st : Sys) (p : FsPath) : Sys × Int × Option Errno :=
  match nodeAt st.root p with
  | some (.dir _) =>
    let (st, fd) := st.alloc p
    (st, fd, none)
  | some (.symlink _) => (st, -1, some .eloop)
  | some _ => (st, -1, some .enotdir)
  | none => (st, -1, some .enoent)

/-- Transcription of the Windows `openFileBeneath`: translate the
disposition, validate and rewrite the path for the `Beneath` contract, open
the base directory, walk the sanitized intermediate segments, open the final
segment as a plain file with the translated disposition, close the last
directory handle, wrap the handle. -/
def winOpenFileBeneath (st : Sys) (dir : FsPath) (file : List Char)
    (f : OFlags) : OpenResult :=
  let disp := winDisposition f
  match winRelativePathDoesntTraverse file with
  | (_, false) => (st, none, some (invalidFilename "OpenAt".data file))
  | (sanitized, true) =>
    match sysWinOpenBase st dir with
    | (st, _, some e) => (st, none, some (.errno e))
    | (st, dfd, none) =>
      let segs := chSplit '\\' sanitized
      match winLoop st dfd segs.dropLast with
      | (st, .error e) => (st, none, some (.errno e))
      | (st, .ok dfd) =>
        let (st, fd, err) := sysWinOpenAt st dfd (segs.getLastD []) disp
            { nonDirFile := true }
        let (st, _) := sysClose st dfd
        match err with
        | some e => (st, none, some (.errno e))
        | none => (st, osNewFile fd sanitized, none)

/-- Transcription of the Windows `openFileAt`: validate the simple-filename
contract, then delegate to `openFileBeneath` unchanged. -/
def winOpenFileAt (st : Sys) (dir : FsPath) (file : List Char) (f : OFlags) :
    OpenResult :=
  if !winIsSimpleFilename file then
    (st, none, some (invalidFilename "OpenAt".data file))
  else winOpenFileBeneath st dir file f

/-! ## The portable surface (safeopen.go)

`OpenAt`/`CreateAt`/`OpenBeneath`/`CreateBeneath` fix the flags and delegate
to the platform `openFileAt`/`openFileBeneath`; `readFile`/`writeFile` wrap
an opener with a whole-file read or write. -/

/-- An `openerFunc`: the platform `openFileAt` or `openFileBeneath` with the
process state threaded. -/
abbrev Opener := Sys → FsPath → List Char → OFlags → OpenResult

/-- Model of `io.ReadAll(f)` on an open regular file (a nil `*os.File`, the
product of the legacy resolver's error-suppression slip, reads as
`os.ErrInvalid`, modelled as `EINVAL`; a directory handle reads as
`EISDIR`). -/
def fileReadAll (st : Sys) (f : Option GoFile) : Except Errno (List Nat) :=
  match f with
  | none => .error .einval
  | some f =>
    match st.at f.fd with
    | none => .error .ebadf
    | some p =>
      match nodeAt st.root p with
      | some (.file d) => .ok d
      | some (.dir _) => .error .eisdir
      | _ => .error .enoent

/-- Model of `f.Write(data)` on a file freshly opened with
`O_CREATE|O_TRUNC`: the content becomes exactly `data`.  A nil `*os.File`
fails with `os.ErrInvalid`. -/
def fileWrite (st : Sys) (f : Option GoFile) (data : List Nat) :
    Sys × Option Errno :=
  match f with
  | none => (st, some .einval)
  | some f =>
    match st.at f.fd with
    | none => (st, some .ebadf)
    | some p =>
      match nodeAt st.root p with
      | some (.file _) => ({ st with root := setPath st.root p (.file data) }, none)
      | some (.dir _) => (st, some .eisdir)
      | _ => (st, some .ebadf)

/-- Model of `f.Close()` (nil `*os.File` yields `os.ErrInvalid`). -/
def fileClose (st : Sys) (f : Option GoFile) : Sys × Option Errno :=
  match f with
  | none => (st, some .einval)
  | some f => sysClose st f.fd

/-- Transcription of `readFile` (safeopen.go): open read-only through the
given opener, read everything, close (deferred in the source, so the close
runs after the read but before the caller sees the result). -/
def readFile (st : Sys) (dir : FsPath) (file : List Char) (opener : Opener) :
    Sys × Except GoErr (List Nat) :=
  match opener st dir file oRDONLY with
  | (st, _, some e) => (st, .error e)
  | (st, f, none) =>
    let r := fileReadAll st f
    let (st, _) := fileClose st f
    match r with
    | .ok d => (st, .ok d)
    | .error e => (st, .error (.errno e))

/-- Transcription of `writeFile` (safeopen.go): open with
`O_RDWR|O_CREATE|O_TRUNC` through the given creator, write the data, close,
reporting a close failure only when the write succeeded. -/
def writeFile (st : Sys) (dir : FsPath) (file : List Char) (data : List Nat)
    (creator : Opener) : Sys × Option GoErr :=
  match creator st dir file oCreateRW with
  | (st, _, some e) => (st, some e)
  | (st, f, none) =>
    let (st, werr) := fileWrite st f data
    let (st, cerr) := fileClose st f
    match werr with
    | some e => (st, some (.errno e))
    | none =>
      match cerr with
      | some e => (st, some (.errno e))
      | none => (st, none)

/-- `ReadFileAt`/`WriteFileAt`/`ReadFileBeneath`/`WriteFileBeneath`
instantiated with the non-Linux Unix backend (the portable wrappers are
platform-independent; this backend's resolvers are the pure segment walk). -/
def nixReadFileAt (st : Sys) (dir : FsPath) (file : List Char) :
    Sys × Except GoErr (List Nat) :=
  readFile st dir file nixOpenFileAt

/-- `WriteFileAt` over the non-Linux Unix backend. -/
def nixWriteFileAt (st : Sys) (dir : FsPath) (file : List Char)
    (data : List Nat) : Sys × Option GoErr :=
  writeFile st dir file data nixOpenFileAt

/-- `ReadFileBeneath` over the non-Linux Unix backend. -/
def nixReadFileBeneath (st : Sys) (dir : FsPath) (file : List Char) :
    Sys × Except GoErr (List Nat) :=
  readFile st dir file nixOpenFileBeneath

/-- `WriteFileBeneath` over the non-Linux Unix backend. -/
def nixWriteFileBeneath (st : Sys) (dir : FsPath) (file : List Char)
    (data : List Nat) : Sys × Option GoErr :=
  writeFile st dir file data nixOpenFileBeneath

/-! ## Pure specification layer

The stateful loops above are related, in the theorems below, to pure walks
over the tree; the definitions here are those walks plus the auxiliary
predicates the claims quantify over. -/

/-- The pure meaning of the intermediate segment walk shared by the Unix
legacy resolvers: skip empty segments, resolve each of the rest
directory-only/no-follow, and return the final position. -/
def walkDirs (root : Node) : FsPath → List (List Char) → Except Errno FsPath
  | dp, [] => .ok dp
  | dp, seg :: rest =>
    if seg = [] then walkDirs root dp rest
    else
      match (openatSeg root dp seg oWalkDir).2 with
      | .ok dp => walkDirs root dp rest
      | .error e => .error e

/-- The pure meaning of the Windows intermediate segment walk. -/
def winWalkDirs (root : Node) : FsPath → List (List Char) → Except Errno FsPath
  | dp, [] => .ok dp
  | dp, seg :: rest =>
    if seg = [] then winWalkDirs root dp rest
    else
      match (winOpenAtCore root dp seg .fileOpen { dirFile := true }).2 with
      | .ok dp => winWalkDirs root dp rest
      | .error e => .error e

/-- Whether resolving the components from a position meets a symbolic link:
the formal reading of "some path component (intermediate or leaf) names a
symbolic link".  Empty and dot components move without consulting the tree;
the search stops (negatively) where resolution would stop for another
reason. -/
def hitsSymlink (root : Node) : FsPath → List (List Char) → Bool
  | _, [] => false
  | dp, seg :: rest =>
    if seg = [] ∨ seg = ['.'] then hitsSymlink root dp rest
    else if seg = ['.', '.'] then hitsSymlink root dp.dropLast rest
    else
      match (nodeAt root dp).bind (·.child seg) with
      | some (.symlink _) => true
      | some (.dir _) => hitsSymlink root (dp ++ [seg]) rest
      | _ => false

/-- How many fast-path (`openat2`) attempts the trace records. -/
def ev2Count (st : Sys) : Nat := st.evs.countP (· = Ev.openat2Call)

/-- How many legacy (`openat`) calls the trace records. -/
def evAtCount (st : Sys) : Nat := st.evs.countP (· = Ev.openatCall)

/-- A process state is well formed when the next descriptor number is
non-negative and fresh, and no descriptor number is listed twice. -/
def Sys.wf (st : Sys) : Prop :=
  0 ≤ st.nextFd ∧ (∀ e ∈ st.fds, e.1 < st.nextFd) ∧
    (st.fds.map Prod.fst).Nodup

/-- The kernel configurations the Linux sources anticipate: `openat2` either
works or uniformly reports one of the unsupported-class errors the code
classifies (`ENOSYS`, `ENOTSUP`/`EOPNOTSUPP`, `EINVAL`). -/
def Config.kernelLike (cfg : Config) : Prop :=
  cfg.openat2Err = none ∨ cfg.openat2Err = some .enosys ∨
    cfg.openat2Err = some .enotsup ∨ cfg.openat2Err = some .einval

end Safeopen

namespace Safeopen

/-! ## Basic lemmas: entries, positions, purity -/

theorem findEntry_putEntry (name x : List Char) (n : Node)
    (es : List (List Char × Node)) :
    findEntry x (putEntry name n es) =
      if name = x then some n else findEntry x es := by
  induction es with
  | nil => simp [putEntry, findEntry]
  | cons e es ih =>
    by_cases he : e.1 = name
    · have hex : (e.1 = x) = (name = x) := by rw [he]
      by_cases h : name = x <;>
        simp [putEntry, findEntry, he, h, hex]
    · by_cases h : e.1 = x <;> by_cases h2 : name = x <;>
        simp_all [putEntry, findEntry]

theorem nodeAt_append (root : Node) (q : FsPath) (x : List Char) :
    nodeAt root (q ++ [x]) = (nodeAt root q).bind (·.child x) := by
  induction q generalizing root with
  | nil =>
    simp only [List.nil_append, nodeAt, Option.bind]
    cases root.child x <;> rfl
  | cons y q ih =>
    simp only [List.cons_append, nodeAt]
    cases root.child y <;> simp [ih]

/-- `openatSeg` with neither `O_CREAT` nor `O_TRUNC` never writes the tree. -/
theorem openatSeg_pure (root : Node) (dp : FsPath) (seg : List Char)
    (f : OFlags) (hc : f.creat = false) (ht : f.trunc = false) :
    (openatSeg root dp seg f).1 = root := by
  unfold openatSeg
  split
  · rfl
  · split
    · rfl
    · split
      · rfl
      · cases h : (nodeAt root dp).bind (·.child seg) with
        | none => simp [h, hc]
        | some n => cases n <;> simp [h, ht] <;> split <;> simp_all

/-- `winOpenAtCore` with the `FILE_OPEN` disposition never writes the tree. -/
theorem winOpenAtCore_pure (root : Node) (dp : FsPath) (seg : List Char)
    (opts : WinOpts) :
    (winOpenAtCore root dp seg .fileOpen opts).1 = root := by
  unfold winOpenAtCore
  split
  · rfl
  · cases h : (nodeAt root dp).bind (·.child seg) with
    | none => simp [h]
    | some n => cases n <;> simp [h] <;> split <;> simp_all

theorem putEntry_putEntry (name : List Char) (v w : Node)
    (es : List (List Char × Node)) :
    putEntry name v (putEntry name w es) = putEntry name v es := by
  induction es with
  | nil => simp [putEntry]
  | cons e es ih =>
    by_cases he : e.1 = name <;> simp [putEntry, he, ih]

theorem nodeAt_cons (root : Node) (x : List Char) (q : FsPath) :
    nodeAt root (x :: q) = (root.child x).bind fun c => nodeAt c q := by
  cases h : root.child x <;> simp [nodeAt, h]

theorem setPath_dir_found (x : List Char) (rest : FsPath) (n c : Node)
    (es : List (List Char × Node)) (hf : findEntry x es = some c) :
    setPath (.dir es) (x :: rest) n = .dir (putEntry x (setPath c rest n) es) := by
  simp [setPath, hf]

theorem setPath_dir_new (x : List Char) (n : Node)
    (es : List (List Char × Node)) (hf : findEntry x es = none) :
    setPath (.dir es) [x] n = .dir (putEntry x n es) := by
  simp [setPath, hf]

theorem setPath_dir_missing (x : List Char) (rest : FsPath) (n : Node)
    (es : List (List Char × Node)) (hf : findEntry x es = none)
    (hr : rest ≠ []) : setPath (.dir es) (x :: rest) n = .dir es := by
  simp [setPath, hf, hr]

theorem setPath_setPath (p : FsPath) (root a b : Node) :
    setPath (setPath root p a) p b = setPath root p b := by
  induction p generalizing root with
  | nil => rfl
  | cons x rest ih =>
    cases root with
    | file d => rfl
    | symlink t => rfl
    | dir es =>
      cases hf : findEntry x es with
      | some c =>
        rw [setPath_dir_found x rest a c es hf,
          setPath_dir_found x rest b (setPath c rest a) (putEntry x (setPath c rest a) es)
            (by rw [findEntry_putEntry]; simp),
          setPath_dir_found x rest b c es hf, ih, putEntry_putEntry]
      | none =>
        by_cases hr : rest = []
        · subst hr
          simp [setPath, hf, findEntry_putEntry, putEntry_putEntry]
        · simp [setPath, hf, hr]

theorem nodeAt_setPath_self (q : FsPath) (x : List Char) (root n : Node)
    (es : List (List Char × Node)) (hq : nodeAt root q = some (.dir es)) :
    nodeAt (setPath root (q ++ [x]) n) (q ++ [x]) = some n := by
  induction q generalizing root es with
  | nil =>
    simp only [nodeAt, Option.some.injEq] at hq
    subst hq
    cases hf : findEntry x es <;>
      simp [setPath, hf, nodeAt_cons, Node.child, findEntry_putEntry, nodeAt]
  | cons y q ih =>
    rw [nodeAt_cons] at hq
    cases root with
    | file d => simp [Node.child] at hq
    | symlink t => simp [Node.child] at hq
    | dir es0 =>
      simp only [Node.child] at hq
      cases hf : findEntry y es0 with
      | none => simp [hf] at hq
      | some c =>
        rw [hf] at hq
        simp only [Option.bind] at hq
        rw [List.cons_append, setPath_dir_found y (q ++ [x]) n c es0 hf,
          nodeAt_cons]
        simp only [Node.child, findEntry_putEntry, if_pos rfl, Option.bind]
        exact ih c es hq

/-- There is a directory at a position. -/
def isDirAt (root : Node) (q : FsPath) : Prop :=
  ∃ es, nodeAt root q = some (.dir es)

/-- The position being replaced holds a regular file or nothing. -/
def replaceOK (root : Node) (p : FsPath) : Prop :=
  nodeAt root p = none ∨ ∃ d0, nodeAt root p = some (.file d0)

/-- Writing a regular file over a position that held a regular file (or
nothing) preserves, in both directions, which positions hold directories. -/
theorem isDirAt_setPath (p : FsPath) (root : Node) (d : List Nat)
    (hrep : replaceOK root p) (q : FsPath) :
    isDirAt (setPath root p (.file d)) q ↔ isDirAt root q := by
  induction p generalizing root q with
  | nil =>
    rcases hrep with h | ⟨d0, h⟩
    · simp [nodeAt] at h
    · simp only [nodeAt, Option.some.injEq] at h
      subst h
      cases q with
      | nil => simp [setPath, isDirAt, nodeAt]
      | cons x q => simp [setPath, isDirAt, nodeAt_cons, Node.child]
  | cons name rest ih =>
    cases root with
    | file d0 => simp [setPath]
    | symlink t => simp [setPath]
    | dir es =>
      simp only [replaceOK, nodeAt_cons, Node.child] at hrep
      cases hf : findEntry name es with
      | some c =>
        rw [hf] at hrep
        simp only [Option.bind] at hrep
        rw [setPath_dir_found name rest (.file d) c es hf]
        cases q with
        | nil =>
          constructor <;> intro _ <;> exact ⟨_, by rw [nodeAt]⟩
        | cons x q =>
          by_cases hx : name = x
          · subst hx
            simp only [isDirAt, nodeAt_cons, Node.child, findEntry_putEntry,
              if_pos rfl, hf, Option.bind]
            exact ih c hrep q
          · simp only [isDirAt, nodeAt_cons, Node.child, findEntry_putEntry,
              if_neg hx]
      | none =>
        rw [hf] at hrep
        by_cases hr : rest = []
        · subst hr
          rw [setPath_dir_new name (.file d) es hf]
          cases q with
          | nil =>
            constructor <;> intro _ <;> exact ⟨_, by rw [nodeAt]⟩
          | cons x q =>
            by_cases hx : name = x
            · subst hx
              simp only [isDirAt, nodeAt_cons, Node.child, findEntry_putEntry,
                if_pos rfl, hf, Option.bind]
              cases q <;> simp [nodeAt, nodeAt_cons, Node.child]
            · simp only [isDirAt, nodeAt_cons, Node.child, findEntry_putEntry,
                if_neg hx]
        · rw [setPath_dir_missing name rest (.file d) es hf hr]

theorem openatSeg_dot (root : Node) (dp : FsPath) (f : OFlags) :
    openatSeg root dp ['.'] f =
      (root, if f.write ∨ f.trunc then .error .eisdir else .ok dp) := by
  simp [openatSeg]

theorem openatSeg_dotdot (root : Node) (dp : FsPath) (f : OFlags) :
    openatSeg root dp ['.', '.'] f =
      (root, if f.write ∨ f.trunc then .error .eisdir else .ok dp.dropLast) := by
  simp [openatSeg]

theorem openatSeg_name (root : Node) (dp : FsPath) (seg : List Char)
    (f : OFlags) (h0 : seg ≠ []) (h1 : seg ≠ ['.']) (h2 : seg ≠ ['.', '.']) :
    openatSeg root dp seg f =
      match nodeAt root (dp ++ [seg]) with
      | some (.symlink _) => (root, .error .eloop)
      | some (.dir _) =>
        if f.write ∨ f.trunc then (root, .error .eisdir)
        else (root, .ok (dp ++ [seg]))
      | some (.file _) =>
        if f.directory then (root, .error .enotdir)
        else if f.trunc then
          (setPath root (dp ++ [seg]) (.file []), .ok (dp ++ [seg]))
        else (root, .ok (dp ++ [seg]))
      | none =>
        if f.creat ∧ ¬f.directory then
          (setPath root (dp ++ [seg]) (.file []), .ok (dp ++ [seg]))
        else (root, .error .enoent) := by
  rw [openatSeg, if_neg h0, if_neg h1, if_neg h2, ← nodeAt_append]

theorem isDirAt_of_child_isSome (root : Node) (q : FsPath) (x : List Char)
    (h : (nodeAt root (q ++ [x])).isSome) : isDirAt root q := by
  rw [nodeAt_append] at h
  cases hq : nodeAt root q with
  | none => rw [hq] at h; simp at h
  | some n =>
    rw [hq] at h
    cases n with
    | dir es => exact ⟨es, hq⟩
    | file d => simp [Node.child] at h
    | symlink t => simp [Node.child] at h

/-- A successful intermediate walk starts and ends at directories. -/
theorem walkDirs_isDirAt (root : Node) :
    ∀ segs dp dpE, isDirAt root dp → walkDirs root dp segs = .ok dpE →
      isDirAt root dpE := by
  intro segs
  induction segs with
  | nil =>
    intro dp dpE hd h
    simp only [walkDirs] at h
    cases h
    exact hd
  | cons seg rest ih =>
    intro dp dpE hd h
    simp only [walkDirs] at h
    by_cases h0 : seg = []
    · rw [if_pos h0] at h
      exact ih dp dpE hd h
    · rw [if_neg h0] at h
      by_cases h1 : seg = ['.']
      · subst h1
        rw [openatSeg_dot, if_neg (by simp [oWalkDir])] at h
        exact ih dp dpE hd h
      · by_cases h2 : seg = ['.', '.']
        · subst h2
          rw [openatSeg_dotdot, if_neg (by simp [oWalkDir])] at h
          refine ih dp.dropLast dpE ?_ h
          rcases List.eq_nil_or_concat dp with rfl | ⟨q, x, rfl⟩
          · exact hd
          · simp only [List.concat_eq_append] at hd ⊢
            rw [List.dropLast_concat]
            exact isDirAt_of_child_isSome root q x
              (by rcases hd with ⟨es, he⟩; rw [he]; rfl)
        · rw [openatSeg_name root dp seg oWalkDir h0 h1 h2] at h
          cases hn : nodeAt root (dp ++ [seg]) with
          | none => rw [hn] at h; simp [oWalkDir] at h
          | some n =>
            rw [hn] at h
            cases n with
            | symlink t => simp at h
            | file d => simp [oWalkDir] at h
            | dir es =>
              rw [if_neg (by simp [oWalkDir])] at h
              exact ih (dp ++ [seg]) dpE ⟨es, hn⟩ h

/-- Replacing a file (or absent entry) with a file changes no step of a
successful intermediate walk. -/
theorem walkDirs_setPath (root : Node) (p : FsPath) (d : List Nat)
    (hrep : replaceOK root p) :
    ∀ segs dp dpE, walkDirs root dp segs = .ok dpE →
      walkDirs (setPath root p (.file d)) dp segs = .ok dpE := by
  intro segs
  induction segs with
  | nil => intro dp dpE h; exact h
  | cons seg rest ih =>
    intro dp dpE h
    simp only [walkDirs] at h ⊢
    by_cases h0 : seg = []
    · rw [if_pos h0] at h ⊢
      exact ih dp dpE h
    · rw [if_neg h0] at h ⊢
      by_cases h1 : seg = ['.']
      · subst h1
        rw [openatSeg_dot, if_neg (by simp [oWalkDir])] at h ⊢
        exact ih dp dpE h
      · by_cases h2 : seg = ['.', '.']
        · subst h2
          rw [openatSeg_dotdot, if_neg (by simp [oWalkDir])] at h ⊢
          exact ih dp.dropLast dpE h
        · rw [openatSeg_name root dp seg oWalkDir h0 h1 h2] at h
          rw [openatSeg_name (setPath root p (.file d)) dp seg oWalkDir h0 h1 h2]
          cases hn : nodeAt root (dp ++ [seg]) with
          | none => rw [hn] at h; simp [oWalkDir] at h
          | some n =>
            rw [hn] at h
            cases n with
            | symlink t => simp at h
            | file d0 => simp [oWalkDir] at h
            | dir es =>
              obtain ⟨es2, hn2⟩ :=
                ((isDirAt_setPath p root d hrep (dp ++ [seg])).2 ⟨es, hn⟩)
              rw [hn2]
              rw [if_neg (by simp [oWalkDir])] at h ⊢
              exact ih (dp ++ [seg]) dpE h

/-! ## Descriptor-table bookkeeping lemmas -/

theorem ev2Count_cons_ne (st : Sys) (x : Ev) (hx : x ≠ .openat2Call) :
    ev2Count { st with evs := x :: st.evs } = ev2Count st := by
  simp [ev2Count, List.countP_cons, hx]

theorem Sys.at_set_evs (st : Sys) (l : List Ev) (fd : Int) :
    Sys.at ({ st with evs := l } : Sys) fd = st.at fd := rfl

theorem Sys.at_set_root (st : Sys) (r : Node) (l : List Ev) (fd : Int) :
    Sys.at ({ st with root := r, evs := l } : Sys) fd = st.at fd := rfl

theorem sysOpenat_ok (st : Sys) (fd : Int) (dp : FsPath) (seg : List Char)
    (f : OFlags) (root1 : Node) (p : FsPath) (hat : st.at fd = some dp)
    (hop : openatSeg st.root dp seg f = (root1, .ok p)) :
    sysOpenat st fd seg f =
      ({ st with root := root1, nextFd := st.nextFd + 1, fds := (st.nextFd, p) :: st.fds, evs := .opened st.nextFd :: .openatCall :: st.evs }, st.nextFd, none) := by
  simp only [sysOpenat, Sys.at_set_evs, hat, hop, Sys.alloc]

theorem sysOpenat_err (st : Sys) (fd : Int) (dp : FsPath) (seg : List Char)
    (f : OFlags) (root1 : Node) (e : Errno) (hat : st.at fd = some dp)
    (hop : openatSeg st.root dp seg f = (root1, .error e)) :
    sysOpenat st fd seg f =
      ({ st with root := root1, evs := .openatCall :: st.evs }, -1, some e) := by
  simp only [sysOpenat, Sys.at_set_evs, hat, hop]

theorem sysWinOpenAt_ok (st : Sys) (fd : Int) (dp : FsPath) (seg : List Char)
    (disp : WinDisp) (opts : WinOpts) (root1 : Node) (p : FsPath)
    (hat : st.at fd = some dp)
    (hop : winOpenAtCore st.root dp seg disp opts = (root1, .ok p)) :
    sysWinOpenAt st fd seg disp opts =
      ({ st with root := root1, nextFd := st.nextFd + 1, fds := (st.nextFd, p) :: st.fds, evs := .opened st.nextFd :: .openatCall :: st.evs }, st.nextFd, none) := by
  simp only [sysWinOpenAt, Sys.at_set_evs, hat, hop, Sys.alloc]

theorem sysWinOpenAt_err (st : Sys) (fd : Int) (dp : FsPath) (seg : List Char)
    (disp : WinDisp) (opts : WinOpts) (root1 : Node) (e : Errno)
    (hat : st.at fd = some dp)
    (hop : winOpenAtCore st.root dp seg disp opts = (root1, .error e)) :
    sysWinOpenAt st fd seg disp opts =
      ({ st with root := root1, evs := .openatCall :: st.evs }, -1, some e) := by
  simp only [sysWinOpenAt, Sys.at_set_evs, hat, hop]

theorem sysClose_shape (st : Sys) (pre post : List (Int × FsPath)) (fd : Int)
    (p : FsPath) (h : st.fds = pre ++ (fd, p) :: post)
    (hpre : ∀ e ∈ pre, e.1 ≠ fd) (hpost : ∀ e ∈ post, e.1 ≠ fd) :
    sysClose st fd =
      ({ st with fds := pre ++ post, evs := .closed fd :: st.evs }, none) := by
  unfold sysClose
  rw [if_pos]
  · congr 1
    · congr 1
      rw [h, List.filter_append]
      congr 1
      · exact List.filter_eq_self.2 fun e he => by simpa using hpre e he
      · rw [List.filter_cons, if_neg (by simp)]
        exact List.filter_eq_self.2 fun e he => by simpa using hpost e he
  · rw [h]
    refine List.any_eq_true.2 ⟨(fd, p), ?_, by simp⟩
    simp

theorem Sys.at_top (st : Sys) (fd : Int) (p : FsPath)
    (rest : List (Int × FsPath)) (h : st.fds = (fd, p) :: rest) :
    st.at fd = some p := by
  simp [Sys.at, h, List.find?]

/-- Specification of the non-Linux Unix intermediate loop: it computes the
pure walk, keeps exactly one directory descriptor open — the current one,
closed and replaced step by step, the surrounding frame untouched — and never
touches the tree or the fast-path trace. -/
theorem nixLoop_spec :
    ∀ (segs : List (List Char)) (st : Sys) (cur : Int) (dpA : FsPath)
      (fr : List (Int × FsPath)),
      st.fds = (cur, dpA) :: fr → st.wf →
      (∀ dpE, walkDirs st.root dpA segs = .ok dpE →
        ∃ st' cur', nixLoop st cur segs = (st', .ok cur') ∧
          st'.root = st.root ∧ st'.fds = (cur', dpE) :: fr ∧ st'.wf ∧
          st.nextFd ≤ st'.nextFd ∧ ev2Count st' = ev2Count st) ∧
      (∀ e, walkDirs st.root dpA segs = .error e →
        ∃ st', nixLoop st cur segs = (st', .error e) ∧
          st'.root = st.root ∧ st'.fds = fr ∧ st'.wf ∧
          st.nextFd ≤ st'.nextFd ∧ ev2Count st' = ev2Count st) := by
  intro segs
  induction segs with
  | nil =>
    intro st cur dpA fr h hwf
    constructor
    · intro dpE hw
      simp only [walkDirs] at hw
      cases hw
      exact ⟨st, cur, rfl, rfl, h, hwf, le_refl _, rfl⟩
    · intro e hw
      simp only [walkDirs] at hw
      cases hw
  | cons seg rest ih =>
    intro st cur dpA fr h hwf
    obtain ⟨hpos, hbnd, hnodup⟩ := hwf
    have hcur_lt : cur < st.nextFd := hbnd (cur, dpA) (by rw [h]; exact List.mem_cons_self _ _)
    have hfr_keys : cur ∉ fr.map Prod.fst := by
      have h2 := hnodup
      rw [h] at h2
      simp only [List.map_cons] at h2
      exact (List.nodup_cons.1 h2).1
    by_cases h0 : seg = []
    · have hn : nixLoop st cur (seg :: rest) = nixLoop st cur rest := by
        simp [nixLoop, h0]
      have hw : walkDirs st.root dpA (seg :: rest) = walkDirs st.root dpA rest := by
        simp [walkDirs, h0]
      rw [hn, hw]
      exact ih st cur dpA fr h ⟨hpos, hbnd, hnodup⟩
    · cases hop : openatSeg st.root dpA seg oWalkDir with
    | mk root1 r =>
      have hroot1 : root1 = st.root := by
        have := openatSeg_pure st.root dpA seg oWalkDir rfl rfl
        rw [hop] at this
        exact this
      subst hroot1
      have hat : st.at cur = some dpA := Sys.at_top st cur dpA fr h
      cases r with
      | ok dp' =>
        have hwstep : walkDirs st.root dpA (seg :: rest) = walkDirs st.root dp' rest := by
          simp only [walkDirs, if_neg h0, hop]
        have hEq1 := sysOpenat_ok st cur dpA seg oWalkDir st.root dp' hat hop
        have hshape : ({ st with root := st.root, nextFd := st.nextFd + 1, fds := (st.nextFd, dp') :: st.fds, evs := .opened st.nextFd :: .openatCall :: st.evs } : Sys).fds = [(st.nextFd, dp')] ++ (cur, dpA) :: fr := by
          simp [h]
        have hEq2 := sysClose_shape _ [(st.nextFd, dp')] fr cur dpA hshape
          (by
            intro e he
            simp only [List.mem_singleton] at he
            subst he
            exact ne_of_gt hcur_lt)
          (by
            intro e he hc
            exact hfr_keys (hc ▸ List.mem_map_of_mem Prod.fst he))
        have hloop : nixLoop st cur (seg :: rest) =
            nixLoop ({ st with root := st.root, nextFd := st.nextFd + 1, fds := [(st.nextFd, dp')] ++ fr, evs := .closed cur :: .opened st.nextFd :: .openatCall :: st.evs } : Sys) st.nextFd rest := by
          simp only [nixLoop, if_neg h0, hEq1, hEq2]
        have hIH := ih ({ st with root := st.root, nextFd := st.nextFd + 1, fds := [(st.nextFd, dp')] ++ fr, evs := .closed cur :: .opened st.nextFd :: .openatCall :: st.evs } : Sys) st.nextFd dp' fr (by simp)
          (by
            refine ⟨by simp only []; omega, ?_, ?_⟩
            · intro e he
              simp only [List.cons_append, List.nil_append, List.mem_cons] at he
              rcases he with rfl | he
              · simp
              · have := hbnd e (by rw [h]; exact List.mem_cons_of_mem _ he)
                simp only []
                omega
            · simp only [List.cons_append, List.nil_append, List.map_cons,
                List.nodup_cons]
              constructor
              · intro hmem
                obtain ⟨e, he, hfst⟩ := List.mem_map.1 hmem
                have := hbnd e (by rw [h]; exact List.mem_cons_of_mem _ he)
                omega
              · have h3 : (cur :: fr.map Prod.fst).Nodup := by
                  have h2 := hnodup
                  rw [h] at h2
                  simpa using h2
                exact (List.nodup_cons.1 h3).2)
        rw [hloop, hwstep]
        constructor
        · intro dpE hw
          obtain ⟨st', cur', heq, hr, hf, hwf', hle, hev⟩ := hIH.1 dpE hw
          have hle2 : st.nextFd + 1 ≤ st'.nextFd := hle
          refine ⟨st', cur', heq, by simpa using hr, by simpa using hf, hwf', by omega, ?_⟩
          rw [hev]
          simp [ev2Count, List.countP_cons]
        · intro e hw
          obtain ⟨st', heq, hr, hf, hwf', hle, hev⟩ := hIH.2 e hw
          have hle2 : st.nextFd + 1 ≤ st'.nextFd := hle
          refine ⟨st', heq, by simpa using hr, by simpa using hf, hwf', by omega, ?_⟩
          rw [hev]
          simp [ev2Count, List.countP_cons]
      | error e0 =>
        have hwstep : walkDirs st.root dpA (seg :: rest) = .error e0 := by
          simp only [walkDirs, if_neg h0, hop]
        have hEq1 := sysOpenat_err st cur dpA seg oWalkDir st.root e0 hat hop
        have hshape : ({ st with root := st.root, evs := .openatCall :: st.evs } : Sys).fds = [] ++ (cur, dpA) :: fr := by simp [h]
        have hEq2 := sysClose_shape _ [] fr cur dpA hshape (by simp)
          (by
            intro e he hc
            exact hfr_keys (hc ▸ List.mem_map_of_mem Prod.fst he))
        have hloop : nixLoop st cur (seg :: rest) =
            (({ st with root := st.root, fds := ([] : List (Int × FsPath)) ++ fr, evs := .closed cur :: .openatCall :: st.evs } : Sys), .error e0) := by
          simp only [nixLoop, if_neg h0, hEq1, hEq2]
        rw [hloop, hwstep]
        constructor
        · intro dpE hw
          cases hw
        · intro e hw
          cases hw
          refine ⟨_, rfl, rfl, by simp, ⟨hpos, ?_, ?_⟩, le_refl _, ?_⟩
          · intro e he
            simp only [List.nil_append] at he
            exact hbnd e (by rw [h]; exact List.mem_cons_of_mem _ he)
          · have h3 : (cur :: fr.map Prod.fst).Nodup := by
              have h2 := hnodup
              rw [h] at h2
              simpa using h2
            simpa using (List.nodup_cons.1 h3).2
          · simp [ev2Count, List.countP_cons]

/-- Specification of the Windows intermediate loop: identical in structure to
the non-Linux Unix loop, over the NT open semantics. -/
theorem winLoop_spec :
    ∀ (segs : List (List Char)) (st : Sys) (cur : Int) (dpA : FsPath)
      (fr : List (Int × FsPath)),
      st.fds = (cur, dpA) :: fr → st.wf →
      (∀ dpE, winWalkDirs st.root dpA segs = .ok dpE →
        ∃ st' cur', winLoop st cur segs = (st', .ok cur') ∧
          st'.root = st.root ∧ st'.fds = (cur', dpE) :: fr ∧ st'.wf ∧
          st.nextFd ≤ st'.nextFd ∧ ev2Count st' = ev2Count st) ∧
      (∀ e, winWalkDirs st.root dpA segs = .error e →
        ∃ st', winLoop st cur segs = (st', .error e) ∧
          st'.root = st.root ∧ st'.fds = fr ∧ st'.wf ∧
          st.nextFd ≤ st'.nextFd ∧ ev2Count st' = ev2Count st) := by
  intro segs
  induction segs with
  | nil =>
    intro st cur dpA fr h hwf
    constructor
    · intro dpE hw
      simp only [winWalkDirs] at hw
      cases hw
      exact ⟨st, cur, rfl, rfl, h, hwf, le_refl _, rfl⟩
    · intro e hw
      simp only [winWalkDirs] at hw
      cases hw
  | cons seg rest ih =>
    intro st cur dpA fr h hwf
    obtain ⟨hpos, hbnd, hnodup⟩ := hwf
    have hcur_lt : cur < st.nextFd := hbnd (cur, dpA) (by rw [h]; exact List.mem_cons_self _ _)
    have hfr_keys : cur ∉ fr.map Prod.fst := by
      have h2 := hnodup
      rw [h] at h2
      simp only [List.map_cons] at h2
      exact (List.nodup_cons.1 h2).1
    by_cases h0 : seg = []
    · have hn : winLoop st cur (seg :: rest) = winLoop st cur rest := by
        simp [winLoop, h0]
      have hw : winWalkDirs st.root dpA (seg :: rest) = winWalkDirs st.root dpA rest := by
        simp [winWalkDirs, h0]
      rw [hn, hw]
      exact ih st cur dpA fr h ⟨hpos, hbnd, hnodup⟩
    · cases hop : winOpenAtCore st.root dpA seg .fileOpen { dirFile := true } with
    | mk root1 r =>
      have hroot1 : root1 = st.root := by
        have := winOpenAtCore_pure st.root dpA seg { dirFile := true }
        rw [hop] at this
        exact this
      subst hroot1
      have hat : st.at cur = some dpA := Sys.at_top st cur dpA fr h
      cases r with
      | ok dp' =>
        have hwstep : winWalkDirs st.root dpA (seg :: rest) = winWalkDirs st.root dp' rest := by
          simp only [winWalkDirs, if_neg h0, hop]
        have hEq1 := sysWinOpenAt_ok st cur dpA seg .fileOpen { dirFile := true } st.root dp' hat hop
        have hshape : ({ st with root := st.root, nextFd := st.nextFd + 1, fds := (st.nextFd, dp') :: st.fds, evs := .opened st.nextFd :: .openatCall :: st.evs } : Sys).fds = [(st.nextFd, dp')] ++ (cur, dpA) :: fr := by
          simp [h]
        have hEq2 := sysClose_shape _ [(st.nextFd, dp')] fr cur dpA hshape
          (by
            intro e he
            simp only [List.mem_singleton] at he
            subst he
            exact ne_of_gt hcur_lt)
          (by
            intro e he hc
            exact hfr_keys (hc ▸ List.mem_map_of_mem Prod.fst he))
        have hloop : winLoop st cur (seg :: rest) =
            winLoop ({ st with root := st.root, nextFd := st.nextFd + 1, fds := [(st.nextFd, dp')] ++ fr, evs := .closed cur :: .opened st.nextFd :: .openatCall :: st.evs } : Sys) st.nextFd rest := by
          simp only [winLoop, if_neg h0, hEq1, hEq2]
        have hIH := ih ({ st with root := st.root, nextFd := st.nextFd + 1, fds := [(st.nextFd, dp')] ++ fr, evs := .closed cur :: .opened st.nextFd :: .openatCall :: st.evs } : Sys) st.nextFd dp' fr (by simp)
          (by
            refine ⟨by simp only []; omega, ?_, ?_⟩
            · intro e he
              simp only [List.cons_append, List.nil_append, List.mem_cons] at he
              rcases he with rfl | he
              · simp
              · have := hbnd e (by rw [h]; exact List.mem_cons_of_mem _ he)
                simp only []
                omega
            · simp only [List.cons_append, List.nil_append, List.map_cons,
                List.nodup_cons]
              constructor
              · intro hmem
                obtain ⟨e, he, hfst⟩ := List.mem_map.1 hmem
                have := hbnd e (by rw [h]; exact List.mem_cons_of_mem _ he)
                omega
              · have h3 : (cur :: fr.map Prod.fst).Nodup := by
                  have h2 := hnodup
                  rw [h] at h2
                  simpa using h2
                exact (List.nodup_cons.1 h3).2)
        rw [hloop, hwstep]
        constructor
        · intro dpE hw
          obtain ⟨st', cur', heq, hr, hf, hwf', hle, hev⟩ := hIH.1 dpE hw
          have hle2 : st.nextFd + 1 ≤ st'.nextFd := hle
          refine ⟨st', cur', heq, by simpa using hr, by simpa using hf, hwf', by omega, ?_⟩
          rw [hev]
          simp [ev2Count, List.countP_cons]
        · intro e hw
          obtain ⟨st', heq, hr, hf, hwf', hle, hev⟩ := hIH.2 e hw
          have hle2 : st.nextFd + 1 ≤ st'.nextFd := hle
          refine ⟨st', heq, by simpa using hr, by simpa using hf, hwf', by omega, ?_⟩
          rw [hev]
          simp [ev2Count, List.countP_cons]
      | error e0 =>
        have hwstep : winWalkDirs st.root dpA (seg :: rest) = .error e0 := by
          simp only [winWalkDirs, if_neg h0, hop]
        have hEq1 := sysWinOpenAt_err st cur dpA seg .fileOpen { dirFile := true } st.root e0 hat hop
        have hshape : ({ st with root := st.root, evs := .openatCall :: st.evs } : Sys).fds = [] ++ (cur, dpA) :: fr := by simp [h]
        have hEq2 := sysClose_shape _ [] fr cur dpA hshape (by simp)
          (by
            intro e he hc
            exact hfr_keys (hc ▸ List.mem_map_of_mem Prod.fst he))
        have hloop : winLoop st cur (seg :: rest) =
            (({ st with root := st.root, fds := ([] : List (Int × FsPath)) ++ fr, evs := .closed cur :: .openatCall :: st.evs } : Sys), .error e0) := by
          simp only [winLoop, if_neg h0, hEq1, hEq2]
        rw [hloop, hwstep]
        constructor
        · intro dpE hw
          cases hw
        · intro e hw
          cases hw
          refine ⟨_, rfl, rfl, by simp, ⟨hpos, ?_, ?_⟩, le_refl _, ?_⟩
          · intro e he
            simp only [List.nil_append] at he
            exact hbnd e (by rw [h]; exact List.mem_cons_of_mem _ he)
          · have h3 : (cur :: fr.map Prod.fst).Nodup := by
              have h2 := hnodup
              rw [h] at h2
              simpa using h2
            simpa using (List.nodup_cons.1 h3).2
          · simp [ev2Count, List.countP_cons]

/-- Specification of the Linux legacy intermediate loop (`openFileImplLegacy`,
segments before the last): it computes the pure walk; the caller's base
descriptor `dfd` stays open throughout; at most one further directory
descriptor is open, namely the current one, and it is exactly the base while
no real segment has been opened yet; the tree and the fast-path trace are
untouched. -/
theorem legacyLoop_spec :
    ∀ (segs : List (List Char)) (st : Sys) (dfd adfd : Int)
      (dpb dpA : FsPath) (fr : List (Int × FsPath)),
      st.fds = (if adfd = dfd then [] else [(adfd, dpA)]) ++ (dfd, dpb) :: fr →
      (adfd = dfd → dpA = dpb) →
      st.wf →
      (∀ dpE, walkDirs st.root dpA segs = .ok dpE →
        ∃ st' adfd', legacyLoop dfd st adfd segs = (st', .ok adfd') ∧
          st'.root = st.root ∧
          st'.fds = (if adfd' = dfd then [] else [(adfd', dpE)]) ++ (dfd, dpb) :: fr ∧
          (adfd' = dfd → dpE = dpb) ∧
          (adfd' = dfd ↔ adfd = dfd ∧ segs.all (fun s => decide (s = [])) = true) ∧
          st'.wf ∧ st.nextFd ≤ st'.nextFd ∧ ev2Count st' = ev2Count st) ∧
      (∀ e, walkDirs st.root dpA segs = .error e →
        ∃ st', legacyLoop dfd st adfd segs = (st', .error (.errno e)) ∧
          st'.root = st.root ∧ st'.fds = (dfd, dpb) :: fr ∧ st'.wf ∧
          st.nextFd ≤ st'.nextFd ∧ ev2Count st' = ev2Count st) := by
  intro segs
  induction segs with
  | nil =>
    intro st dfd adfd dpb dpA fr h hba hwf
    constructor
    · intro dpE hw
      simp only [walkDirs] at hw
      cases hw
      exact ⟨st, adfd, rfl, rfl, h, hba, by simp, hwf, le_refl _, rfl⟩
    · intro e hw
      simp only [walkDirs] at hw
      cases hw
  | cons seg rest ih =>
    intro st dfd adfd dpb dpA fr h hba hwf
    obtain ⟨hpos, hbnd, hnodup⟩ := hwf
    have hdfd_mem : (dfd, dpb) ∈ st.fds := by
      rw [h]; exact List.mem_append_right _ (List.mem_cons_self _ _)
    have hdfd_lt : dfd < st.nextFd := hbnd (dfd, dpb) hdfd_mem
    by_cases h0 : seg = []
    · have hn : legacyLoop dfd st adfd (seg :: rest) = legacyLoop dfd st adfd rest := by
        simp [legacyLoop, h0]
      have hw : walkDirs st.root dpA (seg :: rest) = walkDirs st.root dpA rest := by
        simp [walkDirs, h0]
      rw [hn, hw]
      have hres := ih st dfd adfd dpb dpA fr h hba ⟨hpos, hbnd, hnodup⟩
      refine ⟨?_, hres.2⟩
      intro dpE hwalk
      obtain ⟨st', adfd', heq, hr, hf, hba', hiff, hwf', hle, hev⟩ := hres.1 dpE hwalk
      exact ⟨st', adfd', heq, hr, hf, hba', by simp [h0, hiff], hwf', hle, hev⟩
    · by_cases hadfd : adfd = dfd
      · subst hadfd
        simp only [if_pos rfl, List.nil_append] at h
        have hdpA : dpA = dpb := hba rfl
        subst hdpA
        have hat : st.at adfd = some dpA := Sys.at_top st adfd dpA fr h
        cases hop : openatSeg st.root dpA seg oWalkDir with
        | mk root1 r =>
        have hroot1 : root1 = st.root := by
          have := openatSeg_pure st.root dpA seg oWalkDir rfl rfl
          rw [hop] at this
          exact this
        subst hroot1
        cases r with
        | ok dp' =>
          have hwstep : walkDirs st.root dpA (seg :: rest) = walkDirs st.root dp' rest := by
            simp only [walkDirs, if_neg h0, hop]
          have hEq1 := sysOpenat_ok st adfd dpA seg oWalkDir st.root dp' hat hop
          have hloop : legacyLoop adfd st adfd (seg :: rest) =
              legacyLoop adfd ({ st with root := st.root, nextFd := st.nextFd + 1, fds := (st.nextFd, dp') :: st.fds, evs := .opened st.nextFd :: .openatCall :: st.evs } : Sys) st.nextFd rest := by
            simp only [legacyLoop, if_neg h0, hEq1]
            simp
          have hne : ¬ st.nextFd = adfd := ne_of_gt hdfd_lt
          have hIH := ih ({ st with root := st.root, nextFd := st.nextFd + 1, fds := (st.nextFd, dp') :: st.fds, evs := .opened st.nextFd :: .openatCall :: st.evs } : Sys) adfd st.nextFd dpA dp' fr
            (by simp [if_neg hne, h])
            (fun hc => absurd hc hne)
            (by
              refine ⟨by simp only []; omega, ?_, ?_⟩
              · intro e he
                simp only [List.mem_cons] at he
                rcases he with rfl | he
                · simp
                · have := hbnd e he
                  simp only []
                  omega
              · simp only [List.map_cons, List.nodup_cons]
                refine ⟨?_, hnodup⟩
                intro hmem
                obtain ⟨e, he, hfst⟩ := List.mem_map.1 hmem
                have := hbnd e he
                omega)
          rw [hloop, hwstep]
          constructor
          · intro dpE hwalk
            obtain ⟨st', adfd', heq, hr, hf, hba', hiff, hwf', hle, hev⟩ := hIH.1 dpE hwalk
            have hle2 : st.nextFd + 1 ≤ st'.nextFd := hle
            have hiff2 : adfd' = adfd ↔ False := by
              rw [hiff]
              simp [hne]
            refine ⟨st', adfd', heq, by simpa using hr, ?_, hba', ?_, hwf', by omega, ?_⟩
            · simpa [if_neg (hiff2.not.2 not_false), h] using hf
            · simp [hiff2, h0]
            · rw [hev]
              simp [ev2Count, List.countP_cons]
          · intro e hwalk
            obtain ⟨st', heq, hr, hf, hwf', hle, hev⟩ := hIH.2 e hwalk
            have hle2 : st.nextFd + 1 ≤ st'.nextFd := hle
            refine ⟨st', heq, by simpa using hr, hf, hwf', by omega, ?_⟩
            rw [hev]
            simp [ev2Count, List.countP_cons]
        | error e0 =>
          have hwstep : walkDirs st.root dpA (seg :: rest) = .error e0 := by
            simp only [walkDirs, if_neg h0, hop]
          have hEq1 := sysOpenat_err st adfd dpA seg oWalkDir st.root e0 hat hop
          have hloop : legacyLoop adfd st adfd (seg :: rest) =
              (({ st with root := st.root, evs := .openatCall :: st.evs } : Sys), .error (.errno e0)) := by
            simp only [legacyLoop, if_neg h0, hEq1]
            simp
          rw [hloop, hwstep]
          constructor
          · intro dpE hwalk
            cases hwalk
          · intro e hwalk
            cases hwalk
            refine ⟨_, rfl, rfl, h, ⟨hpos, hbnd, hnodup⟩, le_refl _, ?_⟩
            simp [ev2Count, List.countP_cons]
      · simp only [if_neg hadfd] at h
        have hat : st.at adfd = some dpA :=
          Sys.at_top st adfd dpA ((dfd, dpb) :: fr) (by rw [h]; rfl)
        have hadfd_lt : adfd < st.nextFd := hbnd (adfd, dpA) (by rw [h]; exact List.mem_cons_self _ _)
        have hkeys : ¬ dfd = adfd ∧ adfd ∉ fr.map Prod.fst ∧ dfd ∉ fr.map Prod.fst := by
          have h2 := hnodup
          rw [h] at h2
          simp only [List.singleton_append, List.map_cons] at h2
          obtain ⟨ha, h3⟩ := List.nodup_cons.1 h2
          obtain ⟨hd, _⟩ := List.nodup_cons.1 h3
          refine ⟨?_, ?_, hd⟩
          · intro hc
            exact ha (by rw [hc]; exact List.mem_cons_self _ _)
          · intro hm
            exact ha (List.mem_cons_of_mem _ hm)
        cases hop : openatSeg st.root dpA seg oWalkDir with
        | mk root1 r =>
        have hroot1 : root1 = st.root := by
          have := openatSeg_pure st.root dpA seg oWalkDir rfl rfl
          rw [hop] at this
          exact this
        subst hroot1
        cases r with
        | ok dp' =>
          have hwstep : walkDirs st.root dpA (seg :: rest) = walkDirs st.root dp' rest := by
            simp only [walkDirs, if_neg h0, hop]
          have hEq1 := sysOpenat_ok st adfd dpA seg oWalkDir st.root dp' hat hop
          have hshape : ({ st with root := st.root, nextFd := st.nextFd + 1, fds := (st.nextFd, dp') :: st.fds, evs := .opened st.nextFd :: .openatCall :: st.evs } : Sys).fds = [(st.nextFd, dp')] ++ (adfd, dpA) :: ((dfd, dpb) :: fr) := by
            simp [h]
          have hEq2 := sysClose_shape _ [(st.nextFd, dp')] ((dfd, dpb) :: fr) adfd dpA hshape
            (by
              intro e he
              simp only [List.mem_singleton] at he
              subst he
              exact ne_of_gt hadfd_lt)
            (by
              intro e he
              simp only [List.mem_cons] at he
              rcases he with rfl | he
              · exact hkeys.1
              · intro hc
                exact hkeys.2.1 (hc ▸ List.mem_map_of_mem Prod.fst he))
          have hloop : legacyLoop dfd st adfd (seg :: rest) =
              legacyLoop dfd ({ st with root := st.root, nextFd := st.nextFd + 1, fds := [(st.nextFd, dp')] ++ ((dfd, dpb) :: fr), evs := .closed adfd :: .opened st.nextFd :: .openatCall :: st.evs } : Sys) st.nextFd rest := by
            simp only [legacyLoop, if_neg h0, hEq1]
            rw [if_pos hadfd, hEq2]
          have hne : ¬ st.nextFd = dfd := ne_of_gt hdfd_lt
          have hIH := ih ({ st with root := st.root, nextFd := st.nextFd + 1, fds := [(st.nextFd, dp')] ++ ((dfd, dpb) :: fr), evs := .closed adfd :: .opened st.nextFd :: .openatCall :: st.evs } : Sys) dfd st.nextFd dpb dp' fr
            (by simp [if_neg hne])
            (fun hc => absurd hc hne)
            (by
              refine ⟨by simp only []; omega, ?_, ?_⟩
              · intro e he
                simp only [List.cons_append, List.nil_append, List.mem_cons] at he
                rcases he with rfl | rfl | he
                · simp
                · simp only []
                  omega
                · have := hbnd e (by rw [h]; exact List.mem_cons_of_mem _ (List.mem_cons_of_mem _ he))
                  simp only []
                  omega
              · simp only [List.cons_append, List.nil_append, List.map_cons, List.nodup_cons, List.mem_cons]
                refine ⟨?_, ?_, ?_⟩
                · rintro (hc | hm)
                  · exact absurd hc.symm (by omega)
                  · obtain ⟨e, he, hfst⟩ := List.mem_map.1 hm
                    have := hbnd e (by rw [h]; exact List.mem_cons_of_mem _ (List.mem_cons_of_mem _ he))
                    omega
                · exact hkeys.2.2
                · have h2 := hnodup
                  rw [h] at h2
                  simp only [List.cons_append, List.singleton_append, List.map_cons] at h2
                  exact (List.nodup_cons.1 (List.nodup_cons.1 h2).2).2)
          rw [hloop, hwstep]
          constructor
          · intro dpE hwalk
            obtain ⟨st', adfd', heq, hr, hf, hba', hiff, hwf', hle, hev⟩ := hIH.1 dpE hwalk
            have hle2 : st.nextFd + 1 ≤ st'.nextFd := hle
            refine ⟨st', adfd', heq, by simpa using hr, hf, hba', ?_, hwf', by omega, ?_⟩
            · rw [hiff]
              constructor
              · rintro ⟨hc, h4⟩
                exact absurd hc hne
              · rintro ⟨hc, h4⟩
                exact absurd hc hadfd
            · rw [hev]
              simp [ev2Count, List.countP_cons]
          · intro e hwalk
            obtain ⟨st', heq, hr, hf, hwf', hle, hev⟩ := hIH.2 e hwalk
            have hle2 : st.nextFd + 1 ≤ st'.nextFd := hle
            refine ⟨st', heq, by simpa using hr, hf, hwf', by omega, ?_⟩
            rw [hev]
            simp [ev2Count, List.countP_cons]
        | error e0 =>
          have hwstep : walkDirs st.root dpA (seg :: rest) = .error e0 := by
            simp only [walkDirs, if_neg h0, hop]
          have hEq1 := sysOpenat_err st adfd dpA seg oWalkDir st.root e0 hat hop
          have hshape : ({ st with root := st.root, evs := .openatCall :: st.evs } : Sys).fds = [] ++ (adfd, dpA) :: ((dfd, dpb) :: fr) := by
            simp [h]
          have hEq2 := sysClose_shape _ [] ((dfd, dpb) :: fr) adfd dpA hshape (by simp)
            (by
              intro e he
              simp only [List.mem_cons] at he
              rcases he with rfl | he
              · exact hkeys.1
              · intro hc
                exact hkeys.2.1 (hc ▸ List.mem_map_of_mem Prod.fst he))
          have hloop : legacyLoop dfd st adfd (seg :: rest) =
              (({ st with root := st.root, fds := ([] : List (Int × FsPath)) ++ ((dfd, dpb) :: fr), evs := .closed adfd :: .openatCall :: st.evs } : Sys), .error (.errno e0)) := by
            simp only [legacyLoop, if_neg h0, hEq1]
            rw [if_pos hadfd, hEq2]
          rw [hloop, hwstep]
          constructor
          · intro dpE hwalk
            cases hwalk
          · intro e hwalk
            cases hwalk
            refine ⟨_, rfl, rfl, by simp, ⟨hpos, ?_, ?_⟩, le_refl _, ?_⟩
            · intro e he
              simp only [List.nil_append] at he
              exact hbnd e (by rw [h]; exact List.mem_cons_of_mem _ he)
            · have h2 := hnodup
              rw [h] at h2
              simp only [List.cons_append, List.singleton_append, List.map_cons] at h2
              simpa using (List.nodup_cons.1 h2).2
            · simp [ev2Count, List.countP_cons]

/-- Behaviour of the legacy resolver when the intermediate walk fails: the
error propagates and the base descriptor alone stays open. -/
theorem openFileImplLegacy_walkErr (st : Sys) (dfd : Int) (dpb : FsPath)
    (fr : List (Int × FsPath)) (file : List Char) (f : OFlags) (e : Errno)
    (h : st.fds = (dfd, dpb) :: fr) (hwf : st.wf)
    (hw : walkDirs st.root dpb (chSplit '/' file).dropLast = .error e) :
    ∃ st1, openFileImplLegacy st dfd file f = (st1, 0, some (.errno e)) ∧
      st1.root = st.root ∧ st1.fds = (dfd, dpb) :: fr ∧ st1.wf ∧
      st.nextFd ≤ st1.nextFd ∧ ev2Count st1 = ev2Count st := by
  have hspec := legacyLoop_spec (chSplit '/' file).dropLast st dfd dfd dpb dpb fr
    (by simpa using h) (fun _ => rfl) hwf
  obtain ⟨st1, heq, hr, hf, hwf1, hle, hev⟩ := hspec.2 e hw
  refine ⟨st1, ?_, hr, hf, hwf1, hle, hev⟩
  simp only [openFileImplLegacy, heq]

/-- Behaviour of the legacy resolver when the walk and the leaf open both
succeed: a fresh non-negative descriptor for the resolved leaf is returned and
only it and the base stay open. -/
theorem openFileImplLegacy_leafOk (st : Sys) (dfd : Int) (dpb : FsPath)
    (fr : List (Int × FsPath)) (file : List Char) (f : OFlags) (dpE : FsPath)
    (root1 : Node) (p : FsPath)
    (h : st.fds = (dfd, dpb) :: fr) (hwf : st.wf)
    (hw : walkDirs st.root dpb (chSplit '/' file).dropLast = .ok dpE)
    (hleaf : openatSeg st.root dpE ((chSplit '/' file).getLastD [])
        { f with nofollow := true } = (root1, .ok p)) :
    ∃ st1 fd1, openFileImplLegacy st dfd file f = (st1, fd1, none) ∧
      st1.root = root1 ∧ st1.fds = (fd1, p) :: (dfd, dpb) :: fr ∧ st1.wf ∧
      0 ≤ fd1 ∧ st.nextFd ≤ st1.nextFd ∧ ev2Count st1 = ev2Count st ∧
      st1.at fd1 = some p := by
  have hspec := legacyLoop_spec (chSplit '/' file).dropLast st dfd dfd dpb dpb fr
    (by simpa using h) (fun _ => rfl) hwf
  obtain ⟨st', adfd', heq, hr, hf, hba', hiff, hwf', hle, hev⟩ := hspec.1 dpE hw
  have hleaf' : openatSeg st'.root dpE ((chSplit '/' file).getLastD [])
      { f with nofollow := true } = (root1, .ok p) := by rw [hr]; exact hleaf
  obtain ⟨hpos', hbnd', hnodup'⟩ := hwf'
  by_cases hE : adfd' = dfd
  · have hdpE : dpE = dpb := hba' hE
    rw [if_pos hE, List.nil_append] at hf
    rw [hE] at heq
    have hat : st'.at dfd = some dpE := by
      rw [hdpE]
      exact Sys.at_top st' dfd dpb fr hf
    have hEq1 := sysOpenat_ok st' dfd dpE ((chSplit '/' file).getLastD [])
      { f with nofollow := true } root1 p hat hleaf'
    have hres : openFileImplLegacy st dfd file f =
        (({ st' with root := root1, nextFd := st'.nextFd + 1, fds := (st'.nextFd, p) :: st'.fds, evs := .opened st'.nextFd :: .openatCall :: st'.evs } : Sys), st'.nextFd, none) := by
      simp only [openFileImplLegacy, heq, hEq1]
      simp
    have hadfd_lt : dfd < st'.nextFd :=
      hbnd' (dfd, dpb) (by rw [hf]; exact List.mem_cons_self _ _)
    refine ⟨_, st'.nextFd, hres, rfl, by simp [hf, hdpE], ?_, hpos', ?_, ?_, ?_⟩
    · refine ⟨by simp only []; omega, ?_, ?_⟩
      · intro x hx
        simp only [List.mem_cons] at hx
        rcases hx with rfl | hx
        · simp
        · have := hbnd' x hx
          simp only []
          omega
      · simp only [List.map_cons, List.nodup_cons]
        refine ⟨?_, hnodup'⟩
        intro hmem
        obtain ⟨x, hx, hfst⟩ := List.mem_map.1 hmem
        have := hbnd' x hx
        omega
    · show st.nextFd ≤ st'.nextFd + 1
      omega
    · have hev2 := hev
      simp only [ev2Count] at hev2 ⊢
      simp [List.countP_cons, hev2]
    · exact Sys.at_top _ st'.nextFd p st'.fds (by simp)
  · rw [if_neg hE] at hf
    have hat : st'.at adfd' = some dpE :=
      Sys.at_top st' adfd' dpE ((dfd, dpb) :: fr) (by rw [hf]; rfl)
    have hEq1 := sysOpenat_ok st' adfd' dpE ((chSplit '/' file).getLastD [])
      { f with nofollow := true } root1 p hat hleaf'
    have hadfd_lt : adfd' < st'.nextFd :=
      hbnd' (adfd', dpE) (by rw [hf]; exact List.mem_cons_self _ _)
    have hkeys : dfd ∉ fr.map Prod.fst ∧ ¬ dfd = adfd' := by
      have h2 := hnodup'
      rw [hf] at h2
      simp only [List.singleton_append, List.map_cons] at h2
      obtain ⟨ha, h3⟩ := List.nodup_cons.1 h2
      obtain ⟨hd, _⟩ := List.nodup_cons.1 h3
      exact ⟨hd, fun hc => ha (by rw [hc]; exact List.mem_cons_self _ _)⟩
    have hshape : ({ st' with root := root1, nextFd := st'.nextFd + 1, fds := (st'.nextFd, p) :: st'.fds, evs := .opened st'.nextFd :: .openatCall :: st'.evs } : Sys).fds = [(st'.nextFd, p)] ++ (adfd', dpE) :: ((dfd, dpb) :: fr) := by
      simp [hf]
    have hEq2 := sysClose_shape _ [(st'.nextFd, p)] ((dfd, dpb) :: fr) adfd' dpE hshape
      (by
        intro x hx
        simp only [List.mem_singleton] at hx
        subst hx
        exact ne_of_gt hadfd_lt)
      (by
        intro x hx
        simp only [List.mem_cons] at hx
        rcases hx with rfl | hx
        · exact hkeys.2
        · intro hc
          have h2 := hnodup'
          rw [hf] at h2
          simp only [List.singleton_append, List.map_cons] at h2
          exact (List.nodup_cons.1 h2).1
            (List.mem_cons_of_mem _ (hc ▸ List.mem_map_of_mem Prod.fst hx)))
    have hres : openFileImplLegacy st dfd file f =
        (({ st' with root := root1, nextFd := st'.nextFd + 1, fds := [(st'.nextFd, p)] ++ ((dfd, dpb) :: fr), evs := .closed adfd' :: .opened st'.nextFd :: .openatCall :: st'.evs } : Sys), st'.nextFd, none) := by
      simp only [openFileImplLegacy, heq, hEq1]
      rw [if_pos hE, hEq2]
      simp
    refine ⟨_, st'.nextFd, hres, rfl, by simp, ?_, hpos', ?_, ?_, ?_⟩
    · refine ⟨by simp only []; omega, ?_, ?_⟩
      · intro x hx
        simp only [List.cons_append, List.nil_append, List.mem_cons] at hx
        rcases hx with rfl | rfl | hx
        · simp
        · simp only []
          have := hbnd' (dfd, dpb) (by rw [hf]; exact List.mem_cons_of_mem _ (List.mem_cons_self _ _))
          omega
        · have := hbnd' x (by rw [hf]; exact List.mem_cons_of_mem _ (List.mem_cons_of_mem _ hx))
          simp only []
          omega
      · simp only [List.cons_append, List.nil_append, List.map_cons, List.nodup_cons, List.mem_cons]
        refine ⟨?_, ?_, ?_⟩
        · rintro (hc | hm)
          · have := hbnd' (dfd, dpb) (by rw [hf]; exact List.mem_cons_of_mem _ (List.mem_cons_self _ _))
            omega
          · obtain ⟨x, hx, hfst⟩ := List.mem_map.1 hm
            have := hbnd' x (by rw [hf]; exact List.mem_cons_of_mem _ (List.mem_cons_of_mem _ hx))
            omega
        · exact hkeys.1
        · have h2 := hnodup'
          rw [hf] at h2
          simp only [List.singleton_append, List.map_cons] at h2
          exact (List.nodup_cons.1 (List.nodup_cons.1 h2).2).2
    · show st.nextFd ≤ st'.nextFd + 1
      omega
    · have hev2 := hev
      simp only [ev2Count] at hev2 ⊢
      simp [List.countP_cons, hev2]
    · exact Sys.at_top _ st'.nextFd p ((dfd, dpb) :: fr) (by simp)

/-- A failing `openatSeg` leaves the tree unchanged. -/
theorem openatSeg_err_pure (root : Node) (dp : FsPath) (seg : List Char)
    (f : OFlags) (root1 : Node) (e : Errno)
    (h : openatSeg root dp seg f = (root1, .error e)) : root1 = root := by
  unfold openatSeg at h
  repeat' split at h
  all_goals simp_all

/-- Behaviour of the legacy resolver when the walk succeeds but the leaf open
fails: when the walked path had at least one real intermediate segment, the
close of the last intermediate descriptor overwrites the leaf error and the
call reports descriptor `-1` with no error at all; with no real intermediate
segment the leaf error propagates.  Either way only the base stays open. -/
theorem openFileImplLegacy_leafErr (st : Sys) (dfd : Int) (dpb : FsPath)
    (fr : List (Int × FsPath)) (file : List Char) (f : OFlags) (dpE : FsPath)
    (e : Errno)
    (h : st.fds = (dfd, dpb) :: fr) (hwf : st.wf)
    (hw : walkDirs st.root dpb (chSplit '/' file).dropLast = .ok dpE)
    (hleaf : openatSeg st.root dpE ((chSplit '/' file).getLastD [])
        { f with nofollow := true } = (st.root, .error e)) :
    ∃ st1, openFileImplLegacy st dfd file f =
        (st1, -1,
          if ((chSplit '/' file).dropLast.all fun s => decide (s = [])) = true
          then some (.errno e) else none) ∧
      st1.root = st.root ∧ st1.fds = (dfd, dpb) :: fr ∧ st1.wf ∧
      st.nextFd ≤ st1.nextFd ∧ ev2Count st1 = ev2Count st := by
  have hspec := legacyLoop_spec (chSplit '/' file).dropLast st dfd dfd dpb dpb fr
    (by simpa using h) (fun _ => rfl) hwf
  obtain ⟨st', adfd', heq, hr, hf, hba', hiff, hwf', hle, hev⟩ := hspec.1 dpE hw
  have hleaf' : openatSeg st'.root dpE ((chSplit '/' file).getLastD [])
      { f with nofollow := true } = (st'.root, .error e) := by
    rw [hr]; exact hleaf
  obtain ⟨hpos', hbnd', hnodup'⟩ := hwf'
  by_cases hall : ((chSplit '/' file).dropLast.all fun s => decide (s = [])) = true
  · have hE : adfd' = dfd := hiff.2 ⟨rfl, hall⟩
    have hdpE : dpE = dpb := hba' hE
    rw [if_pos hE, List.nil_append] at hf
    rw [hE] at heq
    have hat : st'.at dfd = some dpE := by
      rw [hdpE]
      exact Sys.at_top st' dfd dpb fr hf
    have hEq1 := sysOpenat_err st' dfd dpE ((chSplit '/' file).getLastD [])
      { f with nofollow := true } st'.root e hat hleaf'
    have hres : openFileImplLegacy st dfd file f =
        (({ st' with root := st'.root, evs := .openatCall :: st'.evs } : Sys), -1, some (.errno e)) := by
      simp only [openFileImplLegacy, heq, hEq1]
      simp
    rw [if_pos hall]
    refine ⟨_, hres, hr, by simpa using hf, ⟨hpos', ?_, by simpa using hnodup'⟩, hle, ?_⟩
    · intro x hx
      exact hbnd' x (by simpa using hx)
    · have hev2 := hev
      simp only [ev2Count] at hev2 ⊢
      simp [List.countP_cons, hev2]
  · have hE : ¬ adfd' = dfd := fun hc => hall (hiff.1 hc).2
    rw [if_neg hE] at hf
    have hat : st'.at adfd' = some dpE :=
      Sys.at_top st' adfd' dpE ((dfd, dpb) :: fr) (by rw [hf]; rfl)
    have hEq1 := sysOpenat_err st' adfd' dpE ((chSplit '/' file).getLastD [])
      { f with nofollow := true } st'.root e hat hleaf'
    have hshape : ({ st' with root := st'.root, evs := .openatCall :: st'.evs } : Sys).fds = [] ++ (adfd', dpE) :: ((dfd, dpb) :: fr) := by
      simp [hf]
    have hkeys : ¬ dfd = adfd' ∧ adfd' ∉ ((dfd, dpb) :: fr).map Prod.fst := by
      have h2 := hnodup'
      rw [hf] at h2
      simp only [List.singleton_append, List.map_cons] at h2
      obtain ⟨ha, h3⟩ := List.nodup_cons.1 h2
      exact ⟨fun hc => ha (by rw [hc]; exact List.mem_cons_self _ _),
        by simpa using ha⟩
    have hEq2 := sysClose_shape _ [] ((dfd, dpb) :: fr) adfd' dpE hshape (by simp)
      (by
        intro x hx hc
        exact hkeys.2 (hc ▸ List.mem_map_of_mem Prod.fst hx))
    have hres : openFileImplLegacy st dfd file f =
        (({ st' with root := st'.root, fds := ([] : List (Int × FsPath)) ++ ((dfd, dpb) :: fr), evs := .closed adfd' :: .openatCall :: st'.evs } : Sys), -1, none) := by
      simp only [openFileImplLegacy, heq, hEq1]
      rw [if_pos hE, hEq2]
      simp
    rw [if_neg hall]
    refine ⟨_, hres, hr, by simp, ⟨hpos', ?_, ?_⟩, hle, ?_⟩
    · intro x hx
      simp only [List.nil_append] at hx
      exact hbnd' x (by rw [hf]; exact List.mem_cons_of_mem _ hx)
    · have h2 := hnodup'
      rw [hf] at h2
      simp only [List.singleton_append, List.map_cons] at h2
      simpa using (List.nodup_cons.1 h2).2
    · have hev2 := hev
      simp only [ev2Count] at hev2 ⊢
      simp [List.countP_cons, hev2]

theorem sysOpenDir_ok (st : Sys) (p : FsPath) (es : List (List Char × Node))
    (hn : nodeAt st.root p = some (.dir es)) :
    sysOpenDir st p =
      (({ st with nextFd := st.nextFd + 1, fds := (st.nextFd, p) :: st.fds, evs := .opened st.nextFd :: st.evs } : Sys), st.nextFd, none) := by
  simp [sysOpenDir, hn, Sys.alloc]

theorem Sys.wf_push (st : Sys) (p : FsPath) (r : Node) (l : List Ev)
    (hwf : st.wf) :
    ({ st with root := r, nextFd := st.nextFd + 1, fds := (st.nextFd, p) :: st.fds, evs := l } : Sys).wf := by
  obtain ⟨hpos, hbnd, hnodup⟩ := hwf
  refine ⟨by simp only []; omega, ?_, ?_⟩
  · intro x hx
    simp only [List.mem_cons] at hx
    rcases hx with rfl | hx
    · simp
    · have := hbnd x hx
      simp only []
      omega
  · simp only [List.map_cons, List.nodup_cons]
    refine ⟨?_, hnodup⟩
    intro hmem
    obtain ⟨x, hx, hfst⟩ := List.mem_map.1 hmem
    have := hbnd x hx
    omega

theorem sysOpenat2_cfgErr (cfg : Config) (st : Sys) (dfd : Int)
    (file : List Char) (f : OFlags) (noSym : Bool) (e : Errno)
    (hc : cfg.openat2Err = some e) :
    sysOpenat2 cfg st dfd file f noSym =
      (({ st with evs := .openat2Call :: st.evs } : Sys), -1, some e) := by
  simp [sysOpenat2, hc]

theorem sysOpenat2_empty (cfg : Config) (st : Sys) (dfd : Int) (dp : FsPath)
    (f : OFlags) (noSym : Bool) (hc : cfg.openat2Err = none)
    (hat : st.at dfd = some dp) :
    sysOpenat2 cfg st dfd [] f noSym =
      (({ st with evs := .openat2Call :: st.evs } : Sys), -1, some .enoent) := by
  have hat2 : Sys.at ({ st with evs := Ev.openat2Call :: st.evs } : Sys) dfd = some dp := hat
  simp [sysOpenat2, hc, hat2]

theorem sysOpenat2_ok (cfg : Config) (st : Sys) (dfd : Int) (dp : FsPath)
    (file : List Char) (f : OFlags) (noSym : Bool) (root1 : Node) (p : FsPath)
    (hc : cfg.openat2Err = none) (hat : st.at dfd = some dp) (hne : file ≠ [])
    (hwalk : openat2Walk st.root dp f noSym linkFuel [] (chSplit '/' file) =
      (root1, .ok p)) :
    sysOpenat2 cfg st dfd file f noSym =
      (({ st with root := root1, nextFd := st.nextFd + 1, fds := (st.nextFd, p) :: st.fds, evs := .opened st.nextFd :: .openat2Call :: st.evs } : Sys), st.nextFd, none) := by
  have hat2 : Sys.at ({ st with evs := Ev.openat2Call :: st.evs } : Sys) dfd = some dp := hat
  simp [sysOpenat2, hc, hat2, if_neg hne, hwalk, Sys.alloc]

theorem sysOpenat2_err (cfg : Config) (st : Sys) (dfd : Int) (dp : FsPath)
    (file : List Char) (f : OFlags) (noSym : Bool) (root1 : Node) (e : Errno)
    (hc : cfg.openat2Err = none) (hat : st.at dfd = some dp) (hne : file ≠ [])
    (hwalk : openat2Walk st.root dp f noSym linkFuel [] (chSplit '/' file) =
      (root1, .error e)) :
    sysOpenat2 cfg st dfd file f noSym =
      (({ st with root := root1, evs := .openat2Call :: st.evs } : Sys), -1, some e) := by
  have hat2 : Sys.at ({ st with evs := Ev.openat2Call :: st.evs } : Sys) dfd = some dp := hat
  simp [sysOpenat2, hc, hat2, if_neg hne, hwalk]

/-- Total behaviour of the legacy resolver as seen by its caller: it is
descriptor-clean — it either returns a fresh non-negative leaf descriptor with
no error (leaving that descriptor and the base open), or leaves only the base
open, and in the latter case a nil error can only come with descriptor `-1`
(the leaf-close overwrite). -/
theorem openFileImplLegacy_D (st : Sys) (dfd : Int) (dpb : FsPath)
    (fr : List (Int × FsPath)) (file : List Char) (f : OFlags)
    (h : st.fds = (dfd, dpb) :: fr) (hwf : st.wf) :
    ∃ st2 fd2 err2, openFileImplLegacy st dfd file f = (st2, fd2, err2) ∧
      st2.wf ∧ ev2Count st2 = ev2Count st ∧
      ((∃ p, st2.fds = (fd2, p) :: (dfd, dpb) :: fr ∧ 0 ≤ fd2 ∧ err2 = none) ∨
        (st2.fds = (dfd, dpb) :: fr ∧ (err2 = none → fd2 = -1))) := by
  cases hwalk : walkDirs st.root dpb (chSplit '/' file).dropLast with
  | error e =>
    obtain ⟨st1, hres, hr, hf, hwf1, hle, hev⟩ :=
      openFileImplLegacy_walkErr st dfd dpb fr file f e h hwf hwalk
    exact ⟨st1, 0, some (.errno e), hres, hwf1, hev, .inr ⟨hf, by simp⟩⟩
  | ok dpE =>
    cases hleaf : openatSeg st.root dpE ((chSplit '/' file).getLastD [])
        { f with nofollow := true } with
    | mk root1 r =>
      cases r with
      | ok p =>
        obtain ⟨st1, fd1, hres, hr, hf, hwf1, hfd, hle, hev, hat⟩ :=
          openFileImplLegacy_leafOk st dfd dpb fr file f dpE root1 p h hwf
            hwalk hleaf
        exact ⟨st1, fd1, none, hres, hwf1, hev, .inl ⟨p, hf, hfd, rfl⟩⟩
      | error e =>
        have hroot1 : root1 = st.root := openatSeg_err_pure _ _ _ _ _ _ hleaf
        subst hroot1
        obtain ⟨st1, hres, hr, hf, hwf1, hle, hev⟩ :=
          openFileImplLegacy_leafErr st dfd dpb fr file f dpE e h hwf
            hwalk hleaf
        refine ⟨st1, -1, _, hres, hwf1, hev, .inr ⟨hf, ?_⟩⟩
        intro _
        rfl

/-- Total behaviour of the Linux dispatch (fast path with legacy fallback),
as needed for descriptor accounting: same contract as the legacy resolver. -/
theorem openFileImplBeneathFirst_D (cfg : Config) (st : Sys) (dfd : Int)
    (dpb : FsPath) (fr : List (Int × FsPath)) (file : List Char) (f : OFlags)
    (noSym : Bool) (h : st.fds = (dfd, dpb) :: fr) (hwf : st.wf) :
    ∃ st2 fd2 err2,
      openFileImplBeneathFirst cfg st dfd file f noSym = (st2, fd2, err2) ∧
      st2.wf ∧
      ((∃ p, st2.fds = (fd2, p) :: (dfd, dpb) :: fr ∧ 0 ≤ fd2 ∧ err2 = none) ∨
        (st2.fds = (dfd, dpb) :: fr ∧ (err2 = none → fd2 = -1))) := by
  by_cases hfl : cfg.forceLegacyMode = true
  · obtain ⟨st2, fd2, err2, hres, hwf2, _, hD⟩ :=
      openFileImplLegacy_D st dfd dpb fr file f h hwf
    exact ⟨st2, fd2, err2, by simp only [openFileImplBeneathFirst, if_pos hfl]; exact hres, hwf2, hD⟩
  · cases hcfg : cfg.openat2Err with
    | some e =>
      have hEq := sysOpenat2_cfgErr cfg st dfd file f noSym e hcfg
      by_cases hclass : (e = Errno.enosys ∨ e = Errno.enotsup ∨ e = Errno.einval)
      · have hwf' : ({ st with evs := Ev.openat2Call :: st.evs } : Sys).wf := hwf
        obtain ⟨st2, fd2, err2, hres, hwf2, _, hD⟩ :=
          openFileImplLegacy_D ({ st with evs := Ev.openat2Call :: st.evs } : Sys)
            dfd dpb fr file f (by simpa using h) hwf'
        refine ⟨st2, fd2, err2, ?_, hwf2, hD⟩
        simp only [openFileImplBeneathFirst, if_neg hfl, openFileImplBeneath,
          hEq]
        rw [if_pos (by simp [hclass])]
        exact hres
      · refine ⟨({ st with evs := Ev.openat2Call :: st.evs } : Sys), 0,
          some (.errno e), ?_, hwf, .inr ⟨by simpa using h, by simp⟩⟩
        simp only [openFileImplBeneathFirst, if_neg hfl, openFileImplBeneath,
          hEq]
        rw [if_neg (by simp [hclass])]
    | none =>
      have hat : st.at dfd = some dpb := Sys.at_top st dfd dpb fr h
      by_cases hfe : file = []
      · subst hfe
        have hEq := sysOpenat2_empty cfg st dfd dpb f noSym hcfg hat
        refine ⟨({ st with evs := Ev.openat2Call :: st.evs } : Sys), 0,
          some (.errno .enoent), ?_, hwf, .inr ⟨by simpa using h, by simp⟩⟩
        simp only [openFileImplBeneathFirst, if_neg hfl, openFileImplBeneath,
          hEq]
        simp
      · cases hwalk : openat2Walk st.root dpb f noSym linkFuel []
            (chSplit '/' file) with
        | mk root1 r =>
          cases r with
          | ok p =>
            have hEq := sysOpenat2_ok cfg st dfd dpb file f noSym root1 p hcfg
              hat hfe hwalk
            refine ⟨({ st with root := root1, nextFd := st.nextFd + 1, fds := (st.nextFd, p) :: st.fds, evs := .opened st.nextFd :: .openat2Call :: st.evs } : Sys), st.nextFd, none, ?_,
              Sys.wf_push st p root1 _ hwf,
              .inl ⟨p, by simp [h], hwf.1, rfl⟩⟩
            simp only [openFileImplBeneathFirst, if_neg hfl,
              openFileImplBeneath, hEq]
            simp
          | error e =>
            have hEq := sysOpenat2_err cfg st dfd dpb file f noSym root1 e hcfg
              hat hfe hwalk
            by_cases hclass : (e = Errno.enosys ∨ e = Errno.enotsup ∨ e = Errno.einval)
            · have hwf' : ({ st with root := root1, evs := Ev.openat2Call :: st.evs } : Sys).wf := hwf
              obtain ⟨st2, fd2, err2, hres, hwf2, _, hD⟩ :=
                openFileImplLegacy_D
                  ({ st with root := root1, evs := Ev.openat2Call :: st.evs } : Sys)
                  dfd dpb fr file f (by simpa using h) hwf'
              refine ⟨st2, fd2, err2, ?_, hwf2, hD⟩
              simp only [openFileImplBeneathFirst, if_neg hfl,
                openFileImplBeneath, hEq]
              rw [if_pos (by simp [hclass])]
              exact hres
            · refine ⟨({ st with root := root1, evs := Ev.openat2Call :: st.evs } : Sys), 0,
                some (.errno e), ?_, hwf, .inr ⟨by simpa using h, by simp⟩⟩
              simp only [openFileImplBeneathFirst, if_neg hfl,
                openFileImplBeneath, hEq]
              rw [if_neg (by simp [hclass])]

theorem osNewFile_nonneg (fd : Int) (name : List Char) (h : 0 ≤ fd) :
    osNewFile fd name = some ⟨fd, name⟩ := by
  have h2 : ¬ fd < 0 := by omega
  simp [osNewFile, h2]

/-- Descriptor accounting for the whole Linux resolution core: on success
exactly the returned descriptor is added to the caller's table; on failure —
and on the nil-file/nil-error outcome of the leaf-close slip — the table is
exactly restored. -/
theorem openFileImpl_noLeak (cfg : Config) (st : Sys) (dir : FsPath)
    (file : List Char) (f : OFlags) (noSym : Bool) (hwf : st.wf) :
    ∃ st3 gf err3, openFileImpl cfg st dir file f noSym = (st3, gf, err3) ∧
      (∀ g, gf = some g → ∃ p, st3.fds = (g.fd, p) :: st.fds) ∧
      (gf = none → st3.fds = st.fds) := by
  cases hb : nodeAt st.root dir with
  | none =>
    have hEqD : sysOpenDir st dir = (st, -1, some .enoent) := by
      simp [sysOpenDir, hb]
    exact ⟨st, none, some (.errno .enoent),
      by simp only [openFileImpl, hEqD], by simp, fun _ => rfl⟩
  | some n =>
    cases n with
    | file d =>
      have hEqD : sysOpenDir st dir = (st, -1, some .enotdir) := by
        simp [sysOpenDir, hb]
      exact ⟨st, none, some (.errno .enotdir),
        by simp only [openFileImpl, hEqD], by simp, fun _ => rfl⟩
    | symlink t =>
      have hEqD : sysOpenDir st dir = (st, -1, some .enotdir) := by
        simp [sysOpenDir, hb]
      exact ⟨st, none, some (.errno .enotdir),
        by simp only [openFileImpl, hEqD], by simp, fun _ => rfl⟩
    | dir es =>
      have hEqD := sysOpenDir_ok st dir es hb
      have hwf1 : ({ st with nextFd := st.nextFd + 1, fds := (st.nextFd, dir) :: st.fds, evs := .opened st.nextFd :: st.evs } : Sys).wf :=
        Sys.wf_push st dir st.root _ hwf
      obtain ⟨st2, fd2, err2, hres, hwf2, hD⟩ :=
        openFileImplBeneathFirst_D cfg
          ({ st with nextFd := st.nextFd + 1, fds := (st.nextFd, dir) :: st.fds, evs := .opened st.nextFd :: st.evs } : Sys)
          st.nextFd dir st.fds file f noSym rfl hwf1
      obtain ⟨hpos2, hbnd2, hnodup2⟩ := hwf2
      rcases hD with ⟨p, hf2, hfd, herr⟩ | ⟨hf2, himp⟩
      · subst herr
        have hkeys : fd2 ≠ st.nextFd ∧ ∀ x ∈ st.fds, x.1 ≠ st.nextFd := by
          have h2 := hnodup2
          rw [hf2] at h2
          simp only [List.map_cons] at h2
          obtain ⟨ha, h3⟩ := List.nodup_cons.1 h2
          obtain ⟨hd, _⟩ := List.nodup_cons.1 h3
          refine ⟨fun hc => ha (by rw [hc]; exact List.mem_cons_self _ _), ?_⟩
          intro x hx hc
          exact hd (hc ▸ List.mem_map_of_mem Prod.fst hx)
        have hEqC := sysClose_shape st2 [(fd2, p)] st.fds st.nextFd dir
          (by simpa using hf2)
          (by
            intro x hx
            simp only [List.mem_singleton] at hx
            subst hx
            exact hkeys.1)
          hkeys.2
        refine ⟨({ st2 with fds := [(fd2, p)] ++ st.fds, evs := .closed st.nextFd :: st2.evs } : Sys), osNewFile fd2 file, none, ?_, ?_, ?_⟩
        · simp only [openFileImpl, hEqD, hres, hEqC]
        · intro g hg
          rw [osNewFile_nonneg fd2 file hfd] at hg
          cases hg
          exact ⟨p, by simp⟩
        · intro hg
          rw [osNewFile_nonneg fd2 file hfd] at hg
          cases hg
      · have hkeys : ∀ x ∈ st.fds, x.1 ≠ st.nextFd := by
          intro x hx hc
          have := hwf.2.1 x hx
          omega
        have hEqC := sysClose_shape st2 [] st.fds st.nextFd dir
          (by simpa using hf2) (by simp) hkeys
        cases err2 with
        | some e =>
          refine ⟨({ st2 with fds := ([] : List (Int × FsPath)) ++ st.fds, evs := .closed st.nextFd :: st2.evs } : Sys), none, some e, ?_, by simp, fun _ => by simp⟩
          simp only [openFileImpl, hEqD, hres, hEqC]
        | none =>
          have hfd2 : fd2 = -1 := himp rfl
          subst hfd2
          refine ⟨({ st2 with fds := ([] : List (Int × FsPath)) ++ st.fds, evs := .closed st.nextFd :: st2.evs } : Sys), none, none, ?_, by simp, fun _ => by simp⟩
          simp only [openFileImpl, hEqD, hres, hEqC]
          simp [osNewFile]

/-- Descriptor accounting for the Linux `openFileBeneath` entry point. -/
theorem linuxOpenFileBeneath_noLeak (cfg : Config) (st : Sys) (dir : FsPath)
    (file : List Char) (f : OFlags) (hwf : st.wf) :
    ∃ st3 gf err3, linuxOpenFileBeneath cfg st dir file f = (st3, gf, err3) ∧
      (∀ g, gf = some g → ∃ p, st3.fds = (g.fd, p) :: st.fds) ∧
      (gf = none → st3.fds = st.fds) := by
  cases hv : canTraverseUnixRelPath file with
  | mk file1 ok =>
    cases ok with
    | false =>
      exact ⟨st, none, some (invalidFilename "OpenBeneath".data file1),
        by simp only [linuxOpenFileBeneath, hv], by simp, fun _ => rfl⟩
    | true =>
      obtain ⟨st3, gf, err3, hres, h1, h2⟩ :=
        openFileImpl_noLeak cfg st dir file1 f false hwf
      exact ⟨st3, gf, err3, by simp only [linuxOpenFileBeneath, hv]; exact hres, h1, h2⟩

/-- Descriptor accounting for the Linux `openFileAt` entry point. -/
theorem linuxOpenFileAt_noLeak (cfg : Config) (st : Sys) (dir : FsPath)
    (file : List Char) (f : OFlags) (hwf : st.wf) :
    ∃ st3 gf err3, linuxOpenFileAt cfg st dir file f = (st3, gf, err3) ∧
      (∀ g, gf = some g → ∃ p, st3.fds = (g.fd, p) :: st.fds) ∧
      (gf = none → st3.fds = st.fds) := by
  by_cases hv : unixIsFilename file = true
  · obtain ⟨st3, gf, err3, hres, h1, h2⟩ :=
      openFileImpl_noLeak cfg st dir file f true hwf
    exact ⟨st3, gf, err3, by simp only [linuxOpenFileAt, hv]; simpa using hres, h1, h2⟩
  · exact ⟨st, none, some (invalidFilename "OpenAt".data file),
      by simp only [linuxOpenFileAt]; rw [if_pos (by simpa using hv)], by simp,
      fun _ => rfl⟩

/-- Descriptor accounting for the non-Linux Unix `openFileBeneath`. -/
theorem nixOpenFileBeneath_noLeak (st : Sys) (dir : FsPath)
    (file : List Char) (f : OFlags) (hwf : st.wf) :
    ∃ st3 gf err3, nixOpenFileBeneath st dir file f = (st3, gf, err3) ∧
      (∀ g, gf = some g → ∃ p, st3.fds = (g.fd, p) :: st.fds) ∧
      (gf = none → st3.fds = st.fds) := by
  by_cases hv : unixRelativePathDoesntTraverse file = true
  case neg =>
    refine ⟨st, none, some (invalidFilename "OpenBeneath".data file), ?_,
      by simp, fun _ => rfl⟩
    simp only [nixOpenFileBeneath]
    rw [if_pos (by simpa using hv)]
  case pos =>
  cases hb : nodeAt st.root dir with
  | none =>
    have hEqD : sysOpenDir st dir = (st, -1, some .enoent) := by
      simp [sysOpenDir, hb]
    exact ⟨st, none, some (.errno .enoent),
      by simp only [nixOpenFileBeneath, hv]; simp only [Bool.not_true,
        Bool.false_eq_true, if_false, hEqD], by simp, fun _ => rfl⟩
  | some n =>
    cases n with
    | file d =>
      have hEqD : sysOpenDir st dir = (st, -1, some .enotdir) := by
        simp [sysOpenDir, hb]
      exact ⟨st, none, some (.errno .enotdir),
        by simp only [nixOpenFileBeneath, hv]; simp only [Bool.not_true,
          Bool.false_eq_true, if_false, hEqD], by simp, fun _ => rfl⟩
    | symlink t =>
      have hEqD : sysOpenDir st dir = (st, -1, some .enotdir) := by
        simp [sysOpenDir, hb]
      exact ⟨st, none, some (.errno .enotdir),
        by simp only [nixOpenFileBeneath, hv]; simp only [Bool.not_true,
          Bool.false_eq_true, if_false, hEqD], by simp, fun _ => rfl⟩
    | dir es =>
      have hEqD := sysOpenDir_ok st dir es hb
      have hwf1 : ({ st with nextFd := st.nextFd + 1, fds := (st.nextFd, dir) :: st.fds, evs := .opened st.nextFd :: st.evs } : Sys).wf :=
        Sys.wf_push st dir st.root _ hwf
      have hspec := nixLoop_spec (chSplit '/' file).dropLast
        ({ st with nextFd := st.nextFd + 1, fds := (st.nextFd, dir) :: st.fds, evs := .opened st.nextFd :: st.evs } : Sys)
        st.nextFd dir st.fds rfl hwf1
      cases hwalk : walkDirs st.root dir (chSplit '/' file).dropLast with
      | error e =>
        obtain ⟨st2, heq, hr, hf, hwf2, hle, hev⟩ := hspec.2 e (by simpa using hwalk)
        refine ⟨st2, none, some (.errno e), ?_, by simp, fun _ => hf⟩
        simp only [nixOpenFileBeneath, hv]
        simp only [Bool.not_true, Bool.false_eq_true, if_false, hEqD, heq]
      | ok dpE =>
        obtain ⟨st2, cur2, heq, hr, hf, hwf2, hle, hev⟩ := hspec.1 dpE (by simpa using hwalk)
        obtain ⟨hpos2, hbnd2, hnodup2⟩ := hwf2
        have hat2 : st2.at cur2 = some dpE := Sys.at_top st2 cur2 dpE st.fds hf
        have hcur_lt : cur2 < st2.nextFd :=
          hbnd2 (cur2, dpE) (by rw [hf]; exact List.mem_cons_self _ _)
        have hcur_keys : cur2 ∉ st.fds.map Prod.fst := by
          have h2 := hnodup2
          rw [hf] at h2
          simp only [List.map_cons] at h2
          exact (List.nodup_cons.1 h2).1
        cases hleaf : openatSeg st2.root dpE ((chSplit '/' file).getLastD [])
            { f with nofollow := true } with
        | mk root1 r =>
          cases r with
          | ok p =>
            have hEq1 := sysOpenat_ok st2 cur2 dpE ((chSplit '/' file).getLastD [])
              { f with nofollow := true } root1 p hat2 hleaf
            have hshape : ({ st2 with root := root1, nextFd := st2.nextFd + 1, fds := (st2.nextFd, p) :: st2.fds, evs := .opened st2.nextFd :: .openatCall :: st2.evs } : Sys).fds = [(st2.nextFd, p)] ++ (cur2, dpE) :: st.fds := by
              simp [hf]
            have hEq2 := sysClose_shape _ [(st2.nextFd, p)] st.fds cur2 dpE hshape
              (by
                intro x hx
                simp only [List.mem_singleton] at hx
                subst hx
                exact ne_of_gt hcur_lt)
              (by
                intro x hx hc
                exact hcur_keys (hc ▸ List.mem_map_of_mem Prod.fst hx))
            refine ⟨({ st2 with root := root1, nextFd := st2.nextFd + 1, fds := [(st2.nextFd, p)] ++ st.fds, evs := .closed cur2 :: .opened st2.nextFd :: .openatCall :: st2.evs } : Sys), osNewFile st2.nextFd file, none, ?_, ?_, ?_⟩
            · simp only [nixOpenFileBeneath, hv]
              simp only [Bool.not_true, Bool.false_eq_true, if_false, hEqD,
                heq, hEq1, hEq2]
            · intro g hg
              rw [osNewFile_nonneg st2.nextFd file hpos2] at hg
              cases hg
              exact ⟨p, by simp⟩
            · intro hg
              rw [osNewFile_nonneg st2.nextFd file hpos2] at hg
              cases hg
          | error e =>
            have hEq1 := sysOpenat_err st2 cur2 dpE ((chSplit '/' file).getLastD [])
              { f with nofollow := true } root1 e hat2 hleaf
            have hshape : ({ st2 with root := root1, evs := .openatCall :: st2.evs } : Sys).fds = [] ++ (cur2, dpE) :: st.fds := by
              simp [hf]
            have hEq2 := sysClose_shape _ [] st.fds cur2 dpE hshape (by simp)
              (by
                intro x hx hc
                exact hcur_keys (hc ▸ List.mem_map_of_mem Prod.fst hx))
            refine ⟨({ st2 with root := root1, fds := ([] : List (Int × FsPath)) ++ st.fds, evs := .closed cur2 :: .openatCall :: st2.evs } : Sys), none, some (.errno e), ?_, by simp, fun _ => by simp⟩
            simp only [nixOpenFileBeneath, hv]
            simp only [Bool.not_true, Bool.false_eq_true, if_false, hEqD,
              heq, hEq1, hEq2]

theorem sysWinOpenBase_ok (st : Sys) (p : FsPath)
    (es : List (List Char × Node)) (hn : nodeAt st.root p = some (.dir es)) :
    sysWinOpenBase st p =
      (({ st with nextFd := st.nextFd + 1, fds := (st.nextFd, p) :: st.fds, evs := .opened st.nextFd :: st.evs } : Sys), st.nextFd, none) := by
  simp [sysWinOpenBase, hn, Sys.alloc]

/-- Descriptor accounting for the Windows `openFileBeneath`. -/
theorem winOpenFileBeneath_noLeak (st : Sys) (dir : FsPath)
    (file : List Char) (f : OFlags) (hwf : st.wf) :
    ∃ st3 gf err3, winOpenFileBeneath st dir file f = (st3, gf, err3) ∧
      (∀ g, gf = some g → ∃ p, st3.fds = (g.fd, p) :: st.fds) ∧
      (gf = none → st3.fds = st.fds) := by
  cases hv : winRelativePathDoesntTraverse file with
  | mk file1 ok =>
    cases ok with
    | false =>
      exact ⟨st, none, some (invalidFilename "OpenAt".data file),
        by simp only [winOpenFileBeneath, hv], by simp, fun _ => rfl⟩
    | true =>
      cases hb : nodeAt st.root dir with
      | none =>
        have hEqD : sysWinOpenBase st dir = (st, -1, some .enoent) := by
          simp [sysWinOpenBase, hb]
        exact ⟨st, none, some (.errno .enoent),
          by simp only [winOpenFileBeneath, hv, hEqD], by simp, fun _ => rfl⟩
      | some n =>
        cases n with
        | file d =>
          have hEqD : sysWinOpenBase st dir = (st, -1, some .enotdir) := by
            simp [sysWinOpenBase, hb]
          exact ⟨st, none, some (.errno .enotdir),
            by simp only [winOpenFileBeneath, hv, hEqD], by simp, fun _ => rfl⟩
        | symlink t =>
          have hEqD : sysWinOpenBase st dir = (st, -1, some .eloop) := by
            simp [sysWinOpenBase, hb]
          exact ⟨st, none, some (.errno .eloop),
            by simp only [winOpenFileBeneath, hv, hEqD], by simp, fun _ => rfl⟩
        | dir es =>
          have hEqD := sysWinOpenBase_ok st dir es hb
          have hwf1 : ({ st with nextFd := st.nextFd + 1, fds := (st.nextFd, dir) :: st.fds, evs := .opened st.nextFd :: st.evs } : Sys).wf :=
            Sys.wf_push st dir st.root _ hwf
          have hspec := winLoop_spec (chSplit '\\' file1).dropLast
            ({ st with nextFd := st.nextFd + 1, fds := (st.nextFd, dir) :: st.fds, evs := .opened st.nextFd :: st.evs } : Sys)
            st.nextFd dir st.fds rfl hwf1
          cases hwalk : winWalkDirs st.root dir (chSplit '\\' file1).dropLast with
          | error e =>
            obtain ⟨st2, heq, hr, hf, hwf2, hle, hev⟩ := hspec.2 e (by simpa using hwalk)
            refine ⟨st2, none, some (.errno e), ?_, by simp, fun _ => hf⟩
            simp only [winOpenFileBeneath, hv, hEqD, heq]
          | ok dpE =>
            obtain ⟨st2, cur2, heq, hr, hf, hwf2, hle, hev⟩ := hspec.1 dpE (by simpa using hwalk)
            obtain ⟨hpos2, hbnd2, hnodup2⟩ := hwf2
            have hat2 : st2.at cur2 = some dpE := Sys.at_top st2 cur2 dpE st.fds hf
            have hcur_lt : cur2 < st2.nextFd :=
              hbnd2 (cur2, dpE) (by rw [hf]; exact List.mem_cons_self _ _)
            have hcur_keys : cur2 ∉ st.fds.map Prod.fst := by
              have h2 := hnodup2
              rw [hf] at h2
              simp only [List.map_cons] at h2
              exact (List.nodup_cons.1 h2).1
            cases hleaf : winOpenAtCore st2.root dpE ((chSplit '\\' file1).getLastD [])
                (winDisposition f) { nonDirFile := true } with
            | mk root1 r =>
              cases r with
              | ok p =>
                have hEq1 := sysWinOpenAt_ok st2 cur2 dpE ((chSplit '\\' file1).getLastD [])
                  (winDisposition f) { nonDirFile := true } root1 p hat2 hleaf
                have hshape : ({ st2 with root := root1, nextFd := st2.nextFd + 1, fds := (st2.nextFd, p) :: st2.fds, evs := .opened st2.nextFd :: .openatCall :: st2.evs } : Sys).fds = [(st2.nextFd, p)] ++ (cur2, dpE) :: st.fds := by
                  simp [hf]
                have hEq2 := sysClose_shape _ [(st2.nextFd, p)] st.fds cur2 dpE hshape
                  (by
                    intro x hx
                    simp only [List.mem_singleton] at hx
                    subst hx
                    exact ne_of_gt hcur_lt)
                  (by
                    intro x hx hc
                    exact hcur_keys (hc ▸ List.mem_map_of_mem Prod.fst hx))
                refine ⟨({ st2 with root := root1, nextFd := st2.nextFd + 1, fds := [(st2.nextFd, p)] ++ st.fds, evs := .closed cur2 :: .opened st2.nextFd :: .openatCall :: st2.evs } : Sys), osNewFile st2.nextFd file1, none, ?_, ?_, ?_⟩
                · simp only [winOpenFileBeneath, hv, hEqD, heq, hEq1, hEq2]
                · intro g hg
                  rw [osNewFile_nonneg st2.nextFd file1 hpos2] at hg
                  cases hg
                  exact ⟨p, by simp⟩
                · intro hg
                  rw [osNewFile_nonneg st2.nextFd file1 hpos2] at hg
                  cases hg
              | error e =>
                have hEq1 := sysWinOpenAt_err st2 cur2 dpE ((chSplit '\\' file1).getLastD [])
                  (winDisposition f) { nonDirFile := true } root1 e hat2 hleaf
                have hshape : ({ st2 with root := root1, evs := .openatCall :: st2.evs } : Sys).fds = [] ++ (cur2, dpE) :: st.fds := by
                  simp [hf]
                have hEq2 := sysClose_shape _ [] st.fds cur2 dpE hshape (by simp)
                  (by
                    intro x hx hc
                    exact hcur_keys (hc ▸ List.mem_map_of_mem Prod.fst hx))
                refine ⟨({ st2 with root := root1, fds := ([] : List (Int × FsPath)) ++ st.fds, evs := .closed cur2 :: .openatCall :: st2.evs } : Sys), none, some (.errno e), ?_, by simp, fun _ => by simp⟩
                simp only [winOpenFileBeneath, hv, hEqD, heq, hEq1, hEq2]

theorem Sys.init_wf (root : Node) : (Sys.init root).wf := by
  refine ⟨by simp [Sys.init], ?_, by simp [Sys.init]⟩
  intro e he
  simp [Sys.init] at he

/-- The filesystem used by several witnesses: a base directory holding one
regular file `b` and one subdirectory `sub` containing `t`. -/
def witFs : Node :=
  .dir [("b".data, .file [42]),
        ("sub".data, .dir [("t".data, .file [7])])]

end Safeopen

namespace Safeopen

/-! ## The claims -/

/-- C10: on the native-Windows backend, for every file name accepted by the
simple-filename check, `openFileAt` returns exactly the same result (state,
handle and error) as `openFileBeneath` with the same arguments: the
`DirectChild` resolver is the restriction of the `Beneath` resolver to
one-segment inputs. -/
theorem c10_winOpenFileAt_eq_beneath (st : Sys) (dir : FsPath)
    (file : List Char) (f : OFlags) (h : winIsSimpleFilename file = true) :
    winOpenFileAt st dir file f = winOpenFileBeneath st dir file f := by
  simp [winOpenFileAt, h]

/-- Witness for C10 at a concrete simple filename. -/
theorem c10_winOpenFileAt_eq_beneath_witness :
    winOpenFileAt (Sys.init witFs) [] "b".data oRDONLY =
      winOpenFileBeneath (Sys.init witFs) [] "b".data oRDONLY :=
  c10_winOpenFileAt_eq_beneath (Sys.init witFs) [] "b".data oRDONLY (by decide)

/-- C7: an input that contains a path separator of the backend — `/` on the
Unix backends, `/` or `\\` on the native-Windows backend — or is `.` or
`..`, is rejected by the `DirectChild` operations with the invalid-filename
`*os.PathError`, and the process state is returned exactly unchanged: no
directory descriptor is opened and no syscall is recorded before
validation.  (The Linux/Unix filename check `unixIsFilename` is modelled
from the spec, its defining file being absent from the sources.) -/
theorem c7_directChild_invalid (st : Sys) (dir : FsPath) (file : List Char)
    (f : OFlags) (cfg : Config) :
    ((file.any (· = '/') = true ∨ file = ['.'] ∨ file = ['.', '.']) →
      linuxOpenFileAt cfg st dir file f =
          (st, none, some (invalidFilename "OpenAt".data file)) ∧
        nixOpenFileAt st dir file f =
          (st, none, some (invalidFilename "OpenAt".data file))) ∧
    ((file.any (· = '/') = true ∨ file.any (· = '\\') = true ∨
        file = ['.'] ∨ file = ['.', '.']) →
      winOpenFileAt st dir file f =
        (st, none, some (invalidFilename "OpenAt".data file))) := by
  constructor
  · intro hbad
    have hu : unixIsFilename file = false := by
      simp only [unixIsFilename, Bool.not_eq_true']
      rcases hbad with hb | hb | hb <;> simp [hb]
    constructor
    · simp [linuxOpenFileAt, hu]
    · simp [nixOpenFileAt, hu]
  · intro hbad
    have hw : winIsSimpleFilename file = false := by
      simp only [winIsSimpleFilename, Bool.not_eq_true']
      rcases hbad with hb | hb | hb | hb <;> simp [hb]
    simp [winOpenFileAt, hw]

/-- Witness for C7 at the concrete separator-containing inputs: `a/b` for the
Unix backends and the backslash spelling `a\\b` for the Windows backend. -/
theorem c7_directChild_invalid_witness :
    (linuxOpenFileAt {} (Sys.init witFs) [] "a/b".data oRDONLY =
        (Sys.init witFs, none,
          some (invalidFilename "OpenAt".data "a/b".data)) ∧
      nixOpenFileAt (Sys.init witFs) [] "a/b".data oRDONLY =
        (Sys.init witFs, none,
          some (invalidFilename "OpenAt".data "a/b".data))) ∧
    winOpenFileAt (Sys.init witFs) [] "a\\b".data oRDONLY =
      (Sys.init witFs, none,
        some (invalidFilename "OpenAt".data "a\\b".data)) :=
  ⟨(c7_directChild_invalid (Sys.init witFs) [] "a/b".data oRDONLY {}).1
      (.inl (by decide)),
   (c7_directChild_invalid (Sys.init witFs) [] "a\\b".data oRDONLY {}).2
      (.inr (.inl (by decide)))⟩

/-- C3: descriptor accounting on every exit path of a resolution call, for
all three resolvers (Linux with fast path and legacy fallback, non-Linux
Unix, Windows): starting from any well-formed process state, when the call
returns a file handle the final descriptor table is exactly the initial one
plus the returned descriptor, and when it returns no handle — errors
included — the table is exactly the initial one: no call leaks a
descriptor. -/
theorem c3_no_descriptor_leak (st : Sys) (dir : FsPath) (file : List Char)
    (f : OFlags) (cfg : Config) (hwf : st.wf) :
    ((∀ g, (linuxOpenFileBeneath cfg st dir file f).2.1 = some g →
        ∃ p, (linuxOpenFileBeneath cfg st dir file f).1.fds =
          (g.fd, p) :: st.fds) ∧
      ((linuxOpenFileBeneath cfg st dir file f).2.1 = none →
        (linuxOpenFileBeneath cfg st dir file f).1.fds = st.fds)) ∧
    ((∀ g, (nixOpenFileBeneath st dir file f).2.1 = some g →
        ∃ p, (nixOpenFileBeneath st dir file f).1.fds = (g.fd, p) :: st.fds) ∧
      ((nixOpenFileBeneath st dir file f).2.1 = none →
        (nixOpenFileBeneath st dir file f).1.fds = st.fds)) ∧
    ((∀ g, (winOpenFileBeneath st dir file f).2.1 = some g →
        ∃ p, (winOpenFileBeneath st dir file f).1.fds = (g.fd, p) :: st.fds) ∧
      ((winOpenFileBeneath st dir file f).2.1 = none →
        (winOpenFileBeneath st dir file f).1.fds = st.fds)) := by
  refine ⟨?_, ?_, ?_⟩
  · obtain ⟨st3, gf, err3, hres, h1, h2⟩ :=
      linuxOpenFileBeneath_noLeak cfg st dir file f hwf
    rw [hres]
    exact ⟨h1, h2⟩
  · obtain ⟨st3, gf, err3, hres, h1, h2⟩ :=
      nixOpenFileBeneath_noLeak st dir file f hwf
    rw [hres]
    exact ⟨h1, h2⟩
  · obtain ⟨st3, gf, err3, hres, h1, h2⟩ :=
      winOpenFileBeneath_noLeak st dir file f hwf
    rw [hres]
    exact ⟨h1, h2⟩

/-- Witness for C3: a concrete deep legacy-mode resolution returns a handle
and the final table holds exactly that handle. -/
theorem c3_no_descriptor_leak_witness :
    ∃ p, (linuxOpenFileBeneath { forceLegacyMode := true } (Sys.init witFs)
        [] "sub/t".data oRDONLY).1.fds =
      ((5 : Int), p) :: (Sys.init witFs).fds :=
  (c3_no_descriptor_leak (Sys.init witFs) [] "sub/t".data oRDONLY
    { forceLegacyMode := true } (Sys.init_wf witFs)).1.1
    ⟨5, "sub/t".data⟩ (by decide)

/-- The filesystem of the C8 scenario: only `b` (content bytes of "hi")
exists at the top level of the base. -/
def fs8 : Node := .dir [("b".data, .file [104, 105])]

/-- The C8 filesystem with the intermediate `a` additionally present. -/
def fs8a : Node :=
  .dir [("a".data, .dir []), ("b".data, .file [104, 105])]

/-- C4: the code slip the claim is about.  In forced-legacy mode with a
multi-segment path whose final segment fails to open (`sub` exists, `missing`
does not), the close of the last intermediate descriptor overwrites the leaf
`ENOENT`: the call returns a nil file together with a nil error — the
leaf-open error is not propagated, contradicting the claim (and the package's
own `*PathError` contract and tests).  The same input on the fast path
propagates `ENOENT` properly. -/
theorem c4_leaf_error_suppressed :
    (linuxOpenFileBeneath { forceLegacyMode := true } (Sys.init witFs) []
        "sub/missing".data oRDONLY).2 = (none, none) ∧
      (linuxOpenFileBeneath {} (Sys.init witFs) []
        "sub/missing".data oRDONLY).2 = (none, some (.errno .enoent)) := by
  constructor
  · decide
  · decide

/-- C8 counterexample: on the non-Linux Unix backend the walk uses the
literal input, not its normalized form: with only `b` existing,
`openFileBeneath(base, "a/../b")` fails with `ENOENT` (at the nonexistent
intermediate `a`) instead of succeeding. -/
theorem c8_nix_literal_walk_counterexample :
    (nixOpenFileBeneath (Sys.init fs8) [] "a/../b".data oRDONLY).2 =
      (none, some (.errno .enoent)) := by
  decide

/-- C8 amended: resolution descends the normalized path on the Linux backend
(fast path and legacy walker: the validator rewrites `a/../b` to `b`) and on
the Windows backend, yielding the content of `b`; the non-Linux Unix backend
walks the literal input, so there the call fails with `ENOENT` when `a` is
absent and succeeds only when `a` exists. -/
theorem c8_normalized_walk :
    ((linuxOpenFileBeneath {} (Sys.init fs8) [] "a/../b".data oRDONLY).2.2 =
        none ∧
      fileReadAll (linuxOpenFileBeneath {} (Sys.init fs8) []
          "a/../b".data oRDONLY).1
        (linuxOpenFileBeneath {} (Sys.init fs8) []
          "a/../b".data oRDONLY).2.1 = .ok [104, 105]) ∧
    ((linuxOpenFileBeneath { forceLegacyMode := true } (Sys.init fs8) []
        "a/../b".data oRDONLY).2.2 = none ∧
      fileReadAll (linuxOpenFileBeneath { forceLegacyMode := true }
          (Sys.init fs8) [] "a/../b".data oRDONLY).1
        (linuxOpenFileBeneath { forceLegacyMode := true } (Sys.init fs8) []
          "a/../b".data oRDONLY).2.1 = .ok [104, 105]) ∧
    ((winOpenFileBeneath (Sys.init fs8) [] "a/../b".data oRDONLY).2.2 =
        none ∧
      fileReadAll (winOpenFileBeneath (Sys.init fs8) []
          "a/../b".data oRDONLY).1
        (winOpenFileBeneath (Sys.init fs8) [] "a/../b".data oRDONLY).2.1 =
        .ok [104, 105]) ∧
    (nixOpenFileBeneath (Sys.init fs8) [] "a/../b".data oRDONLY).2 =
      (none, some (.errno .enoent)) ∧
    ((nixOpenFileBeneath (Sys.init fs8a) [] "a/../b".data oRDONLY).2.2 =
        none ∧
      fileReadAll (nixOpenFileBeneath (Sys.init fs8a) []
          "a/../b".data oRDONLY).1
        (nixOpenFileBeneath (Sys.init fs8a) [] "a/../b".data oRDONLY).2.1 =
        .ok [104, 105]) := by
  refine ⟨⟨?_, ?_⟩, ⟨?_, ?_⟩, ⟨?_, ?_⟩, ?_, ?_, ?_⟩ <;> decide

theorem sysOpenat_ev2 (st : Sys) (fd : Int) (seg : List Char) (f : OFlags) :
    ev2Count (sysOpenat st fd seg f).1 = ev2Count st := by
  unfold sysOpenat
  cases h : Sys.at ({ st with evs := Ev.openatCall :: st.evs } : Sys) fd with
  | none => simp [h, ev2Count, List.countP_cons]
  | some dp =>
    cases hop : openatSeg st.root dp seg f with
    | mk root1 r =>
      cases r <;> simp [h, hop, Sys.alloc, ev2Count, List.countP_cons]

theorem sysClose_ev2 (st : Sys) (fd : Int) :
    ev2Count (sysClose st fd).1 = ev2Count st := by
  unfold sysClose
  split <;> simp [ev2Count, List.countP_cons]

theorem legacyLoop_ev2 (dfd : Int) :
    ∀ (segs : List (List Char)) (st : Sys) (adfd : Int),
      ev2Count (legacyLoop dfd st adfd segs).1 = ev2Count st := by
  intro segs
  induction segs with
  | nil => intro st adfd; rfl
  | cons seg rest ih =>
    intro st adfd
    by_cases h0 : seg = []
    · simp [legacyLoop, h0, ih]
    · simp only [legacyLoop, if_neg h0]
      cases hA : sysOpenat st adfd seg oWalkDir with
      | mk st1 pr =>
        have e1 : ev2Count st1 = ev2Count st := by
          have := sysOpenat_ev2 st adfd seg oWalkDir
          rw [hA] at this
          exact this
        cases pr with
        | mk fd1 err1 =>
          by_cases hB : adfd ≠ dfd
          · rw [if_pos hB]
            cases hC : sysClose st1 adfd with
            | mk st2 cerr =>
              have e2 : ev2Count st2 = ev2Count st1 := by
                have := sysClose_ev2 st1 adfd
                rw [hC] at this
                exact this
              cases cerr with
              | some ce => simp [e2, e1]
              | none =>
                cases err1 with
                | some e => simp [e2, e1]
                | none => simp [ih, e2, e1]
          · rw [if_neg hB]
            cases err1 with
            | some e => simp [e1]
            | none => simp [ih, e1]

theorem openFileImplLegacy_ev2 (st : Sys) (dfd : Int) (file : List Char)
    (f : OFlags) : ev2Count (openFileImplLegacy st dfd file f).1 = ev2Count st := by
  simp only [openFileImplLegacy]
  cases hL : legacyLoop dfd st dfd (chSplit '/' file).dropLast with
  | mk st1 r =>
    have e1 : ev2Count st1 = ev2Count st := by
      have := legacyLoop_ev2 dfd (chSplit '/' file).dropLast st dfd
      rw [hL] at this
      exact this
    cases r with
    | error e => simpa using e1
    | ok adfd =>
      simp only []
      split
      · rw [sysClose_ev2, sysOpenat_ev2]
        exact e1
      · rw [sysOpenat_ev2]
        exact e1

theorem sysOpenDir_ev2 (st : Sys) (p : FsPath) :
    ev2Count (sysOpenDir st p).1 = ev2Count st := by
  unfold sysOpenDir
  cases h : nodeAt st.root p with
  | none => rfl
  | some n => cases n <;> simp [Sys.alloc, ev2Count, List.countP_cons]

/-- In forced-legacy mode a full Linux resolution records no fast-path
attempt at all. -/
theorem linuxBeneath_forceLegacy_ev2 (cfg : Config) (st : Sys) (dir : FsPath)
    (file : List Char) (f : OFlags) (hfl : cfg.forceLegacyMode = true) :
    ev2Count (linuxOpenFileBeneath cfg st dir file f).1 = ev2Count st := by
  unfold linuxOpenFileBeneath
  cases hv : canTraverseUnixRelPath file with
  | mk file1 ok =>
    cases ok with
    | false => rfl
    | true =>
      simp only []
      unfold openFileImpl
      cases hD : sysOpenDir st dir with
      | mk st1 pr =>
        have e1 : ev2Count st1 = ev2Count st := by
          have := sysOpenDir_ev2 st dir
          rw [hD] at this
          exact this
        cases pr with
        | mk dfd derr =>
          cases derr with
          | some e => simpa using e1
          | none =>
            simp only [openFileImplBeneathFirst, if_pos hfl]
            cases hL : openFileImplLegacy st1 dfd file1 f with
            | mk st2 pr2 =>
              have e2 : ev2Count st2 = ev2Count st1 := by
                have := openFileImplLegacy_ev2 st1 dfd file1 f
                rw [hL] at this
                exact this
              cases pr2 with
              | mk fd2 err2 =>
                cases hC : sysClose st2 dfd with
                | mk st3 cerr =>
                  have e3 : ev2Count st3 = ev2Count st2 := by
                    have := sysClose_ev2 st2 dfd
                    rw [hC] at this
                    exact this
                  cases err2 <;> simp [e3, e2, e1]

/-- C5 counterexample: there is no process-wide capability cache.  With a
kernel whose `openat2` always reports `ENOSYS`, the first call attempts the
fast path (one recorded attempt) and, contrary to the claim, the second call
in the same process attempts it again (two recorded attempts) instead of
skipping it — while both calls still succeed through the legacy fallback. -/
theorem c5_no_capability_cache_counterexample :
    (((linuxOpenFileBeneath { openat2Err := some .enosys } (Sys.init witFs)
        [] "b".data oRDONLY).2.2 = none ∧
      ev2Count (linuxOpenFileBeneath { openat2Err := some .enosys }
        (Sys.init witFs) [] "b".data oRDONLY).1 = 1) ∧
    ((linuxOpenFileBeneath { openat2Err := some .enosys }
        (linuxOpenFileBeneath { openat2Err := some .enosys } (Sys.init witFs)
          [] "b".data oRDONLY).1 [] "b".data oRDONLY).2.2 = none ∧
      ev2Count (linuxOpenFileBeneath { openat2Err := some .enosys }
        (linuxOpenFileBeneath { openat2Err := some .enosys } (Sys.init witFs)
          [] "b".data oRDONLY).1 [] "b".data oRDONLY).1 = 2)) := by
  refine ⟨⟨?_, ?_⟩, ?_, ?_⟩ <;> decide

/-- C5 amended: no capability outcome is ever recorded — the only state
consulted is the test-only `forceLegacyMode` flag.  With that flag set, a
resolution call records no fast-path attempt at all (for every configuration,
state and input); without it, every call re-attempts the fast path — even
directly after a call that observed the unsupported outcome — and falls back
to the legacy walker within that same call, as the counterexample's concrete
evaluations show. -/
theorem c5_forceLegacy_skips_fast_path (cfg : Config) (st : Sys)
    (dir : FsPath) (file : List Char) (f : OFlags)
    (hfl : cfg.forceLegacyMode = true) :
    ev2Count (linuxOpenFileBeneath cfg st dir file f).1 = ev2Count st :=
  linuxBeneath_forceLegacy_ev2 cfg st dir file f hfl

/-- Witness for the C5 amended theorem at a concrete forced-legacy call. -/
theorem c5_forceLegacy_skips_fast_path_witness :
    ev2Count (linuxOpenFileBeneath { forceLegacyMode := true }
      (Sys.init witFs) [] "sub/t".data oRDONLY).1 =
      ev2Count (Sys.init witFs) :=
  c5_forceLegacy_skips_fast_path { forceLegacyMode := true } (Sys.init witFs)
    [] "sub/t".data oRDONLY rfl

theorem sysOpenat2_evAt (cfg : Config) (st : Sys) (dfd : Int)
    (file : List Char) (f : OFlags) (noSym : Bool) :
    evAtCount (sysOpenat2 cfg st dfd file f noSym).1 = evAtCount st := by
  unfold sysOpenat2
  cases hc : cfg.openat2Err with
  | some e => simp [evAtCount, List.countP_cons]
  | none =>
    cases h : Sys.at ({ st with evs := Ev.openat2Call :: st.evs } : Sys) dfd with
    | none => simp [h, evAtCount, List.countP_cons]
    | some dp =>
      by_cases hf : file = []
      · simp [h, hf, evAtCount, List.countP_cons]
      · cases hw : openat2Walk st.root dp f noSym linkFuel [] (chSplit '/' file) with
        | mk root1 r =>
          cases r <;>
            simp [h, hf, hw, Sys.alloc, evAtCount, List.countP_cons]

/-- C6: when the fast-path kernel call fails with any error outside the
unsupported class (`ENOSYS`, `ENOTSUP`/`EOPNOTSUPP`, `EINVAL`) — e.g. the
would-escape, is-a-symlink or no-such-file errors — the dispatch propagates
that very error to its caller and attempts no legacy walk: the returned state
is exactly the fast-path attempt's state, and the count of legacy `openat`
calls in the trace is unchanged. -/
theorem c6_no_fallback_on_real_error (cfg : Config) (st st2 : Sys)
    (dfd fd2 : Int) (file : List Char) (f : OFlags) (noSym : Bool) (e : Errno)
    (hfl : cfg.forceLegacyMode = false)
    (hcall : sysOpenat2 cfg st dfd file f noSym = (st2, fd2, some e))
    (hclass : ¬(e = Errno.enosys ∨ e = Errno.enotsup ∨ e = Errno.einval)) :
    openFileImplBeneathFirst cfg st dfd file f noSym =
        (st2, 0, some (.errno e)) ∧
      evAtCount st2 = evAtCount st := by
  constructor
  · simp only [openFileImplBeneathFirst, hfl, Bool.false_eq_true, if_false,
      openFileImplBeneath, hcall]
    rw [if_neg (by simp [hclass])]
  · have := sysOpenat2_evAt cfg st dfd file f noSym
    rw [hcall] at this
    exact this

/-- The state used by the C6 witness: the base directory of `witFs` opened as
descriptor 3. -/
def witBaseSt : Sys := (sysOpenDir (Sys.init witFs) []).1

/-- Witness for C6: a concrete escape attempt (`../x`, rejected by
`RESOLVE_BENEATH` with `EXDEV`) is propagated and no legacy walk happens. -/
theorem c6_no_fallback_on_real_error_witness :
    openFileImplBeneathFirst {} witBaseSt 3 "../x".data oRDONLY false =
        ((sysOpenat2 {} witBaseSt 3 "../x".data oRDONLY false).1, 0,
          some (.errno .exdev)) ∧
      evAtCount (sysOpenat2 {} witBaseSt 3 "../x".data oRDONLY false).1 =
        evAtCount witBaseSt := by
  have h2 : (sysOpenat2 {} witBaseSt 3 "../x".data oRDONLY false).2 =
      (-1, some .exdev) := by decide
  exact c6_no_fallback_on_real_error {} witBaseSt
    (sysOpenat2 {} witBaseSt 3 "../x".data oRDONLY false).1 3 (-1)
    "../x".data oRDONLY false .exdev rfl
    (by rw [← h2]) (by decide)

/-! ## String lemmas for the traversal-rejection claim -/

theorem chSplit_sep_free (sep : Char) :
    ∀ (l : List Char) (part : List Char), part ∈ chSplit sep l → sep ∉ part := by
  intro l
  induction l with
  | nil =>
    intro part hp
    simp only [chSplit, List.mem_singleton] at hp
    subst hp
    simp
  | cons c cs ih =>
    intro part hp
    simp only [chSplit] at hp
    by_cases hc : c = sep
    · rw [if_pos hc] at hp
      simp only [List.mem_cons] at hp
      rcases hp with rfl | hp
      · simp
      · exact ih part hp
    · rw [if_neg hc] at hp
      cases hs : chSplit sep cs with
      | nil => exact absurd hs (chSplit_ne_nil sep cs)
      | cons s ss =>
        rw [hs] at hp
        simp only [List.mem_cons] at hp
        rcases hp with rfl | hp
        · intro hm
          simp only [List.mem_cons] at hm
          rcases hm with rfl | hm
          · exact hc rfl
          · exact ih s (by rw [hs]; exact List.mem_cons_self _ _) hm
        · exact ih part (by rw [hs]; exact List.mem_cons_of_mem _ hp)

theorem cleanStep_subset (rooted : Bool) (stack : List (List Char))
    (seg x : List Char) (hx : x ∈ cleanStep rooted stack seg) :
    x ∈ stack ∨ x = seg := by
  unfold cleanStep at hx
  repeat' split at hx
  all_goals simp_all
  all_goals tauto

theorem cleanFold_subset (rooted : Bool) :
    ∀ (segs : List (List Char)) (stack : List (List Char)) (x : List Char),
      x ∈ List.foldl (cleanStep rooted) stack segs → x ∈ stack ∨ x ∈ segs := by
  intro segs
  induction segs with
  | nil => intro stack x hx; exact .inl hx
  | cons seg rest ih =>
    intro stack x hx
    rcases ih (cleanStep rooted stack seg) x hx with h1 | h1
    · rcases cleanStep_subset rooted stack seg x h1 with h2 | h2
      · exact .inl h2
      · exact .inr (h2 ▸ List.mem_cons_self _ _)
    · exact .inr (List.mem_cons_of_mem _ h1)

theorem cleanStep_good (rooted : Bool) (stack : List (List Char))
    (seg x : List Char) (hstack : ∀ y ∈ stack, y ≠ [] ∧ y ≠ ['.'])
    (hx : x ∈ cleanStep rooted stack seg) : x ≠ [] ∧ x ≠ ['.'] := by
  rcases cleanStep_subset rooted stack seg x hx with h | rfl
  · exact hstack x h
  · unfold cleanStep at hx
    split at hx
    · exact hstack x hx
    · constructor <;> rintro rfl <;> simp_all

theorem cleanFold_good (rooted : Bool) :
    ∀ (segs : List (List Char)) (stack : List (List Char)) (x : List Char),
      (∀ y ∈ stack, y ≠ [] ∧ y ≠ ['.']) →
      x ∈ List.foldl (cleanStep rooted) stack segs → x ≠ [] ∧ x ≠ ['.'] := by
  intro segs
  induction segs with
  | nil => intro stack x hstack hx; exact hstack x hx
  | cons seg rest ih =>
    intro stack x hstack hx
    exact ih (cleanStep rooted stack seg) x
      (fun y hy => cleanStep_good rooted stack seg y hstack hy) hx

theorem chTrimSlashes_no_lead (l : List Char) :
    (chTrimSlashes l).head? ≠ some '/' := by
  induction l with
  | nil => simp [chTrimSlashes]
  | cons c cs ih =>
    by_cases hc : c = '/'
    · simpa [chTrimSlashes, hc] using ih
    · simp [chTrimSlashes, hc]

/-- The joined clean segments of a dot-free path neither equal `..` nor begin
with `..` followed by the separator. -/
theorem chJoin_not_up (sep : Char) (hsep : sep ≠ '.')
    (segs : List (List Char))
    (hne : ∀ x ∈ segs, x ≠ [] ∧ x ≠ ['.'])
    (hfree : ∀ x ∈ segs, sep ∉ x)
    (hnodot : ∀ x ∈ segs, x ≠ ['.', '.']) :
    chJoin sep segs ≠ ['.', '.'] ∧
      chStarts ['.', '.', sep] (chJoin sep segs) = false := by
  cases segs with
  | nil => simp [chJoin, chStarts]
  | cons a rest =>
    cases rest with
    | nil =>
      have ha2 : a ≠ ['.', '.'] := hnodot a (List.mem_cons_self _ _)
      have haf : sep ∉ a := hfree a (List.mem_cons_self _ _)
      refine ⟨by simpa [chJoin] using ha2, ?_⟩
      show chStarts ['.', '.', sep] a = false
      match a, haf with
      | [], _ => rfl
      | [c1], _ => simp [chStarts]
      | [c1, c2], _ => simp [chStarts]
      | c1 :: c2 :: c3 :: r, haf =>
        by_cases h3 : c3 = sep
        · subst h3
          exact absurd (by simp) haf
        · simp [chStarts, Ne.symm h3]
    | cons b rest2 =>
      have hjoin : chJoin sep (a :: b :: rest2) =
          a ++ sep :: chJoin sep (b :: rest2) := rfl
      have ha1 : a ≠ [] := (hne a (List.mem_cons_self _ _)).1
      have ha2 : a ≠ ['.', '.'] := hnodot a (List.mem_cons_self _ _)
      have haf : sep ∉ a := hfree a (List.mem_cons_self _ _)
      rw [hjoin]
      constructor
      · intro hcontra
        have hm : sep ∈ a ++ sep :: chJoin sep (b :: rest2) := by simp
        rw [hcontra] at hm
        simp at hm
        exact hsep hm
      · match a, ha1, ha2, haf with
        | [c1], _, _, _ =>
          simp [chStarts, Ne.symm hsep]
        | [c1, c2], _, ha2, _ =>
          by_cases h1 : c1 = '.'
          · by_cases h2 : c2 = '.'
            · exact absurd (by rw [h1, h2]) ha2
            · simp [chStarts, Ne.symm h2]
          · simp [chStarts, Ne.symm h1]
        | c1 :: c2 :: c3 :: r, _, _, haf =>
          by_cases h3 : c3 = sep
          · subst h3
            exact absurd (by simp) haf
          · simp [chStarts, Ne.symm h3]

theorem goCleanChars_rel_nil (sep : Char) (t : List Char) (ht : t ≠ [])
    (hh : ¬ t.head? = some sep)
    (hs : cleanSegs false (chSplit sep t) = []) :
    goCleanChars sep t = ['.'] := by
  unfold goCleanChars
  rw [if_neg ht, if_neg hh, hs]

theorem goCleanChars_rel_cons (sep : Char) (t : List Char) (a : List Char)
    (r : List (List Char)) (ht : t ≠ []) (hh : ¬ t.head? = some sep)
    (hs : cleanSegs false (chSplit sep t) = a :: r) :
    goCleanChars sep t = chJoin sep (a :: r) := by
  unfold goCleanChars
  rw [if_neg ht, if_neg hh, hs]

/-- If `Clean`ing a path produces `..` or something starting with `..⟨sep⟩`,
then some component of the original path is `.` or `..` (so the validators'
dot scan fires and they do test the cleaned path). -/
theorem goClean_up_hasDots (sep : Char) (hsep : sep ≠ '.') (t : List Char)
    (hyp : goCleanChars sep t = ['.', '.'] ∨
      chStarts ['.', '.', sep] (goCleanChars sep t) = true) :
    segsHaveDots (chSplit sep t) = true := by
  by_contra hdots
  rw [Bool.not_eq_true] at hdots
  by_cases ht : t = []
  · rw [ht] at hyp
    simp [goCleanChars, chStarts] at hyp
  · by_cases hh : t.head? = some sep
    · unfold goCleanChars at hyp
      rw [if_neg ht, if_pos hh] at hyp
      rcases hyp with h | h
      · simp only [List.cons.injEq] at h
        exact hsep h.1
      · simp [chStarts, Ne.symm hsep] at h
    · cases hseg : cleanSegs false (chSplit sep t) with
      | nil =>
        rw [goCleanChars_rel_nil sep t ht hh hseg] at hyp
        simp [chStarts] at hyp
      | cons a r =>
        rw [goCleanChars_rel_cons sep t a r ht hh hseg] at hyp
        have hmem : ∀ x ∈ a :: r,
            x ∈ List.foldl (cleanStep false) [] (chSplit sep t) := by
          intro x hxm
          rw [← hseg] at hxm
          unfold cleanSegs at hxm
          exact List.mem_reverse.mp hxm
        have hgood : ∀ x ∈ a :: r, x ≠ [] ∧ x ≠ ['.'] := fun x hxm =>
          cleanFold_good false (chSplit sep t) [] x (by simp) (hmem x hxm)
        have hfree : ∀ x ∈ a :: r, sep ∉ x := by
          intro x hxm
          rcases cleanFold_subset false (chSplit sep t) [] x (hmem x hxm)
            with h | h
          · simp at h
          · exact chSplit_sep_free sep t x h
        have hnodot : ∀ x ∈ a :: r, x ≠ ['.', '.'] := by
          intro x hxm hx2
          rcases cleanFold_subset false (chSplit sep t) [] x (hmem x hxm)
            with h | h
          · simp at h
          · rw [hx2] at h
            have hd2 : segsHaveDots (chSplit sep t) = true := by
              unfold segsHaveDots
              rw [List.any_eq_true]
              exact ⟨['.', '.'], h, by decide⟩
            simp [hd2] at hdots
        obtain ⟨hne2, hst⟩ := chJoin_not_up sep hsep (a :: r) hgood hfree hnodot
        rcases hyp with h | h
        · exact hne2 h
        · rw [hst] at h
          cases h

/-- **C2 (counterexample to the leading-separator sentence).**  The claim says
a leading separator is "treated as still relative to the base (stripped)".
Only the Linux validator strips it: there `/..` is rejected like `..`.  The
non-Linux Unix validator cleans the unstripped path, so `Clean "/.." = "/"`
passes the check while the stripped `..` is rejected — and the subsequent
walk opens the leaf `..`, handing back a descriptor for the parent of the
base (path `[]`, strictly above base `sub`).  The Windows validator likewise
accepts `/..` (as `\`) while rejecting the stripped `..`. -/
theorem c2_leading_separator_counterexample :
    unixRelativePathDoesntTraverse ('/' :: ['.', '.']) = true ∧
    unixRelativePathDoesntTraverse ['.', '.'] = false ∧
    winRelativePathDoesntTraverse ('/' :: ['.', '.']) = (['\\'], true) ∧
    winRelativePathDoesntTraverse ['.', '.'] = ([], false) ∧
    canTraverseUnixRelPath ('/' :: ['.', '.']) = ([], false) ∧
    (nixOpenFileBeneath (Sys.init witFs) ["sub".data] ('/' :: ['.', '.'])
        oRDONLY).2.2 = none ∧
    (nixOpenFileBeneath (Sys.init witFs) ["sub".data] ('/' :: ['.', '.'])
        oRDONLY).2.1 = some ⟨4, '/' :: ['.', '.']⟩ ∧
    Sys.at (nixOpenFileBeneath (Sys.init witFs) ["sub".data]
        ('/' :: ['.', '.']) oRDONLY).1 4 = some [] := by
  decide

/-- **C2 (amended).**  For every input whose *literal* normalized form
(`filepath.Clean` of the path the backend actually cleans: the
slash-stripped path on Linux, the backslashed path on Windows, and the raw
path on non-Linux Unix) is `..` or begins with `..` plus a separator, the
`Beneath` validator rejects; and on Linux a leading separator is stripped,
so validation of `/p` agrees exactly with validation of `p`. -/
theorem c2_normalized_traversal_rejected (s : List Char) :
    ((goCleanChars '/' (chTrimSlashes s) = ['.', '.'] ∨
        chStarts ['.', '.', '/'] (goCleanChars '/' (chTrimSlashes s)) = true) →
      canTraverseUnixRelPath s = ([], false)) ∧
    ((goCleanChars '\\' (chToBackslashes s) = ['.', '.'] ∨
        chStarts ['.', '.', '\\'] (goCleanChars '\\' (chToBackslashes s)) = true) →
      winRelativePathDoesntTraverse s = ([], false)) ∧
    ((goCleanChars '/' s = ['.', '.'] ∨
        chStarts ['.', '.', '/'] (goCleanChars '/' s) = true) →
      unixRelativePathDoesntTraverse s = false) ∧
    (s ≠ [] → canTraverseUnixRelPath ('/' :: s) = canTraverseUnixRelPath s) := by
  refine ⟨?_, ?_, ?_, ?_⟩
  · intro hyp
    unfold canTraverseUnixRelPath
    by_cases hs : s = []
    · rw [if_pos hs]
    · rw [if_neg hs]
      have hd := goClean_up_hasDots '/' (by decide) (chTrimSlashes s) hyp
      show (let path := if segsHaveDots (chSplit '/' (chTrimSlashes s)) then
              goCleanChars '/' (chTrimSlashes s) else chTrimSlashes s;
            if path = ['.', '.'] ∨ chStarts ['.', '.', '/'] path then
              ([], false) else (path, true)) = ([], false)
      rw [hd]
      show (if goCleanChars '/' (chTrimSlashes s) = ['.', '.'] ∨
              chStarts ['.', '.', '/'] (goCleanChars '/' (chTrimSlashes s)) then
            (([] : List Char), false)
          else (goCleanChars '/' (chTrimSlashes s), true)) = ([], false)
      rcases hyp with h | h
      · rw [if_pos (Or.inl h)]
      · rw [if_pos (Or.inr h)]
  · intro hyp
    unfold winRelativePathDoesntTraverse
    by_cases hs : s = []
    · rw [if_pos hs]
    · rw [if_neg hs]
      by_cases hq : s.any (· = '?') = true
      · rw [if_pos hq]
      · rw [if_neg hq]
        have hd := goClean_up_hasDots '\\' (by decide) (chToBackslashes s) hyp
        show (let path := if segsHaveDots (chSplit '\\' (chToBackslashes s)) then
                goCleanChars '\\' (chToBackslashes s) else chToBackslashes s;
              if path = ['.', '.'] ∨ chStarts ['.', '.', '\\'] path then
                ([], false) else (path, true)) = ([], false)
        rw [hd]
        show (if goCleanChars '\\' (chToBackslashes s) = ['.', '.'] ∨
                chStarts ['.', '.', '\\'] (goCleanChars '\\' (chToBackslashes s)) then
              (([] : List Char), false)
            else (goCleanChars '\\' (chToBackslashes s), true)) = ([], false)
        rcases hyp with h | h
        · rw [if_pos (Or.inl h)]
        · rw [if_pos (Or.inr h)]
  · intro hyp
    unfold unixRelativePathDoesntTraverse
    by_cases hs : s = []
    · rw [if_pos hs]
    · rw [if_neg hs]
      have hd := goClean_up_hasDots '/' (by decide) s hyp
      show (let cleaned := if segsHaveDots (chSplit '/' s) = true then
              goCleanChars '/' s else s;
            !decide (cleaned = ['.', '.'] ∨
              chStarts ['.', '.', '/'] cleaned = true)) = false
      rw [hd]
      show (!decide (goCleanChars '/' s = ['.', '.'] ∨
            chStarts ['.', '.', '/'] (goCleanChars '/' s) = true)) = false
      rcases hyp with h | h
      · rw [decide_eq_true (Or.inl h)]
        rfl
      · rw [decide_eq_true (Or.inr h)]
        rfl
  · intro hs
    unfold canTraverseUnixRelPath
    rw [if_neg (by simp), if_neg hs]
    have htrim : chTrimSlashes ('/' :: s) = chTrimSlashes s := by
      simp [chTrimSlashes]
    rw [htrim]

/-- **C2 witness.**  `../x` is rejected by the Linux validator, `a/../..`
(which cleans to `..`) by the Windows validator, `..` by the non-Linux Unix
validator, and validating `/b` on Linux agrees with validating `b`. -/
theorem c2_normalized_traversal_rejected_witness :
    canTraverseUnixRelPath "../x".data = ([], false) ∧
    winRelativePathDoesntTraverse "a/../..".data = ([], false) ∧
    unixRelativePathDoesntTraverse "..".data = false ∧
    canTraverseUnixRelPath ('/' :: "b".data) = canTraverseUnixRelPath "b".data :=
  ⟨(c2_normalized_traversal_rejected "../x".data).1 (by decide),
   (c2_normalized_traversal_rejected "a/../..".data).2.1 (by decide),
   (c2_normalized_traversal_rejected "..".data).2.2.1 (by decide),
   (c2_normalized_traversal_rejected "b".data).2.2.2 (by decide)⟩

/-! ## Round-trip lemmas (write then read on the non-Linux Unix backend) -/

/-- Success analysis of the leaf open with the create flags
(`O_RDWR|O_CREATE|O_TRUNC|O_NOFOLLOW`): the leaf is a real name, the prior
occupant was a regular file or nothing, and the tree now holds an empty file
at `dp ++ [seg]`. -/
theorem openatSeg_create_ok (root : Node) (dp : FsPath) (seg : List Char)
    (root1 : Node) (p : FsPath)
    (h : openatSeg root dp seg { oCreateRW with nofollow := true } =
      (root1, .ok p)) :
    p = dp ++ [seg] ∧ root1 = setPath root (dp ++ [seg]) (.file []) ∧
      replaceOK root (dp ++ [seg]) ∧
      seg ≠ [] ∧ seg ≠ ['.'] ∧ seg ≠ ['.', '.'] := by
  have h0 : seg ≠ [] := by
    rintro rfl
    simp [openatSeg] at h
  have h1 : seg ≠ ['.'] := by
    rintro rfl
    simp [openatSeg, oCreateRW] at h
  have h2 : seg ≠ ['.', '.'] := by
    rintro rfl
    simp [openatSeg, oCreateRW] at h
  rw [openatSeg_name root dp seg _ h0 h1 h2] at h
  cases hn : nodeAt root (dp ++ [seg]) with
  | none =>
    simp only [hn] at h
    rw [if_pos (by constructor <;> decide)] at h
    injection h with hA hB
    injection hB with hB
    exact ⟨hB.symm, hA.symm, .inl hn, h0, h1, h2⟩
  | some n =>
    cases n with
    | file d0 =>
      simp only [hn] at h
      rw [if_neg (by decide), if_pos (by decide)] at h
      injection h with hA hB
      injection hB with hB
      exact ⟨hB.symm, hA.symm, .inr ⟨d0, hn⟩, h0, h1, h2⟩
    | dir es =>
      simp only [hn] at h
      rw [if_pos (by decide)] at h
      injection h with hA hB
      simp at hB
    | symlink t =>
      simp only [hn] at h
      injection h with hA hB
      simp at hB

/-- The leaf open with `O_RDONLY|O_NOFOLLOW` on an existing regular file
succeeds and leaves the tree alone. -/
theorem openatSeg_read_ok (root : Node) (dp : FsPath) (seg : List Char)
    (data : List Nat) (h0 : seg ≠ []) (h1 : seg ≠ ['.'])
    (h2 : seg ≠ ['.', '.'])
    (hn : nodeAt root (dp ++ [seg]) = some (.file data)) :
    openatSeg root dp seg { oRDONLY with nofollow := true } =
      (root, .ok (dp ++ [seg])) := by
  rw [openatSeg_name root dp seg _ h0 h1 h2]
  simp only [hn]
  rw [if_neg (by decide), if_neg (by decide)]

theorem fileWrite_ok (st : Sys) (gf : GoFile) (p : FsPath)
    (d0 data : List Nat) (hat : st.at gf.fd = some p)
    (hn : nodeAt st.root p = some (.file d0)) :
    fileWrite st (some gf) data =
      ({ st with root := setPath st.root p (.file data) }, none) := by
  simp only [fileWrite, hat, hn]

theorem fileReadAll_ok (st : Sys) (gf : GoFile) (p : FsPath)
    (data : List Nat) (hat : st.at gf.fd = some p)
    (hn : nodeAt st.root p = some (.file data)) :
    fileReadAll st (some gf) = .ok data := by
  simp only [fileReadAll, hat, hn]

/-- `ReadFileAt` over the non-Linux Unix backend returns the content of the
direct child `file` of `dir` whenever the process table is fresh. -/
theorem nixReadFileAt_ok (st : Sys) (dir : FsPath) (file : List Char)
    (es : List (List Char × Node)) (data : List Nat)
    (hval : unixIsFilename file = true) (hfds : st.fds = [])
    (hpos : 0 ≤ st.nextFd)
    (hn : nodeAt st.root dir = some (.dir es))
    (h0 : file ≠ []) (h1 : file ≠ ['.']) (h2 : file ≠ ['.', '.'])
    (hleaf : nodeAt st.root (dir ++ [file]) = some (.file data)) :
    (nixReadFileAt st dir file).2 = .ok data := by
  have hEqD := sysOpenDir_ok st dir es hn
  have hop := openatSeg_read_ok st.root dir file data h0 h1 h2 hleaf
  have hEq1 : sysOpenat ({ st with nextFd := st.nextFd + 1, fds := (st.nextFd, dir) :: st.fds, evs := .opened st.nextFd :: st.evs } : Sys) st.nextFd file { oRDONLY with nofollow := true } = (({ st with root := st.root, nextFd := st.nextFd + 1 + 1, fds := (st.nextFd + 1, dir ++ [file]) :: (st.nextFd, dir) :: st.fds, evs := .opened (st.nextFd + 1) :: .openatCall :: .opened st.nextFd :: st.evs } : Sys), st.nextFd + 1, none) :=
    sysOpenat_ok _ st.nextFd dir file { oRDONLY with nofollow := true }
      st.root (dir ++ [file]) (Sys.at_top _ _ _ st.fds rfl) hop
  have hEq2 : sysClose ({ st with root := st.root, nextFd := st.nextFd + 1 + 1, fds := (st.nextFd + 1, dir ++ [file]) :: (st.nextFd, dir) :: st.fds, evs := .opened (st.nextFd + 1) :: .openatCall :: .opened st.nextFd :: st.evs } : Sys) st.nextFd = (({ st with root := st.root, nextFd := st.nextFd + 1 + 1, fds := [(st.nextFd + 1, dir ++ [file])] ++ st.fds, evs := .closed st.nextFd :: .opened (st.nextFd + 1) :: .openatCall :: .opened st.nextFd :: st.evs } : Sys), none) :=
    sysClose_shape _ [(st.nextFd + 1, dir ++ [file])] st.fds st.nextFd dir rfl
      (by
        intro e he
        simp only [List.mem_singleton] at he
        subst he
        show st.nextFd + 1 ≠ st.nextFd
        omega)
      (by
        intro e he
        rw [hfds] at he
        simp at he)
  have hopen : nixOpenFileAt st dir file oRDONLY = (({ st with root := st.root, nextFd := st.nextFd + 1 + 1, fds := [(st.nextFd + 1, dir ++ [file])] ++ st.fds, evs := .closed st.nextFd :: .opened (st.nextFd + 1) :: .openatCall :: .opened st.nextFd :: st.evs } : Sys), some ⟨st.nextFd + 1, file⟩, none) := by
    simp only [nixOpenFileAt, hval]
    simp only [Bool.not_true, Bool.false_eq_true, if_false, hEqD, hEq1, hEq2,
      osNewFile_nonneg (st.nextFd + 1) file (by omega)]
  have hread : fileReadAll ({ st with root := st.root, nextFd := st.nextFd + 1 + 1, fds := [(st.nextFd + 1, dir ++ [file])] ++ st.fds, evs := .closed st.nextFd :: .opened (st.nextFd + 1) :: .openatCall :: .opened st.nextFd :: st.evs } : Sys) (some ⟨st.nextFd + 1, file⟩) = .ok data :=
    fileReadAll_ok _ ⟨st.nextFd + 1, file⟩ (dir ++ [file]) data
      (Sys.at_top _ _ _ st.fds rfl) hleaf
  show (readFile st dir file nixOpenFileAt).2 = .ok data
  simp only [readFile, hopen, hread]

/-- Success analysis of `WriteFileAt` over the non-Linux Unix backend from a
fresh process state: the name passed validation, the base is a directory, the
leaf create succeeded, and the final tree holds `data` at the leaf with every
descriptor released. -/
theorem nixWriteFileAt_ok (root : Node) (dir : FsPath) (file : List Char)
    (data : List Nat) (stw : Sys)
    (hw : nixWriteFileAt (Sys.init root) dir file data = (stw, none)) :
    ∃ es root1 p,
      unixIsFilename file = true ∧
      nodeAt root dir = some (.dir es) ∧
      openatSeg root dir file { oCreateRW with nofollow := true } =
        (root1, .ok p) ∧
      stw.root = setPath root1 p (.file data) ∧ stw.fds = [] ∧
      0 ≤ stw.nextFd := by
  by_cases hval : unixIsFilename file = true
  case neg =>
    have hopen : nixOpenFileAt (Sys.init root) dir file oCreateRW =
        (Sys.init root, none, some (invalidFilename "OpenAt".data file)) := by
      simp only [nixOpenFileAt]
      rw [if_pos (by simpa using hval)]
    simp only [nixWriteFileAt, writeFile, hopen] at hw
    simp at hw
  case pos =>
  cases hb : nodeAt root dir with
  | none =>
    have hEqD : sysOpenDir (Sys.init root) dir =
        (Sys.init root, -1, some .enoent) := by
      simp [sysOpenDir, Sys.init, hb]
    have hopen : nixOpenFileAt (Sys.init root) dir file oCreateRW =
        (Sys.init root, none, some (.errno .enoent)) := by
      simp only [nixOpenFileAt, hval]
      simp only [Bool.not_true, Bool.false_eq_true, if_false, hEqD]
    simp only [nixWriteFileAt, writeFile, hopen] at hw
    simp at hw
  | some n =>
    cases n with
    | file d =>
      have hEqD : sysOpenDir (Sys.init root) dir =
          (Sys.init root, -1, some .enotdir) := by
        simp [sysOpenDir, Sys.init, hb]
      have hopen : nixOpenFileAt (Sys.init root) dir file oCreateRW =
          (Sys.init root, none, some (.errno .enotdir)) := by
        simp only [nixOpenFileAt, hval]
        simp only [Bool.not_true, Bool.false_eq_true, if_false, hEqD]
      simp only [nixWriteFileAt, writeFile, hopen] at hw
      simp at hw
    | symlink t =>
      have hEqD : sysOpenDir (Sys.init root) dir =
          (Sys.init root, -1, some .enotdir) := by
        simp [sysOpenDir, Sys.init, hb]
      have hopen : nixOpenFileAt (Sys.init root) dir file oCreateRW =
          (Sys.init root, none, some (.errno .enotdir)) := by
        simp only [nixOpenFileAt, hval]
        simp only [Bool.not_true, Bool.false_eq_true, if_false, hEqD]
      simp only [nixWriteFileAt, writeFile, hopen] at hw
      simp at hw
    | dir es =>
      have hEqD : sysOpenDir (Sys.init root) dir =
          (({ root := root, nextFd := 4, fds := [(3, dir)], evs := [.opened 3] } : Sys), 3, none) :=
        sysOpenDir_ok (Sys.init root) dir es hb
      cases hopR : openatSeg root dir file { oCreateRW with nofollow := true } with
      | mk root1 r =>
        cases r with
        | error e =>
          have hEq1 : sysOpenat ({ root := root, nextFd := 4, fds := [(3, dir)], evs := [.opened 3] } : Sys) 3 file { oCreateRW with nofollow := true } = (({ root := root1, nextFd := 4, fds := [(3, dir)], evs := [.openatCall, .opened 3] } : Sys), -1, some e) :=
            sysOpenat_err _ 3 dir file { oCreateRW with nofollow := true }
              root1 e (Sys.at_top _ _ _ [] rfl) hopR
          have hEq2 : sysClose ({ root := root1, nextFd := 4, fds := [(3, dir)], evs := [.openatCall, .opened 3] } : Sys) 3 = (({ root := root1, nextFd := 4, fds := [], evs := [.closed 3, .openatCall, .opened 3] } : Sys), none) :=
            sysClose_shape _ [] [] 3 dir rfl (by simp) (by simp)
          have hopen : nixOpenFileAt (Sys.init root) dir file oCreateRW =
              (({ root := root1, nextFd := 4, fds := [], evs := [.closed 3, .openatCall, .opened 3] } : Sys), none, some (.errno e)) := by
            simp only [nixOpenFileAt, hval]
            simp only [Bool.not_true, Bool.false_eq_true, if_false, hEqD,
              hEq1, hEq2]
          simp only [nixWriteFileAt, writeFile, hopen] at hw
          simp at hw
        | ok p =>
          obtain ⟨hp, hr1, hrep, h0, h1, h2⟩ :=
            openatSeg_create_ok root dir file root1 p hopR
          have hEq1 : sysOpenat ({ root := root, nextFd := 4, fds := [(3, dir)], evs := [.opened 3] } : Sys) 3 file { oCreateRW with nofollow := true } = (({ root := root1, nextFd := 5, fds := [(4, p), (3, dir)], evs := [.opened 4, .openatCall, .opened 3] } : Sys), 4, none) :=
            sysOpenat_ok _ 3 dir file { oCreateRW with nofollow := true }
              root1 p (Sys.at_top _ _ _ [] rfl) hopR
          have hEq2 : sysClose ({ root := root1, nextFd := 5, fds := [(4, p), (3, dir)], evs := [.opened 4, .openatCall, .opened 3] } : Sys) 3 = (({ root := root1, nextFd := 5, fds := [(4, p)], evs := [.closed 3, .opened 4, .openatCall, .opened 3] } : Sys), none) :=
            sysClose_shape _ [(4, p)] [] 3 dir rfl
              (by
                intro e he
                simp only [List.mem_singleton] at he
                subst he
                show (4 : Int) ≠ 3
                decide)
              (by simp)
          have hopen : nixOpenFileAt (Sys.init root) dir file oCreateRW =
              (({ root := root1, nextFd := 5, fds := [(4, p)], evs := [.closed 3, .opened 4, .openatCall, .opened 3] } : Sys), some ⟨4, file⟩, none) := by
            simp only [nixOpenFileAt, hval]
            simp only [Bool.not_true, Bool.false_eq_true, if_false, hEqD,
              hEq1, hEq2, osNewFile_nonneg 4 file (by decide)]
          have hnode1 : nodeAt root1 p = some (.file []) := by
            rw [hr1, hp]
            exact nodeAt_setPath_self dir file root (.file []) es hb
          have hwr : fileWrite ({ root := root1, nextFd := 5, fds := [(4, p)], evs := [.closed 3, .opened 4, .openatCall, .opened 3] } : Sys) (some ⟨4, file⟩) data = (({ root := setPath root1 p (.file data), nextFd := 5, fds := [(4, p)], evs := [.closed 3, .opened 4, .openatCall, .opened 3] } : Sys), none) :=
            fileWrite_ok _ ⟨4, file⟩ p [] data (Sys.at_top _ _ _ [] rfl) hnode1
          have hcl : fileClose ({ root := setPath root1 p (.file data), nextFd := 5, fds := [(4, p)], evs := [.closed 3, .opened 4, .openatCall, .opened 3] } : Sys) (some ⟨4, file⟩) = (({ root := setPath root1 p (.file data), nextFd := 5, fds := [], evs := [.closed 4, .closed 3, .opened 4, .openatCall, .opened 3] } : Sys), none) := by
            simp only [fileClose]
            exact sysClose_shape _ [] [] 4 p rfl (by simp) (by simp)
          simp only [nixWriteFileAt, writeFile, hopen, hwr, hcl] at hw
          injection hw with hA hB
          refine ⟨es, root1, p, hval, rfl, rfl, ?_, ?_, ?_⟩
          · rw [← hA]
          · rw [← hA]
          · rw [← hA]
            show (0 : Int) ≤ 5
            decide

/-- `ReadFileBeneath` over the non-Linux Unix backend returns the content at
the walked position whenever the process table is fresh. -/
theorem nixReadFileBeneath_ok (st : Sys) (dir : FsPath) (file : List Char)
    (es : List (List Char × Node)) (dpE : FsPath) (data : List Nat)
    (hval : unixRelativePathDoesntTraverse file = true)
    (hfds : st.fds = []) (hpos : 0 ≤ st.nextFd)
    (hn : nodeAt st.root dir = some (.dir es))
    (hwalk : walkDirs st.root dir (chSplit '/' file).dropLast = .ok dpE)
    (h0 : (chSplit '/' file).getLastD [] ≠ [])
    (h1 : (chSplit '/' file).getLastD [] ≠ ['.'])
    (h2 : (chSplit '/' file).getLastD [] ≠ ['.', '.'])
    (hleaf : nodeAt st.root (dpE ++ [(chSplit '/' file).getLastD []]) =
      some (.file data)) :
    (nixReadFileBeneath st dir file).2 = .ok data := by
  have hwf : st.wf := ⟨hpos, by rw [hfds]; simp, by rw [hfds]; simp⟩
  have hEqD := sysOpenDir_ok st dir es hn
  have hwf1 : ({ st with nextFd := st.nextFd + 1, fds := (st.nextFd, dir) :: st.fds, evs := .opened st.nextFd :: st.evs } : Sys).wf :=
    Sys.wf_push st dir st.root _ hwf
  have hspec := nixLoop_spec (chSplit '/' file).dropLast
    ({ st with nextFd := st.nextFd + 1, fds := (st.nextFd, dir) :: st.fds, evs := .opened st.nextFd :: st.evs } : Sys)
    st.nextFd dir st.fds rfl hwf1
  obtain ⟨st2, cur2, heq, hr, hf, hwf2, hle, hev⟩ :=
    hspec.1 dpE (by simpa using hwalk)
  obtain ⟨hpos2, hbnd2, hnodup2⟩ := hwf2
  have hat2 : st2.at cur2 = some dpE := Sys.at_top st2 cur2 dpE st.fds hf
  have hcur_lt : cur2 < st2.nextFd :=
    hbnd2 (cur2, dpE) (by rw [hf]; exact List.mem_cons_self _ _)
  have hop : openatSeg st2.root dpE ((chSplit '/' file).getLastD [])
      { oRDONLY with nofollow := true } =
      (st2.root, .ok (dpE ++ [(chSplit '/' file).getLastD []])) := by
    rw [hr]
    exact openatSeg_read_ok st.root dpE _ data h0 h1 h2 hleaf
  have hEq1 := sysOpenat_ok st2 cur2 dpE ((chSplit '/' file).getLastD [])
    { oRDONLY with nofollow := true } st2.root
    (dpE ++ [(chSplit '/' file).getLastD []]) hat2 hop
  have hshape : ({ st2 with root := st2.root, nextFd := st2.nextFd + 1, fds := (st2.nextFd, dpE ++ [(chSplit '/' file).getLastD []]) :: st2.fds, evs := .opened st2.nextFd :: .openatCall :: st2.evs } : Sys).fds = [(st2.nextFd, dpE ++ [(chSplit '/' file).getLastD []])] ++ (cur2, dpE) :: st.fds := by
    simp [hf]
  have hEq2 := sysClose_shape _
    [(st2.nextFd, dpE ++ [(chSplit '/' file).getLastD []])] st.fds cur2 dpE
    hshape
    (by
      intro x hx
      simp only [List.mem_singleton] at hx
      subst hx
      exact ne_of_gt hcur_lt)
    (by
      intro x hx
      rw [hfds] at hx
      simp at hx)
  have hopen : nixOpenFileBeneath st dir file oRDONLY =
      (({ st2 with root := st2.root, nextFd := st2.nextFd + 1, fds := [(st2.nextFd, dpE ++ [(chSplit '/' file).getLastD []])] ++ st.fds, evs := .closed cur2 :: .opened st2.nextFd :: .openatCall :: st2.evs } : Sys), some ⟨st2.nextFd, file⟩, none) := by
    simp only [nixOpenFileBeneath, hval]
    simp only [Bool.not_true, Bool.false_eq_true, if_false, hEqD, heq, hEq1,
      hEq2, osNewFile_nonneg st2.nextFd file hpos2]
  have hread : fileReadAll ({ st2 with root := st2.root, nextFd := st2.nextFd + 1, fds := [(st2.nextFd, dpE ++ [(chSplit '/' file).getLastD []])] ++ st.fds, evs := .closed cur2 :: .opened st2.nextFd :: .openatCall :: st2.evs } : Sys) (some ⟨st2.nextFd, file⟩) = .ok data :=
    fileReadAll_ok _ ⟨st2.nextFd, file⟩
      (dpE ++ [(chSplit '/' file).getLastD []]) data
      (Sys.at_top _ _ _ st.fds rfl)
      (by
        show nodeAt st2.root (dpE ++ [(chSplit '/' file).getLastD []]) =
          some (.file data)
        rw [hr]
        exact hleaf)
  show (readFile st dir file nixOpenFileBeneath).2 = .ok data
  simp only [readFile, hopen, hread]

/-- Success analysis of `WriteFileBeneath` over the non-Linux Unix backend
from a fresh process state. -/
theorem nixWriteFileBeneath_ok (root : Node) (dir : FsPath) (file : List Char)
    (data : List Nat) (stw : Sys)
    (hw : nixWriteFileBeneath (Sys.init root) dir file data = (stw, none)) :
    ∃ es dpE root1 p,
      unixRelativePathDoesntTraverse file = true ∧
      nodeAt root dir = some (.dir es) ∧
      walkDirs root dir (chSplit '/' file).dropLast = .ok dpE ∧
      openatSeg root dpE ((chSplit '/' file).getLastD [])
        { oCreateRW with nofollow := true } = (root1, .ok p) ∧
      stw.root = setPath root1 p (.file data) ∧ stw.fds = [] ∧
      0 ≤ stw.nextFd := by
  by_cases hval : unixRelativePathDoesntTraverse file = true
  case neg =>
    have hopen : nixOpenFileBeneath (Sys.init root) dir file oCreateRW =
        (Sys.init root, none, some (invalidFilename "OpenBeneath".data file)) := by
      simp only [nixOpenFileBeneath]
      rw [if_pos (by simpa using hval)]
    simp only [nixWriteFileBeneath, writeFile, hopen] at hw
    simp at hw
  case pos =>
  cases hb : nodeAt root dir with
  | none =>
    have hEqD : sysOpenDir (Sys.init root) dir =
        (Sys.init root, -1, some .enoent) := by
      simp [sysOpenDir, Sys.init, hb]
    have hopen : nixOpenFileBeneath (Sys.init root) dir file oCreateRW =
        (Sys.init root, none, some (.errno .enoent)) := by
      simp only [nixOpenFileBeneath, hval]
      simp only [Bool.not_true, Bool.false_eq_true, if_false, hEqD]
    simp only [nixWriteFileBeneath, writeFile, hopen] at hw
    simp at hw
  | some n =>
    cases n with
    | file d =>
      have hEqD : sysOpenDir (Sys.init root) dir =
          (Sys.init root, -1, some .enotdir) := by
        simp [sysOpenDir, Sys.init, hb]
      have hopen : nixOpenFileBeneath (Sys.init root) dir file oCreateRW =
          (Sys.init root, none, some (.errno .enotdir)) := by
        simp only [nixOpenFileBeneath, hval]
        simp only [Bool.not_true, Bool.false_eq_true, if_false, hEqD]
      simp only [nixWriteFileBeneath, writeFile, hopen] at hw
      simp at hw
    | symlink t =>
      have hEqD : sysOpenDir (Sys.init root) dir =
          (Sys.init root, -1, some .enotdir) := by
        simp [sysOpenDir, Sys.init, hb]
      have hopen : nixOpenFileBeneath (Sys.init root) dir file oCreateRW =
          (Sys.init root, none, some (.errno .enotdir)) := by
        simp only [nixOpenFileBeneath, hval]
        simp only [Bool.not_true, Bool.false_eq_true, if_false, hEqD]
      simp only [nixWriteFileBeneath, writeFile, hopen] at hw
      simp at hw
    | dir es =>
      have hEqD : sysOpenDir (Sys.init root) dir =
          (({ root := root, nextFd := 4, fds := [(3, dir)], evs := [.opened 3] } : Sys), 3, none) :=
        sysOpenDir_ok (Sys.init root) dir es hb
      have hwf1 : ({ root := root, nextFd := 4, fds := [(3, dir)], evs := [.opened 3] } : Sys).wf :=
        Sys.wf_push (Sys.init root) dir root [.opened 3] (Sys.init_wf root)
      have hspec := nixLoop_spec (chSplit '/' file).dropLast
        ({ root := root, nextFd := 4, fds := [(3, dir)], evs := [.opened 3] } : Sys)
        3 dir [] rfl hwf1
      cases hwalk : walkDirs root dir (chSplit '/' file).dropLast with
      | error e =>
        obtain ⟨st2, heq, hr, hf, hwf2, hle, hev⟩ :=
          hspec.2 e (by simpa using hwalk)
        have hopen : nixOpenFileBeneath (Sys.init root) dir file oCreateRW =
            (st2, none, some (.errno e)) := by
          simp only [nixOpenFileBeneath, hval]
          simp only [Bool.not_true, Bool.false_eq_true, if_false, hEqD, heq]
        simp only [nixWriteFileBeneath, writeFile, hopen] at hw
        simp at hw
      | ok dpE =>
        obtain ⟨st2, cur2, heq, hr, hf, hwf2, hle, hev⟩ :=
          hspec.1 dpE (by simpa using hwalk)
        obtain ⟨hpos2, hbnd2, hnodup2⟩ := hwf2
        have hat2 : st2.at cur2 = some dpE := Sys.at_top st2 cur2 dpE [] hf
        have hcur_lt : cur2 < st2.nextFd :=
          hbnd2 (cur2, dpE) (by rw [hf]; exact List.mem_cons_self _ _)
        cases hopR : openatSeg root dpE ((chSplit '/' file).getLastD [])
            { oCreateRW with nofollow := true } with
        | mk root1 r =>
          cases r with
          | error e =>
            have hop2 : openatSeg st2.root dpE
                ((chSplit '/' file).getLastD [])
                { oCreateRW with nofollow := true } = (root1, .error e) := by
              rw [hr]
              exact hopR
            have hEq1 := sysOpenat_err st2 cur2 dpE
              ((chSplit '/' file).getLastD [])
              { oCreateRW with nofollow := true } root1 e hat2 hop2
            have hshape : ({ st2 with root := root1, evs := .openatCall :: st2.evs } : Sys).fds = [] ++ (cur2, dpE) :: [] := by
              simp [hf]
            have hEq2 := sysClose_shape _ [] [] cur2 dpE hshape (by simp)
              (by simp)
            have hopen : nixOpenFileBeneath (Sys.init root) dir file
                oCreateRW = (({ st2 with root := root1, fds := ([] : List (Int × FsPath)) ++ [], evs := .closed cur2 :: .openatCall :: st2.evs } : Sys), none, some (.errno e)) := by
              simp only [nixOpenFileBeneath, hval]
              simp only [Bool.not_true, Bool.false_eq_true, if_false, hEqD,
                heq, hEq1, hEq2]
            simp only [nixWriteFileBeneath, writeFile, hopen] at hw
            simp at hw
          | ok p =>
            obtain ⟨hp, hr1, hrep, h0, h1, h2⟩ :=
              openatSeg_create_ok root dpE ((chSplit '/' file).getLastD [])
                root1 p hopR
            obtain ⟨esE, hqE⟩ := walkDirs_isDirAt root
              (chSplit '/' file).dropLast dir dpE ⟨es, hb⟩ hwalk
            have hop2 : openatSeg st2.root dpE
                ((chSplit '/' file).getLastD [])
                { oCreateRW with nofollow := true } = (root1, .ok p) := by
              rw [hr]
              exact hopR
            have hEq1 := sysOpenat_ok st2 cur2 dpE
              ((chSplit '/' file).getLastD [])
              { oCreateRW with nofollow := true } root1 p hat2 hop2
            have hshape : ({ st2 with root := root1, nextFd := st2.nextFd + 1, fds := (st2.nextFd, p) :: st2.fds, evs := .opened st2.nextFd :: .openatCall :: st2.evs } : Sys).fds = [(st2.nextFd, p)] ++ (cur2, dpE) :: [] := by
              simp [hf]
            have hEq2 := sysClose_shape _ [(st2.nextFd, p)] [] cur2 dpE hshape
              (by
                intro x hx
                simp only [List.mem_singleton] at hx
                subst hx
                exact ne_of_gt hcur_lt)
              (by simp)
            have hopen : nixOpenFileBeneath (Sys.init root) dir file
                oCreateRW = (({ st2 with root := root1, nextFd := st2.nextFd + 1, fds := [(st2.nextFd, p)] ++ [], evs := .closed cur2 :: .opened st2.nextFd :: .openatCall :: st2.evs } : Sys), some ⟨st2.nextFd, file⟩, none) := by
              simp only [nixOpenFileBeneath, hval]
              simp only [Bool.not_true, Bool.false_eq_true, if_false, hEqD,
                heq, hEq1, hEq2, osNewFile_nonneg st2.nextFd file hpos2]
            have hnode1 : nodeAt root1 p = some (.file []) := by
              rw [hr1, hp]
              exact nodeAt_setPath_self dpE ((chSplit '/' file).getLastD [])
                root (.file []) esE hqE
            have hwr : fileWrite ({ st2 with root := root1, nextFd := st2.nextFd + 1, fds := [(st2.nextFd, p)] ++ [], evs := .closed cur2 :: .opened st2.nextFd :: .openatCall :: st2.evs } : Sys) (some ⟨st2.nextFd, file⟩) data = (({ st2 with root := setPath root1 p (.file data), nextFd := st2.nextFd + 1, fds := [(st2.nextFd, p)] ++ [], evs := .closed cur2 :: .opened st2.nextFd :: .openatCall :: st2.evs } : Sys), none) :=
              fileWrite_ok _ ⟨st2.nextFd, file⟩ p [] data
                (Sys.at_top _ _ _ [] rfl) hnode1
            have hcl : fileClose ({ st2 with root := setPath root1 p (.file data), nextFd := st2.nextFd + 1, fds := [(st2.nextFd, p)] ++ [], evs := .closed cur2 :: .opened st2.nextFd :: .openatCall :: st2.evs } : Sys) (some ⟨st2.nextFd, file⟩) = (({ st2 with root := setPath root1 p (.file data), nextFd := st2.nextFd + 1, fds := ([] : List (Int × FsPath)), evs := .closed st2.nextFd :: .closed cur2 :: .opened st2.nextFd :: .openatCall :: st2.evs } : Sys), none) := by
              simp only [fileClose]
              exact sysClose_shape _ [] [] st2.nextFd p rfl (by simp) (by simp)
            simp only [nixWriteFileBeneath, writeFile, hopen, hwr, hcl] at hw
            injection hw with hA hB
            refine ⟨es, dpE, root1, p, hval, rfl, rfl, hopR, ?_, ?_, ?_⟩
            · rw [← hA]
            · rw [← hA]
            · rw [← hA]
              show (0 : Int) ≤ st2.nextFd + 1
              omega

/-- **C9.**  Round-trip on the Unix segment-walk backend: if writing `data`
through the create operation succeeds (`WriteFileAt` for the `DirectChild`
variant, `WriteFileBeneath` for the `Beneath` variant), then reading the same
relative path back through the matching open operation returns exactly
`data`. -/
theorem c9_write_read_roundtrip (root : Node) (dir : FsPath)
    (file : List Char) (data : List Nat) :
    (∀ stw, nixWriteFileAt (Sys.init root) dir file data = (stw, none) →
      (nixReadFileAt stw dir file).2 = .ok data) ∧
    (∀ stw, nixWriteFileBeneath (Sys.init root) dir file data = (stw, none) →
      (nixReadFileBeneath stw dir file).2 = .ok data) := by
  constructor
  · intro stw hw
    obtain ⟨es, root1, p, hval, hb, hopR, hroot, hfds, hpos⟩ :=
      nixWriteFileAt_ok root dir file data stw hw
    obtain ⟨hp, hr1, hrep, h0, h1, h2⟩ :=
      openatSeg_create_ok root dir file root1 p hopR
    have hroot2 : stw.root = setPath root (dir ++ [file]) (.file data) := by
      rw [hroot, hr1, hp, setPath_setPath]
    have hdir2 : isDirAt stw.root dir := by
      rw [hroot2]
      exact (isDirAt_setPath (dir ++ [file]) root data hrep dir).mpr ⟨es, hb⟩
    obtain ⟨es2, hn2⟩ := hdir2
    have hleaf2 : nodeAt stw.root (dir ++ [file]) = some (.file data) := by
      rw [hroot2]
      exact nodeAt_setPath_self dir file root (.file data) es hb
    exact nixReadFileAt_ok stw dir file es2 data hval hfds hpos hn2
      h0 h1 h2 hleaf2
  · intro stw hw
    obtain ⟨es, dpE, root1, p, hval, hb, hwalk, hopR, hroot, hfds, hpos⟩ :=
      nixWriteFileBeneath_ok root dir file data stw hw
    obtain ⟨hp, hr1, hrep, h0, h1, h2⟩ :=
      openatSeg_create_ok root dpE ((chSplit '/' file).getLastD [])
        root1 p hopR
    obtain ⟨esE, hqE⟩ := walkDirs_isDirAt root (chSplit '/' file).dropLast
      dir dpE ⟨es, hb⟩ hwalk
    have hroot2 : stw.root =
        setPath root (dpE ++ [(chSplit '/' file).getLastD []])
          (.file data) := by
      rw [hroot, hr1, hp, setPath_setPath]
    have hdir2 : isDirAt stw.root dir := by
      rw [hroot2]
      exact (isDirAt_setPath _ root data hrep dir).mpr ⟨es, hb⟩
    obtain ⟨es2, hn2⟩ := hdir2
    have hwalk2 : walkDirs stw.root dir (chSplit '/' file).dropLast =
        .ok dpE := by
      rw [hroot2]
      exact walkDirs_setPath root _ data hrep _ dir dpE hwalk
    have hleaf2 : nodeAt stw.root
        (dpE ++ [(chSplit '/' file).getLastD []]) = some (.file data) := by
      rw [hroot2]
      exact nodeAt_setPath_self dpE _ root (.file data) esE hqE
    exact nixReadFileBeneath_ok stw dir file es2 dpE data hval hfds hpos
      hn2 hwalk2 h0 h1 h2 hleaf2

/-- **C9 witness.**  Creating `n` at the base and `sub/n` beneath it, then
reading each back, returns the written byte. -/
theorem c9_write_read_roundtrip_witness :
    (nixReadFileAt (nixWriteFileAt (Sys.init witFs) [] "n".data [9]).1
      [] "n".data).2 = .ok [9] ∧
    (nixReadFileBeneath
      (nixWriteFileBeneath (Sys.init witFs) [] "sub/n".data [9]).1
      [] "sub/n".data).2 = .ok [9] :=
  ⟨(c9_write_read_roundtrip witFs [] "n".data [9]).1
      (nixWriteFileAt (Sys.init witFs) [] "n".data [9]).1 rfl,
   (c9_write_read_roundtrip witFs [] "sub/n".data [9]).2
      (nixWriteFileBeneath (Sys.init witFs) [] "sub/n".data [9]).1 rfl⟩

/-! ## Symlink analysis for the legacy walker -/

theorem chSplit_no_sep (sep : Char) :
    ∀ (l : List Char), sep ∉ l → chSplit sep l = [l] := by
  intro l
  induction l with
  | nil => intro _; rfl
  | cons c cs ih =>
    intro hm
    have hc : ¬ c = sep := fun h => hm (h ▸ List.mem_cons_self _ _)
    have hcs : sep ∉ cs := fun h => hm (List.mem_cons_of_mem _ h)
    simp only [chSplit, if_neg hc, ih hcs]

/-- If the pure walk over all the components meets a symbolic link, then
either the intermediate walk already fails, or it succeeds and the final
component is a real name whose entry is a symbolic link. -/
theorem hitsSymlink_split (root : Node) :
    ∀ (segs : List (List Char)) (dp : FsPath),
      hitsSymlink root dp segs = true →
      (∃ e, walkDirs root dp segs.dropLast = .error e) ∨
      (∃ dpE t, walkDirs root dp segs.dropLast = .ok dpE ∧
        segs.getLastD [] ≠ [] ∧ segs.getLastD [] ≠ ['.'] ∧
        segs.getLastD [] ≠ ['.', '.'] ∧
        (nodeAt root dpE).bind (fun n => n.child (segs.getLastD [])) =
          some (.symlink t)) := by
  intro segs
  induction segs with
  | nil =>
    intro dp hh
    simp [hitsSymlink] at hh
  | cons seg rest ih =>
    intro dp hh
    cases rest with
    | nil =>
      simp only [hitsSymlink] at hh
      by_cases hA : seg = [] ∨ seg = ['.']
      · rw [if_pos hA] at hh
        simp [hitsSymlink] at hh
      · rw [if_neg hA] at hh
        by_cases hB : seg = ['.', '.']
        · rw [if_pos hB] at hh
          simp [hitsSymlink] at hh
        · rw [if_neg hB] at hh
          cases hc : (nodeAt root dp).bind (fun n => n.child seg) with
          | none =>
            simp only [hc] at hh
            cases hh
          | some n =>
            cases n with
            | symlink t =>
              push_neg at hA
              exact .inr ⟨dp, t, rfl, hA.1, hA.2, hB, hc⟩
            | dir es =>
              simp only [hc] at hh
              simp [hitsSymlink] at hh
            | file d =>
              simp only [hc] at hh
              cases hh
    | cons r1 rs =>
      simp only [hitsSymlink] at hh
      by_cases hA : seg = [] ∨ seg = ['.']
      · rw [if_pos hA] at hh
        have hstep : walkDirs root dp (seg :: (r1 :: rs).dropLast) =
            walkDirs root dp ((r1 :: rs).dropLast) := by
          rcases hA with rfl | rfl
          · simp [walkDirs]
          · have hop2 : (openatSeg root dp ['.'] oWalkDir).2 = .ok dp := by
              rw [openatSeg_dot]
              simp [oWalkDir]
            simp only [walkDirs, if_neg (by simp : ¬(['.'] : List Char) = []),
              hop2]
        rcases ih dp hh with ⟨e, hwE⟩ | ⟨dpE, t, hwOk, k0, k1, k2, hc⟩
        · exact .inl ⟨e, by rw [List.dropLast_cons₂, hstep]; exact hwE⟩
        · refine .inr ⟨dpE, t, by rw [List.dropLast_cons₂, hstep]; exact hwOk,
            ?_, ?_, ?_, ?_⟩ <;> simpa [List.getLastD_cons] using
              (by assumption : _)
      · rw [if_neg hA] at hh
        have hne : ¬ seg = [] := fun h => hA (.inl h)
        by_cases hB : seg = ['.', '.']
        · rw [if_pos hB] at hh
          subst hB
          have hop2 : (openatSeg root dp ['.', '.'] oWalkDir).2 =
              .ok dp.dropLast := by
            rw [openatSeg_dotdot]
            simp [oWalkDir]
          have hstep : walkDirs root dp (['.', '.'] :: (r1 :: rs).dropLast) =
              walkDirs root dp.dropLast ((r1 :: rs).dropLast) := by
            simp only [walkDirs, if_neg (by simp : ¬(['.', '.'] : List Char) = []),
              hop2]
          rcases ih dp.dropLast hh with ⟨e, hwE⟩ | ⟨dpE, t, hwOk, k0, k1, k2, hc⟩
          · exact .inl ⟨e, by rw [List.dropLast_cons₂, hstep]; exact hwE⟩
          · refine .inr ⟨dpE, t, by rw [List.dropLast_cons₂, hstep]; exact hwOk,
              ?_, ?_, ?_, ?_⟩ <;> simpa [List.getLastD_cons] using
                (by assumption : _)
        · rw [if_neg hB] at hh
          have hdot : ¬ seg = ['.'] := fun h => hA (.inr h)
          cases hc : (nodeAt root dp).bind (fun n => n.child seg) with
          | none =>
            simp only [hc] at hh
            cases hh
          | some n =>
            cases n with
            | symlink t =>
              left
              have hn2 : nodeAt root (dp ++ [seg]) = some (.symlink t) := by
                rw [nodeAt_append]
                exact hc
              have hop2 : (openatSeg root dp seg oWalkDir).2 =
                  .error .eloop := by
                rw [openatSeg_name root dp seg oWalkDir hne hdot hB]
                simp only [hn2]
              refine ⟨.eloop, ?_⟩
              rw [List.dropLast_cons₂]
              simp only [walkDirs, if_neg hne, hop2]
            | dir es =>
              simp only [hc] at hh
              have hn2 : nodeAt root (dp ++ [seg]) = some (.dir es) := by
                rw [nodeAt_append]
                exact hc
              have hop2 : (openatSeg root dp seg oWalkDir).2 =
                  .ok (dp ++ [seg]) := by
                rw [openatSeg_name root dp seg oWalkDir hne hdot hB]
                simp only [hn2]
                rw [if_neg (by simp [oWalkDir])]
              have hstep : walkDirs root dp (seg :: (r1 :: rs).dropLast) =
                  walkDirs root (dp ++ [seg]) ((r1 :: rs).dropLast) := by
                simp only [walkDirs, if_neg hne, hop2]
              rcases ih (dp ++ [seg]) hh with ⟨e, hwE⟩ |
                ⟨dpE, t, hwOk, k0, k1, k2, hc2⟩
              · exact .inl ⟨e, by rw [List.dropLast_cons₂, hstep]; exact hwE⟩
              · refine .inr ⟨dpE, t, by rw [List.dropLast_cons₂, hstep]; exact hwOk,
                  ?_, ?_, ?_, ?_⟩ <;> simpa [List.getLastD_cons] using
                    (by assumption : _)
            | file d =>
              simp only [hc] at hh
              cases hh

theorem unixIsFilename_facts (file : List Char)
    (h : unixIsFilename file = true) :
    ('/' : Char) ∉ file ∧ file ≠ ['.'] ∧ file ≠ ['.', '.'] := by
  unfold unixIsFilename at h
  simp only [Bool.not_eq_true', Bool.or_eq_false_iff, List.any_eq_false,
    decide_eq_false_iff_not] at h
  exact ⟨fun hm => h.1.1 '/' hm rfl, h.1.2, h.2⟩

/-- With `RESOLVE_NO_SYMLINKS` a single-component resolution whose entry is a
symbolic link fails with `ELOOP` without touching the tree. -/
theorem openat2Walk_symLeaf (root : Node) (base : FsPath) (f : OFlags)
    (file t : List Char)
    (h0 : file ≠ []) (h1 : file ≠ ['.']) (h2 : file ≠ ['.', '.'])
    (hchild : (nodeAt root base).bind (fun n => n.child file) =
      some (.symlink t)) :
    openat2Walk root base f true linkFuel [] [file] =
      (root, .error .eloop) := by
  have hfuel : linkFuel = 39 + 1 := rfl
  rw [hfuel]
  simp only [openat2Walk, openat2Step]
  rw [if_neg (by simp [h0, h1]), if_neg h2]
  have hchild2 : (nodeAt root (base ++ [])).bind (fun n => n.child file) =
      some (.symlink t) := by
    rw [List.append_nil]
    exact hchild
  simp only [hchild2]
  simp

theorem openFileImpl_noHandle_baseErr (cfg : Config) (st : Sys)
    (dir : FsPath) (file : List Char) (f : OFlags) (noSym : Bool) (e : Errno)
    (hEqD : sysOpenDir st dir = (st, -1, some e)) :
    (openFileImpl cfg st dir file f noSym).2.1 = none := by
  simp only [openFileImpl, hEqD]

/-- If the dispatch layer returns an error, or no error with a negative
descriptor, the resolution call hands back no file handle. -/
theorem openFileImpl_noHandle_of (cfg : Config) (st : Sys) (dir : FsPath)
    (file : List Char) (f : OFlags) (noSym : Bool)
    (es : List (List Char × Node)) (st2 : Sys) (fd2 : Int)
    (err2 : Option GoErr)
    (hb : nodeAt st.root dir = some (.dir es))
    (hBF : openFileImplBeneathFirst cfg ({ st with nextFd := st.nextFd + 1, fds := (st.nextFd, dir) :: st.fds, evs := .opened st.nextFd :: st.evs } : Sys) st.nextFd file f noSym = (st2, fd2, err2))
    (hno : err2 = none → fd2 < 0) :
    (openFileImpl cfg st dir file f noSym).2.1 = none := by
  have hEqD := sysOpenDir_ok st dir es hb
  simp only [openFileImpl, hEqD, hBF]
  cases hcl : sysClose st2 st.nextFd with
  | mk stc r =>
    cases err2 with
    | some e => simp only [hcl]
    | none =>
      have hfd : fd2 < 0 := hno rfl
      simp only [hcl, osNewFile, if_pos hfd]

/-- The legacy walker on a single-component name whose entry is a symbolic
link (or on the empty name) returns descriptor `-1` — never a usable
handle. -/
theorem atLegacy_noHandle (st : Sys) (dfd : Int) (dir : FsPath)
    (fr : List (Int × FsPath)) (file : List Char) (f : OFlags)
    (t : List Char) (h : st.fds = (dfd, dir) :: fr) (hwf : st.wf)
    (hsep : ('/' : Char) ∉ file) (h1 : file ≠ ['.']) (h2 : file ≠ ['.', '.'])
    (hchild : (nodeAt st.root dir).bind (fun n => n.child file) =
      some (.symlink t)) :
    ∃ st1 err1, openFileImplLegacy st dfd file f = (st1, -1, err1) := by
  by_cases h0 : file = []
  · subst h0
    have hw : walkDirs st.root dir
        ((chSplit '/' ([] : List Char)).dropLast) = .ok dir := rfl
    have hleaf : openatSeg st.root dir
        ((chSplit '/' ([] : List Char)).getLastD [])
        { f with nofollow := true } = (st.root, .error .enoent) := by
      simp [openatSeg, chSplit]
    obtain ⟨st1, hres, _⟩ :=
      openFileImplLegacy_leafErr st dfd dir fr [] f dir .enoent h hwf hw hleaf
    exact ⟨st1, _, hres⟩
  · have hsp : chSplit '/' file = [file] := chSplit_no_sep '/' file hsep
    have hw : walkDirs st.root dir ((chSplit '/' file).dropLast) =
        .ok dir := by
      rw [hsp]
      rfl
    have hn2 : nodeAt st.root (dir ++ [file]) = some (.symlink t) := by
      rw [nodeAt_append]
      exact hchild
    have hleaf : openatSeg st.root dir ((chSplit '/' file).getLastD [])
        { f with nofollow := true } = (st.root, .error .eloop) := by
      rw [hsp]
      show openatSeg st.root dir file { f with nofollow := true } = _
      rw [openatSeg_name st.root dir file _ h0 h1 h2]
      simp only [hn2]
    obtain ⟨st1, hres, _⟩ :=
      openFileImplLegacy_leafErr st dfd dir fr file f dir .eloop h hwf hw hleaf
    exact ⟨st1, _, hres⟩

/-- The legacy walker on a validated path that meets a symbolic link at any
component returns either an error or a negative descriptor — never a usable
handle. -/
theorem legacyHit_noHandle (st : Sys) (dfd : Int) (dir : FsPath)
    (fr : List (Int × FsPath)) (file2 : List Char) (f : OFlags)
    (h : st.fds = (dfd, dir) :: fr) (hwf : st.wf)
    (hhit : hitsSymlink st.root dir (chSplit '/' file2) = true) :
    ∃ st1 fd1 err1, openFileImplLegacy st dfd file2 f = (st1, fd1, err1) ∧
      (err1 = none → fd1 < 0) := by
  rcases hitsSymlink_split st.root (chSplit '/' file2) dir hhit with
    ⟨e, hwErr⟩ | ⟨dpE, t, hwOk, k0, k1, k2, hc⟩
  · obtain ⟨st1, hres, _⟩ :=
      openFileImplLegacy_walkErr st dfd dir fr file2 f e h hwf hwErr
    exact ⟨st1, 0, some (.errno e), hres, fun hcontra => by simp at hcontra⟩
  · have hn2 : nodeAt st.root (dpE ++ [(chSplit '/' file2).getLastD []]) =
        some (.symlink t) := by
      rw [nodeAt_append]
      exact hc
    have hleaf : openatSeg st.root dpE ((chSplit '/' file2).getLastD [])
        { f with nofollow := true } = (st.root, .error .eloop) := by
      rw [openatSeg_name st.root dpE _ _ k0 k1 k2]
      simp only [hn2]
    obtain ⟨st1, hres, _⟩ :=
      openFileImplLegacy_leafErr st dfd dir fr file2 f dpE .eloop h hwf
        hwOk hleaf
    exact ⟨st1, -1, _, hres, fun _ => by norm_num⟩

/-- **C1 (amended).**  Symlink rejection as the Linux code actually provides
it: (1) whenever the `Beneath` resolution is routed to the legacy walker —
forced legacy mode, or any of the kernel configurations the code classifies
as "fast path unavailable" (`ENOSYS`, `ENOTSUP`/`EOPNOTSUPP`, `EINVAL`) —
and the validated path meets a symbolic link at any component, no file
handle is returned; (2) the `DirectChild` operations reject a symbolic-link
entry under every anticipated kernel configuration — working fast path
(which adds `RESOLVE_NO_SYMLINKS`), each unsupported-kernel fallback, and
forced legacy mode alike.  (The `Beneath` fast path, by contrast, follows
in-base symlinks — see the counterexample.) -/
theorem c1_symlink_rejection_scope :
    (∀ (root : Node) (dir : FsPath) (file file2 : List Char) (f : OFlags)
        (cfg : Config),
      (cfg.forceLegacyMode = true ∨ cfg.openat2Err = some .enosys ∨
        cfg.openat2Err = some .enotsup ∨ cfg.openat2Err = some .einval) →
      canTraverseUnixRelPath file = (file2, true) →
      hitsSymlink root dir (chSplit '/' file2) = true →
      (linuxOpenFileBeneath cfg (Sys.init root) dir file f).2.1 = none) ∧
    (∀ (root : Node) (dir : FsPath) (file : List Char) (f : OFlags)
        (cfg : Config) (t : List Char),
      cfg.kernelLike →
      (nodeAt root dir).bind (fun n => n.child file) = some (.symlink t) →
      (linuxOpenFileAt cfg (Sys.init root) dir file f).2.1 = none) := by
  constructor
  · intro root dir file file2 f cfg hroute hvr hhit
    simp only [linuxOpenFileBeneath, hvr]
    cases hb : nodeAt root dir with
    | none =>
      exact openFileImpl_noHandle_baseErr cfg _ dir file2 f false .enoent
        (by simp [sysOpenDir, Sys.init, hb])
    | some n =>
      cases n with
      | file d =>
        exact openFileImpl_noHandle_baseErr cfg _ dir file2 f false .enotdir
          (by simp [sysOpenDir, Sys.init, hb])
      | symlink t2 =>
        exact openFileImpl_noHandle_baseErr cfg _ dir file2 f false .enotdir
          (by simp [sysOpenDir, Sys.init, hb])
      | dir es =>
        have hwf1 : ({ root := root, nextFd := 4, fds := [(3, dir)], evs := [Ev.opened 3] } : Sys).wf :=
          Sys.wf_push (Sys.init root) dir root [Ev.opened 3] (Sys.init_wf root)
        by_cases hfl : cfg.forceLegacyMode = true
        · obtain ⟨st1, fd1, err1, hres, hno⟩ := legacyHit_noHandle
            ({ root := root, nextFd := 4, fds := [(3, dir)], evs := [Ev.opened 3] } : Sys)
            3 dir [] file2 f rfl hwf1 hhit
          exact openFileImpl_noHandle_of cfg (Sys.init root) dir file2 f
            false es st1 fd1 err1 hb
            (by
              show openFileImplBeneathFirst cfg ({ root := root, nextFd := 4, fds := [(3, dir)], evs := [Ev.opened 3] } : Sys) 3 file2 f false = _
              unfold openFileImplBeneathFirst
              rw [if_pos hfl]
              exact hres)
            hno
        · obtain ⟨e, hcfg, hsup⟩ : ∃ e, cfg.openat2Err = some e ∧
              (!decide (e = Errno.enosys ∨ e = Errno.enotsup ∨
                e = Errno.einval)) = false := by
            rcases hroute with h | h | h | h
            · exact absurd h hfl
            · exact ⟨.enosys, h, by decide⟩
            · exact ⟨.enotsup, h, by decide⟩
            · exact ⟨.einval, h, by decide⟩
          have hEq2 := sysOpenat2_cfgErr cfg
            ({ root := root, nextFd := 4, fds := [(3, dir)], evs := [Ev.opened 3] } : Sys)
            3 file2 f false e hcfg
          have hOB : openFileImplBeneath cfg
              ({ root := root, nextFd := 4, fds := [(3, dir)], evs := [Ev.opened 3] } : Sys)
              3 file2 f false =
              (({ root := root, nextFd := 4, fds := [(3, dir)], evs := [Ev.openat2Call, Ev.opened 3] } : Sys), 0, false, some (.errno e)) := by
            unfold openFileImplBeneath
            rw [hEq2]
            simp only [hsup]
          obtain ⟨st1, fd1, err1, hres, hno⟩ := legacyHit_noHandle
            ({ root := root, nextFd := 4, fds := [(3, dir)], evs := [Ev.openat2Call, Ev.opened 3] } : Sys)
            3 dir [] file2 f rfl hwf1 hhit
          exact openFileImpl_noHandle_of cfg (Sys.init root) dir file2 f
            false es st1 fd1 err1 hb
            (by
              show openFileImplBeneathFirst cfg ({ root := root, nextFd := 4, fds := [(3, dir)], evs := [Ev.opened 3] } : Sys) 3 file2 f false = _
              unfold openFileImplBeneathFirst
              rw [if_neg hfl, hOB]
              exact hres)
            hno
  · intro root dir file f cfg t hk hchild
    by_cases hval : unixIsFilename file = true
    case neg =>
      simp only [linuxOpenFileAt]
      rw [if_pos (by simpa using hval)]
    case pos =>
    obtain ⟨hsep, h1, h2⟩ := unixIsFilename_facts file hval
    simp only [linuxOpenFileAt, hval, Bool.not_true, Bool.false_eq_true,
      if_false]
    cases hb : nodeAt root dir with
    | none =>
      exact openFileImpl_noHandle_baseErr cfg _ dir file f true .enoent
        (by simp [sysOpenDir, Sys.init, hb])
    | some n =>
      cases n with
      | file d =>
        exact openFileImpl_noHandle_baseErr cfg _ dir file f true .enotdir
          (by simp [sysOpenDir, Sys.init, hb])
      | symlink t2 =>
        exact openFileImpl_noHandle_baseErr cfg _ dir file f true .enotdir
          (by simp [sysOpenDir, Sys.init, hb])
      | dir es =>
        have hwf1 : ({ root := root, nextFd := 4, fds := [(3, dir)], evs := [Ev.opened 3] } : Sys).wf :=
          Sys.wf_push (Sys.init root) dir root [Ev.opened 3] (Sys.init_wf root)
        by_cases hfl : cfg.forceLegacyMode = true
        · obtain ⟨st1, err1, hres⟩ := atLegacy_noHandle
            ({ root := root, nextFd := 4, fds := [(3, dir)], evs := [Ev.opened 3] } : Sys)
            3 dir [] file f t rfl hwf1 hsep h1 h2 hchild
          exact openFileImpl_noHandle_of cfg (Sys.init root) dir file f
            true es st1 (-1) err1 hb
            (by
              show openFileImplBeneathFirst cfg ({ root := root, nextFd := 4, fds := [(3, dir)], evs := [Ev.opened 3] } : Sys) 3 file f true = _
              unfold openFileImplBeneathFirst
              rw [if_pos hfl]
              exact hres)
            (fun _ => by norm_num)
        · rcases hk with hcfg0 | hroute3
          · by_cases h0 : file = []
            · subst h0
              have hEq2 := sysOpenat2_empty cfg
                ({ root := root, nextFd := 4, fds := [(3, dir)], evs := [Ev.opened 3] } : Sys)
                3 dir f true hcfg0 (Sys.at_top _ _ _ [] rfl)
              have hOB : openFileImplBeneath cfg
                  ({ root := root, nextFd := 4, fds := [(3, dir)], evs := [Ev.opened 3] } : Sys)
                  3 [] f true =
                  (({ root := root, nextFd := 4, fds := [(3, dir)], evs := [Ev.openat2Call, Ev.opened 3] } : Sys), 0, true, some (.errno .enoent)) := by
                unfold openFileImplBeneath
                rw [hEq2]
                rfl
              exact openFileImpl_noHandle_of cfg (Sys.init root) dir [] f
                true es ({ root := root, nextFd := 4, fds := [(3, dir)], evs := [Ev.openat2Call, Ev.opened 3] } : Sys) 0 (some (.errno .enoent)) hb
                (by
                  show openFileImplBeneathFirst cfg ({ root := root, nextFd := 4, fds := [(3, dir)], evs := [Ev.opened 3] } : Sys) 3 [] f true = _
                  unfold openFileImplBeneathFirst
                  rw [if_neg hfl, hOB]
                  rfl)
                (fun hcontra => by simp at hcontra)
            · have hsp : chSplit '/' file = [file] :=
                chSplit_no_sep '/' file hsep
              have hwalk2 : openat2Walk root dir f true linkFuel []
                  (chSplit '/' file) = (root, .error .eloop) := by
                rw [hsp]
                exact openat2Walk_symLeaf root dir f file t h0 h1 h2 hchild
              have hEq2 := sysOpenat2_err cfg
                ({ root := root, nextFd := 4, fds := [(3, dir)], evs := [Ev.opened 3] } : Sys)
                3 dir file f true root .eloop hcfg0 (Sys.at_top _ _ _ [] rfl)
                h0 hwalk2
              have hOB : openFileImplBeneath cfg
                  ({ root := root, nextFd := 4, fds := [(3, dir)], evs := [Ev.opened 3] } : Sys)
                  3 file f true =
                  (({ root := root, nextFd := 4, fds := [(3, dir)], evs := [Ev.openat2Call, Ev.opened 3] } : Sys), 0, true, some (.errno .eloop)) := by
                unfold openFileImplBeneath
                rw [hEq2]
                rfl
              exact openFileImpl_noHandle_of cfg (Sys.init root) dir file f
                true es ({ root := root, nextFd := 4, fds := [(3, dir)], evs := [Ev.openat2Call, Ev.opened 3] } : Sys) 0 (some (.errno .eloop)) hb
                (by
                  show openFileImplBeneathFirst cfg ({ root := root, nextFd := 4, fds := [(3, dir)], evs := [Ev.opened 3] } : Sys) 3 file f true = _
                  unfold openFileImplBeneathFirst
                  rw [if_neg hfl, hOB]
                  rfl)
                (fun hcontra => by simp at hcontra)
          · obtain ⟨e, hcfg, hsup⟩ : ∃ e, cfg.openat2Err = some e ∧
                (!decide (e = Errno.enosys ∨ e = Errno.enotsup ∨
                  e = Errno.einval)) = false := by
              rcases hroute3 with h | h | h
              · exact ⟨.enosys, h, by decide⟩
              · exact ⟨.enotsup, h, by decide⟩
              · exact ⟨.einval, h, by decide⟩
            have hEq2 := sysOpenat2_cfgErr cfg
              ({ root := root, nextFd := 4, fds := [(3, dir)], evs := [Ev.opened 3] } : Sys)
              3 file f true e hcfg
            have hOB : openFileImplBeneath cfg
                ({ root := root, nextFd := 4, fds := [(3, dir)], evs := [Ev.opened 3] } : Sys)
                3 file f true =
                (({ root := root, nextFd := 4, fds := [(3, dir)], evs := [Ev.openat2Call, Ev.opened 3] } : Sys), 0, false, some (.errno e)) := by
              unfold openFileImplBeneath
              rw [hEq2]
              simp only [hsup]
            obtain ⟨st1, err1, hres⟩ := atLegacy_noHandle
              ({ root := root, nextFd := 4, fds := [(3, dir)], evs := [Ev.openat2Call, Ev.opened 3] } : Sys)
              3 dir [] file f t rfl hwf1 hsep h1 h2 hchild
            exact openFileImpl_noHandle_of cfg (Sys.init root) dir file f
              true es st1 (-1) err1 hb
              (by
                show openFileImplBeneathFirst cfg ({ root := root, nextFd := 4, fds := [(3, dir)], evs := [Ev.opened 3] } : Sys) 3 file f true = _
                unfold openFileImplBeneathFirst
                rw [if_neg hfl, hOB]
                exact hres)
              (fun _ => by norm_num)

/-- A base directory holding a regular file `b` and a symbolic link `lnk`
whose target `b` lies within the base. -/
def linkFs : Node :=
  .dir [("b".data, .file [42]), ("lnk".data, .symlink "b".data)]

/-- **C1 (counterexample).**  With a working `openat2`, `OpenBeneath` on a
symbolic link whose target lies within the base does *not* fail: the fast
path (plain `RESOLVE_BENEATH`, no `RESOLVE_NO_SYMLINKS`) follows the link and
returns a handle on the target — while the legacy walker rejects the very
same input with `ELOOP`, and `OpenAt` rejects it in both modes.  The claim's
"all four operations fail ... even when the link's target lies within the
base ... when the fast kernel path is used" is therefore false for
`OpenBeneath`/`CreateBeneath`. -/
theorem c1_fastpath_follows_symlink_counterexample :
    (linuxOpenFileBeneath {} (Sys.init linkFs) [] "lnk".data oRDONLY).2.2 =
      none ∧
    (linuxOpenFileBeneath {} (Sys.init linkFs) [] "lnk".data oRDONLY).2.1 =
      some ⟨4, "lnk".data⟩ ∧
    Sys.at (linuxOpenFileBeneath {} (Sys.init linkFs) [] "lnk".data
      oRDONLY).1 4 = some ["b".data] ∧
    fileReadAll (linuxOpenFileBeneath {} (Sys.init linkFs) [] "lnk".data
        oRDONLY).1
      (linuxOpenFileBeneath {} (Sys.init linkFs) [] "lnk".data oRDONLY).2.1 =
      .ok [42] ∧
    (linuxOpenFileBeneath { forceLegacyMode := true } (Sys.init linkFs) []
      "lnk".data oRDONLY).2.1 = none ∧
    (linuxOpenFileBeneath { forceLegacyMode := true } (Sys.init linkFs) []
      "lnk".data oRDONLY).2.2 = some (.errno .eloop) ∧
    (linuxOpenFileAt {} (Sys.init linkFs) [] "lnk".data oRDONLY).2.1 =
      none ∧
    (linuxOpenFileAt {} (Sys.init linkFs) [] "lnk".data oRDONLY).2.2 =
      some (.errno .eloop) := by
  decide

/-- **C1 witness.**  The amended theorem applied to the concrete tree, once
per routing: forced-legacy `OpenBeneath`, the `ENOSYS` unsupported-kernel
fallback of `OpenBeneath`, and fast-path `OpenAt` all return no handle on
the in-base link. -/
theorem c1_symlink_rejection_scope_witness :
    (linuxOpenFileBeneath { forceLegacyMode := true } (Sys.init linkFs) []
      "lnk".data oRDONLY).2.1 = none ∧
    (linuxOpenFileBeneath { openat2Err := some .enosys } (Sys.init linkFs) []
      "lnk".data oRDONLY).2.1 = none ∧
    (linuxOpenFileAt {} (Sys.init linkFs) [] "lnk".data oRDONLY).2.1 =
      none :=
  ⟨c1_symlink_rejection_scope.1 linkFs [] "lnk".data "lnk".data oRDONLY
      { forceLegacyMode := true } (Or.inl rfl) (by decide) (by decide),
   c1_symlink_rejection_scope.1 linkFs [] "lnk".data "lnk".data oRDONLY
      { openat2Err := some .enosys } (Or.inr (Or.inl rfl)) (by decide)
      (by decide),
   c1_symlink_rejection_scope.2 linkFs [] "lnk".data oRDONLY {} "b".data
      (Or.inl rfl) rfl⟩

end Safeopen